import Mathlib

/-!
# Parallel-tempering simulated annealing for the TSP (d-tsuji/tpsa)

A shallow embedding of `tpsa.go` and `point.go`, followed by theorems about it.

Modelling conventions.

* The program is read twice. In the first reading `float64` inputs (configuration values,
  point coordinates, matrix entries, random draws) are finite numbers of an ordered field
  `α` and arithmetic on them is exact; a computed float that may leave the finite range
  through a division by zero is an `FVal α`: a finite number, `+Inf`, `-Inf` or `NaN`,
  with the IEEE-754 rules for those values. This reading serves the statements about exact
  real arithmetic and those that do not depend on the arithmetic. In the second reading
  (`saStepFl`, `exchangeSolutionFl`, `makeInitialDataFl`, ...) every arithmetic operation
  returns `rnd` of its exact result, for a rounding `rnd` such as `roundF64`, so that
  rounding, underflow and overflow are part of the model. The sign of zero is not
  modelled (a zero divisor counts as `+0`).
* `math.Exp` and `math.Sqrt` are parameters `expF` and `sqrtF` on finite arguments; in the
  second reading `math.Exp` is a parameter `expFl` with values in `FVal α`.
* Go slices are lists; an index out of range, a modulo by zero or a `make` with a
  negative length panics, which is the result `none`.
* Every `for` loop of the source is an instance of `forLoop` (step 1) or `stepLoop`
  (step 2).
* A random generator is the sequence of values it returns; the number of values
  already consumed travels with the state.
* `Size` is a row count and tour entries are made from `0..Size-1`, so both are
  natural numbers; `Thread`, `Period`, `MaxIteration` and `count` are Go `int`s, and
  the subtraction `t.Thread-1` that bounds the exchange loop wraps around at 64 bits.
-/

set_option linter.unusedSectionVars false

/-! ## The program: floating-point values, state, local search and exchange -/

namespace Tpsa

/-- Value of a `float64` computation: a finite number, an infinity or `NaN`. -/
inductive FVal (α : Type) where
  | fin (x : α)
  | pinf
  | ninf
  | nan
  deriving DecidableEq, Repr

namespace FVal

variable {α : Type} [LinearOrderedField α]

/-- Unary minus. -/
def neg : FVal α → FVal α
  | fin x => fin (-x)
  | pinf => ninf
  | ninf => pinf
  | nan => nan

/-- Addition: `Inf + (-Inf)` is `NaN`. -/
def add : FVal α → FVal α → FVal α
  | fin x, fin y => fin (x + y)
  | nan, _ => nan
  | _, nan => nan
  | pinf, ninf => nan
  | ninf, pinf => nan
  | pinf, _ => pinf
  | _, pinf => pinf
  | ninf, _ => ninf
  | _, ninf => ninf

/-- Subtraction. -/
def sub (a b : FVal α) : FVal α := add a (neg b)

/-- An infinity carrying the sign of `x`, and `NaN` when `x` is zero. -/
def signedInf (x : α) : FVal α :=
  if x = 0 then nan else if 0 < x then pinf else ninf

/-- Multiplication: `0 * Inf` is `NaN`. -/
def mul : FVal α → FVal α → FVal α
  | fin x, fin y => fin (x * y)
  | nan, _ => nan
  | _, nan => nan
  | fin x, pinf => signedInf x
  | fin x, ninf => signedInf (-x)
  | pinf, fin y => signedInf y
  | ninf, fin y => signedInf (-y)
  | pinf, pinf => pinf
  | ninf, ninf => pinf
  | pinf, ninf => ninf
  | ninf, pinf => ninf

/-- Division: `x / 0` is an infinity of the sign of `x`, `0 / 0` and `Inf / Inf`
are `NaN`, a finite number over an infinity is `0`. -/
def div : FVal α → FVal α → FVal α
  | fin x, fin y => if y = 0 then signedInf x else fin (x / y)
  | nan, _ => nan
  | _, nan => nan
  | fin _, pinf => fin 0
  | fin _, ninf => fin 0
  | pinf, fin y => if y < 0 then ninf else pinf
  | ninf, fin y => if y < 0 then pinf else ninf
  | pinf, pinf => nan
  | pinf, ninf => nan
  | ninf, pinf => nan
  | ninf, ninf => nan

/-- The exponential `math.Exp`, given by `expF` on finite arguments. -/
def exp (expF : α → α) : FVal α → FVal α
  | fin x => fin (expF x)
  | pinf => pinf
  | ninf => fin 0
  | nan => nan

/-- The comparison `a < b`; false when either side is `NaN`. -/
def lt : FVal α → FVal α → Bool
  | fin x, fin y => decide (x < y)
  | nan, _ => false
  | _, nan => false
  | ninf, ninf => false
  | ninf, _ => true
  | _, ninf => false
  | pinf, _ => false
  | _, pinf => true

/-- The comparison `a <= b`; false when either side is `NaN`. -/
def le : FVal α → FVal α → Bool
  | fin x, fin y => decide (x ≤ y)
  | nan, _ => false
  | _, nan => false
  | ninf, _ => true
  | _, pinf => true
  | pinf, _ => false
  | _, ninf => false

end FVal

/-- The struct `Point` of `point.go`. -/
structure Point (α : Type) where
  X : α
  Y : α
  deriving DecidableEq, Repr

/-- The struct `TPSAConfig`, without the data file name. -/
structure TPSAConfig (α : Type) where
  MinTemp : α
  MaxTemp : α
  Thread : Int
  Period : Int
  MaxIteration : Int
  deriving DecidableEq, Repr

/-- The struct `TPSA`: the configuration, the temperature ladder, one tour per
slot, the distance matrix and the number of cities. -/
structure TPSA (α : Type) extends TPSAConfig α where
  Temperatures : List (FVal α)
  Tours : List (List Nat)
  Matrix : List (List α)
  Size : Nat
  deriving DecidableEq, Repr

/-- The loop `for i := lo; i < lo + r; i++ { body }`: `r` iterations are left and
`i` is the current index. A panic in the body ends the loop with `none`. -/
def forLoop {σ : Type} (body : Nat → σ → Option σ) : Nat → Nat → σ → Option σ
  | 0, _, s => some s
  | r + 1, i, s => (body i s).bind (forLoop body r (i + 1))

/-- The loop `for i := i0; i < bound; i += 2 { body }`. -/
def stepLoop {σ : Type} (body : Nat → σ → Option σ) (bound : Int) (i : Nat) (s : σ) :
    Option σ :=
  if (i : Int) < bound then (body i s).bind (stepLoop body bound (i + 2)) else some s
termination_by (bound - i).toNat
decreasing_by omega

section Program

variable {α : Type} [LinearOrderedField α]

/-- The function `dist`: Euclidean distance of two points. -/
def dist (sqrtF : α → α) (p1 p2 : Point α) : α :=
  sqrtF ((p1.X - p2.X) ^ 2 + (p1.Y - p2.Y) ^ 2)

/-- The method `getCost`: `t.Matrix[tour[n % Size]][tour[m % Size]]`. -/
def getCost (t : TPSA α) (tour : List Nat) (n m : Nat) : Option α :=
  if t.Size = 0 then none
  else do
    let a ← tour[n % t.Size]?
    let b ← tour[m % t.Size]?
    let row ← t.Matrix[a]?
    row[b]?

/-- The method `getTotalCost`: the accumulator loop over `i < len(tour)`. -/
def getTotalCost (t : TPSA α) (tour : List Nat) : Option α :=
  forLoop (fun i ret => (getCost t tour i (i + 1)).map (fun c => ret + c)) tour.length 0 0

/-- The method `flip`: swaps positions `i` and `j` of `Tours[threadNumber]`. -/
def flip (t : TPSA α) (threadNumber i j : Nat) : Option (TPSA α) := do
  let tour ← t.Tours[threadNumber]?
  let a ← tour[i]?
  let b ← tour[j]?
  some { t with Tours := t.Tours.set threadNumber ((tour.set i b).set j a) }

/-- The method `exchange`: `math.Exp(-cost / temp)`. -/
def exchange (expF : α → α) (cost temp : FVal α) : FVal α :=
  FVal.exp expF (FVal.div (FVal.neg cost) temp)

/-- The body of the innermost loop of `sa` at the pair `(i, j)` with the draw `p`. -/
def saStep (expF : α → α) (t : TPSA α) (threadNumber i j : Nat) (p : α) :
    Option (TPSA α) := do
  let tour ← t.Tours[threadNumber]?
  let c1 ← getCost t tour i (i + 1)
  let c2 ← getCost t tour j (j + 1)
  let current := c1 + c2
  let n1 ← getCost t tour i j
  let n2 ← getCost t tour (i + 1) (j + 1)
  let next := n1 + n2
  let temp ← t.Temperatures[threadNumber]?
  let q := exchange expF (FVal.fin (next - current)) temp
  let force := FVal.le (FVal.fin p) q
  if decide (next < current) || force then
    forLoop (fun k s => flip s threadNumber (i + 1 + k) (j - k)) ((j - i) / 2) 0 t
  else
    some t

/-- One pass of `sa`: the loops over `i` and `j`. The state is the solver state and
the number of draws consumed from `draws`. -/
def saPass (expF : α → α) (threadNumber n : Nat) (draws : Nat → α) (s : TPSA α × Nat) :
    Option (TPSA α × Nat) :=
  forLoop (fun i =>
    forLoop (fun j s =>
      (saStep expF s.1 threadNumber i j (draws s.2)).map (fun t => (t, s.2 + 1)))
      (n - (i + 2)) (i + 2))
    (n - 2) 0 s

/-- The method `sa`: `Period` passes over `Tours[threadNumber]`, with the worker's
own generator returning `draws 0, draws 1, ...`. -/
def sa (expF : α → α) (t : TPSA α) (threadNumber : Nat) (draws : Nat → α) :
    Option (TPSA α) :=
  (forLoop (fun _ s => saPass expF threadNumber t.Size draws s)
    t.Period.toNat 0 (t, 0)).map Prod.fst

/-- The method `exchangeSolution` with the draw `p`. -/
def exchangeSolution (expF : α → α) (t : TPSA α) (cur next : Nat) (p : α) :
    Option (TPSA α) := do
  let tn ← t.Temperatures[next]?
  let tc ← t.Temperatures[cur]?
  let deltaTemperature := FVal.sub tn tc
  let tourNext ← t.Tours[next]?
  let vn ← getTotalCost t tourNext
  let tourCur ← t.Tours[cur]?
  let vc ← getTotalCost t tourCur
  let deltaValue : FVal α := FVal.fin (vn - vc)
  let q := FVal.exp expF
    (FVal.div (FVal.mul (FVal.neg deltaTemperature) deltaValue) (FVal.mul tn tc))
  if FVal.lt (FVal.mul deltaTemperature deltaValue) (FVal.fin 0)
      || FVal.le (FVal.fin p) q then
    some { t with Tours := (t.Tours.set next tourCur).set cur tourNext }
  else
    some t

/-- The value of an `int` expression whose exact value is `x`: Go's `int` has 64 bits
and wraps around, so `wrapInt (MinInt64 - 1)` is `MaxInt64`. -/
def wrapInt (x : Int) : Int := (x + 2 ^ 63) % 2 ^ 64 - 2 ^ 63

/-- The control flow of `exchangeSolutions`: `body i (i+1)` for `i = 0, 2, 4, ...`
below `Thread - 1` when `count` is even and for `i = 1, 3, 5, ...` when it is odd. The
bound `t.Thread-1` is an `int` subtraction and wraps around. -/
def exchangeSchedule {σ : Type} (body : Nat → Nat → σ → Option σ) (thread count : Int)
    (s : σ) : Option σ :=
  if count.tmod 2 = 0 then stepLoop (fun i => body i (i + 1)) (wrapInt (thread - 1)) 0 s
  else stepLoop (fun i => body i (i + 1)) (wrapInt (thread - 1)) 1 s

/-- The method `exchangeSolutions`. The state is the solver state and the number of
draws consumed from the global generator `draws`. -/
def exchangeSolutions (expF : α → α) (draws : Nat → α) (count : Int) (s : TPSA α × Nat) :
    Option (TPSA α × Nat) :=
  exchangeSchedule
    (fun cur next s => (exchangeSolution expF s.1 cur next (draws s.2)).map
      (fun t => (t, s.2 + 1)))
    s.1.Thread count s

/-- The calls `exchangeSolution(cur, next)` that `exchangeSolutions(count)` makes, in
order: the schedule run with a body that records its arguments. -/
def exchangeCalls (thread count : Int) : Option (List (Nat × Nat)) :=
  exchangeSchedule (fun cur next log => some (log ++ [(cur, next)])) thread count []

end Program

end Tpsa

/-! ## The program: loading the data and the initial state -/

namespace Tpsa
section LoadData
variable {α : Type} [LinearOrderedField α]

/-- The assignment `m[i] = row` on a slice of rows. -/
def setRow (m : List (List α)) (i : Nat) (row : List α) : Option (List (List α)) :=
  if i < m.length then some (m.set i row) else none

/-- The assignment `m[i][j] = v`. -/
def setEntry (m : List (List α)) (i j : Nat) (v : α) : Option (List (List α)) := do
  let row ← m[i]?
  if j < row.length then some (m.set i (row.set j v)) else none

/-- The construction of the distance matrix in `loadData`, from the points read from
the file and their number: `size` rows are made, each row is made of `size` zeros, and
the loops over `i < size` and `i < j < size` store `dist(xys[i], xys[j])` at
`[i][j]` and at `[j][i]`. -/
def buildMatrix (sqrtF : α → α) (xys : List (Point α)) (size : Nat) :
    Option (List (List α)) := do
  let m0 : List (List α) := List.replicate size []
  let m1 ← forLoop (fun i m => setRow m i (List.replicate size 0)) size 0 m0
  forLoop (fun i =>
    forLoop (fun j m => do
      let p1 ← xys[i]?
      let p2 ← xys[j]?
      let cost := dist sqrtF p1 p2
      let m' ← setEntry m i j cost
      setEntry m' j i cost)
      (size - (i + 1)) (i + 1))
    size 0 m1

/-- The method `loadData` on the points `xys` read from the data file: `Size` is their
number and `Matrix` is built from them. Reading and parsing the file is not modelled. -/
def loadData (sqrtF : α → α) (t : TPSA α) (xys : List (Point α)) : Option (TPSA α) :=
  (buildMatrix sqrtF xys xys.length).map
    (fun m => { t with Size := xys.length, Matrix := m })

end LoadData
end Tpsa

namespace Tpsa
section Initial
variable {α : Type} [LinearOrderedField α]

/-- The assignment `l[idx] = v` with an `int` index. -/
def setAt {β : Type} (l : List β) (idx : Int) (v : β) : Option (List β) :=
  if 0 ≤ idx ∧ idx < l.length then some (l.set idx.toNat v) else none

/-- The closure passed to `rand.Shuffle`: `tour[i], tour[j] = tour[j], tour[i]`. -/
def swapAt (l : List Nat) (i j : Nat) : Option (List Nat) := do
  let a ← l[i]?
  let b ← l[j]?
  some ((l.set i b).set j a)

/-- The library call `rand.Shuffle(len(tour), swap)`: for `i` from `len(tour) - 1` down
to `1` it picks `j` in `0..i` and calls `swap(i, j)`. The pick of the `m`-th round is
`rnd m` reduced modulo `i + 1`. -/
def shuffle (rnd : Nat → Nat) (tour : List Nat) : Option (List Nat) :=
  forLoop (fun m l => swapAt l (tour.length - 1 - m) (rnd m % (tour.length - 1 - m + 1)))
    (tour.length - 1) 0 tour

/-- The builtin `copy(dst, src)`: the first `min(len(dst), len(src))` entries of `dst`
are replaced by those of `src`. -/
def copy (dst src : List Nat) : List Nat :=
  src.take dst.length ++ dst.drop src.length

/-- The method `makeInitialData`, with the picks `rnd` of the shuffle: the ladder is
filled from the last slot to the first with `interval * i + MinTemp`, the tour
`0..Size-1` is shuffled, and every slot gets a copy of it. -/
def makeInitialData (t : TPSA α) (rnd : Nat → Nat) : Option (TPSA α) :=
  if t.Thread < 0 then none
  else do
    let t1 : TPSA α := { t with Temperatures := List.replicate t.Thread.toNat (FVal.fin 0) }
    let t2 : TPSA α := { t1 with Tours := List.replicate t.Thread.toNat [] }
    let interval :=
      FVal.div (FVal.fin (t2.MaxTemp - t2.MinTemp)) (FVal.fin (((t2.Thread - 1 : Int)) : α))
    let t3 ← forLoop (fun i u =>
        (setAt u.Temperatures (u.Thread - 1 - i)
          (FVal.add (FVal.mul interval (FVal.fin (i : α))) (FVal.fin u.MinTemp))).map
          (fun temps => { u with Temperatures := temps }))
      t2.Thread.toNat 0 t2
    let tour0 ← forLoop (fun i l => some (l ++ [i])) t3.Size 0 []
    let tour ← shuffle rnd tour0
    forLoop (fun i u =>
        (setAt u.Tours i (copy (List.replicate u.Size 0) tour)).map
          (fun tours => { u with Tours := tours }))
      t3.Thread.toNat 0 t3

end Initial
end Tpsa

namespace Tpsa
section SolveLoop
variable {α : Type} [LinearOrderedField α]

/-- The parallel phase of one iteration of `Solve`: one worker `sa(i)` per slot
`i < Thread`, worker `i` drawing from its own generator `workerDraws i`. The workers
touch disjoint tours, so they are run one after the other in the order of their index;
a panic in a worker ends the program. -/
def saAll (expF : α → α) (workerDraws : Nat → Nat → α) (t : TPSA α) : Option (TPSA α) :=
  forLoop (fun i u => sa expF u i (workerDraws i)) t.Thread.toNat 0 t

/-- The loop of `Solve`: `MaxIteration` times the parallel phase followed by
`exchangeSolutions(iteration)`. The worker `i` of iteration `it` draws from
`workerDraws it i`, the exchanges draw from the global generator `draws`; the state
carries the number of draws consumed from it. -/
def solveLoop (expF : α → α) (workerDraws : Nat → Nat → Nat → α) (draws : Nat → α)
    (s : TPSA α × Nat) : Option (TPSA α × Nat) :=
  forLoop (fun iteration u => do
      let t' ← saAll expF (workerDraws iteration) u.1
      exchangeSolutions expF draws (iteration : Int) (t', u.2))
    s.1.MaxIteration.toNat 0 s

/-- The method `initialize` (a reserved word here, hence the longer name) on the points
read from the data file. -/
def initializeTPSA (sqrtF : α → α) (t : TPSA α) (xys : List (Point α)) (rnd : Nat → Nat) :
    Option (TPSA α) := do
  let t1 ← loadData sqrtF t xys
  makeInitialData t1 rnd

/-- The value that `printSolution` prints as the solution: `getTotalCost` of
`Tours[Thread-1]`. The reading of the reference tour is not modelled. -/
def printSolution (t : TPSA α) : Option α :=
  if 0 ≤ t.Thread - 1 then do
    let tour ← t.Tours[(t.Thread - 1).toNat]?
    getTotalCost t tour
  else none

/-- The method `Solve`: the final state and the printed solution value. -/
def Solve (expF sqrtF : α → α) (t : TPSA α) (xys : List (Point α)) (rnd : Nat → Nat)
    (workerDraws : Nat → Nat → Nat → α) (draws : Nat → α) : Option (TPSA α × α) := do
  let t1 ← initializeTPSA sqrtF t xys rnd
  let s ← solveLoop expF workerDraws draws (t1, 0)
  let v ← printSolution s.1
  some (s.1, v)

end SolveLoop
end Tpsa
/-! ## The program in float64 arithmetic

The definitions above compute with exact numbers. The definitions of this part are the same
functions with the arithmetic of `float64` made explicit: every `+`, `-`, `*`, `/` and every
conversion `float64(i)` of the source returns `rnd` of its exact result, where `rnd x` is the
`float64` that stands for the real number `x` (an infinity when `x` is too large, zero when
it is too small), and `math.Exp` is a function `expFl` into the `float64` values. Each
operation is rounded on its own. With `rnd = FVal.fin` they are the definitions above. -/

namespace Tpsa

namespace FVal

variable {α : Type} [LinearOrderedField α]

/-- The sum `a + b` of two `float64`: the rounded exact sum when both are finite. -/
def addR (rnd : α → FVal α) (a b : FVal α) : FVal α :=
  match a, b with
  | fin x, fin y => rnd (x + y)
  | _, _ => add a b

/-- The difference `a - b` of two `float64`. -/
def subR (rnd : α → FVal α) (a b : FVal α) : FVal α := addR rnd a (neg b)

/-- The product `a * b` of two `float64`: the rounded exact product when both are
finite. -/
def mulR (rnd : α → FVal α) (a b : FVal α) : FVal α :=
  match a, b with
  | fin x, fin y => rnd (x * y)
  | _, _ => mul a b

/-- The quotient `a / b` of two `float64`: the rounded exact quotient when both are finite
and `b` is not zero. -/
def divR (rnd : α → FVal α) (a b : FVal α) : FVal α :=
  match a, b with
  | fin x, fin y => if y = 0 then signedInf x else rnd (x / y)
  | _, _ => div a b

/-- The call `math.Exp(a)`, given by `expFl` on finite arguments. -/
def expR (expFl : α → FVal α) : FVal α → FVal α
  | fin x => expFl x
  | pinf => pinf
  | ninf => fin 0
  | nan => nan

end FVal

section ProgramFl

variable {α : Type} [LinearOrderedField α]

/-- The method `getTotalCost` in float64 arithmetic: the accumulator `ret` is a `float64`
and every `ret += cost` is rounded. -/
def getTotalCostFl (rnd : α → FVal α) (t : TPSA α) (tour : List Nat) : Option (FVal α) :=
  forLoop (fun i ret => (getCost t tour i (i + 1)).map (fun c => FVal.addR rnd ret (FVal.fin c)))
    tour.length 0 (FVal.fin 0)

/-- The method `exchange` in float64 arithmetic: `math.Exp(-cost / temp)`. -/
def exchangeFl (rnd : α → FVal α) (expFl : α → FVal α) (cost temp : FVal α) : FVal α :=
  FVal.expR expFl (FVal.divR rnd (FVal.neg cost) temp)

/-- The body of the innermost loop of `sa` in float64 arithmetic, at the pair `(i, j)` with
the draw `p`. -/
def saStepFl (rnd : α → FVal α) (expFl : α → FVal α) (t : TPSA α) (threadNumber i j : Nat)
    (p : α) : Option (TPSA α) := do
  let tour ← t.Tours[threadNumber]?
  let c1 ← getCost t tour i (i + 1)
  let c2 ← getCost t tour j (j + 1)
  let current := FVal.addR rnd (FVal.fin c1) (FVal.fin c2)
  let n1 ← getCost t tour i j
  let n2 ← getCost t tour (i + 1) (j + 1)
  let next := FVal.addR rnd (FVal.fin n1) (FVal.fin n2)
  let temp ← t.Temperatures[threadNumber]?
  let q := exchangeFl rnd expFl (FVal.subR rnd next current) temp
  let force := FVal.le (FVal.fin p) q
  if FVal.lt next current || force then
    forLoop (fun k s => flip s threadNumber (i + 1 + k) (j - k)) ((j - i) / 2) 0 t
  else
    some t

/-- One pass of `sa` in float64 arithmetic. -/
def saPassFl (rnd : α → FVal α) (expFl : α → FVal α) (threadNumber n : Nat) (draws : Nat → α)
    (s : TPSA α × Nat) : Option (TPSA α × Nat) :=
  forLoop (fun i =>
    forLoop (fun j s =>
      (saStepFl rnd expFl s.1 threadNumber i j (draws s.2)).map (fun t => (t, s.2 + 1)))
      (n - (i + 2)) (i + 2))
    (n - 2) 0 s

/-- The method `sa` in float64 arithmetic. -/
def saFl (rnd : α → FVal α) (expFl : α → FVal α) (t : TPSA α) (threadNumber : Nat)
    (draws : Nat → α) : Option (TPSA α) :=
  (forLoop (fun _ s => saPassFl rnd expFl threadNumber t.Size draws s)
    t.Period.toNat 0 (t, 0)).map Prod.fst

/-- The method `exchangeSolution` in float64 arithmetic, with the draw `p`. -/
def exchangeSolutionFl (rnd : α → FVal α) (expFl : α → FVal α) (t : TPSA α) (cur next : Nat)
    (p : α) : Option (TPSA α) := do
  let tn ← t.Temperatures[next]?
  let tc ← t.Temperatures[cur]?
  let deltaTemperature := FVal.subR rnd tn tc
  let tourNext ← t.Tours[next]?
  let vn ← getTotalCostFl rnd t tourNext
  let tourCur ← t.Tours[cur]?
  let vc ← getTotalCostFl rnd t tourCur
  let deltaValue := FVal.subR rnd vn vc
  let q := FVal.expR expFl
    (FVal.divR rnd (FVal.mulR rnd (FVal.neg deltaTemperature) deltaValue)
      (FVal.mulR rnd tn tc))
  if FVal.lt (FVal.mulR rnd deltaTemperature deltaValue) (FVal.fin 0)
      || FVal.le (FVal.fin p) q then
    some { t with Tours := (t.Tours.set next tourCur).set cur tourNext }
  else
    some t

/-- The method `exchangeSolutions` in float64 arithmetic. -/
def exchangeSolutionsFl (rnd : α → FVal α) (expFl : α → FVal α) (draws : Nat → α)
    (count : Int) (s : TPSA α × Nat) : Option (TPSA α × Nat) :=
  exchangeSchedule
    (fun cur next s => (exchangeSolutionFl rnd expFl s.1 cur next (draws s.2)).map
      (fun t => (t, s.2 + 1)))
    s.1.Thread count s

/-- The parallel phase of one iteration of `Solve` in float64 arithmetic. -/
def saAllFl (rnd : α → FVal α) (expFl : α → FVal α) (workerDraws : Nat → Nat → α)
    (t : TPSA α) : Option (TPSA α) :=
  forLoop (fun i u => saFl rnd expFl u i (workerDraws i)) t.Thread.toNat 0 t

/-- The loop of `Solve` in float64 arithmetic. -/
def solveLoopFl (rnd : α → FVal α) (expFl : α → FVal α)
    (workerDraws : Nat → Nat → Nat → α) (draws : Nat → α) (s : TPSA α × Nat) :
    Option (TPSA α × Nat) :=
  forLoop (fun iteration u => do
      let t' ← saAllFl rnd expFl (workerDraws iteration) u.1
      exchangeSolutionsFl rnd expFl draws (iteration : Int) (t', u.2))
    s.1.MaxIteration.toNat 0 s

/-- The value that `printSolution` prints in float64 arithmetic. -/
def printSolutionFl (rnd : α → FVal α) (t : TPSA α) : Option (FVal α) :=
  if 0 ≤ t.Thread - 1 then do
    let tour ← t.Tours[(t.Thread - 1).toNat]?
    getTotalCostFl rnd t tour
  else none

/-- The method `makeInitialData` in float64 arithmetic: `interval` is
`(MaxTemp - MinTemp) / float64(Thread-1)` and slot `Thread-1-i` gets
`interval*float64(i) + MinTemp`, every operation and conversion rounded. -/
def makeInitialDataFl (rnd : α → FVal α) (t : TPSA α) (pick : Nat → Nat) :
    Option (TPSA α) :=
  if t.Thread < 0 then none
  else do
    let t1 : TPSA α := { t with Temperatures := List.replicate t.Thread.toNat (FVal.fin 0) }
    let t2 : TPSA α := { t1 with Tours := List.replicate t.Thread.toNat [] }
    let interval :=
      FVal.divR rnd (FVal.subR rnd (FVal.fin t2.MaxTemp) (FVal.fin t2.MinTemp))
        (rnd (((t2.Thread - 1 : Int)) : α))
    let t3 ← forLoop (fun i u =>
        (setAt u.Temperatures (u.Thread - 1 - i)
          (FVal.addR rnd (FVal.mulR rnd interval (rnd (i : α))) (FVal.fin u.MinTemp))).map
          (fun temps => { u with Temperatures := temps }))
      t2.Thread.toNat 0 t2
    let tour0 ← forLoop (fun i l => some (l ++ [i])) t3.Size 0 []
    let tour ← shuffle pick tour0
    forLoop (fun i u =>
        (setAt u.Tours i (copy (List.replicate u.Size 0) tour)).map
          (fun tours => { u with Tours := tours }))
      t3.Thread.toNat 0 t3

end ProgramFl

end Tpsa


/-! ## Vocabulary of the statements -/

namespace Tpsa
section Predicates
variable {α : Type} [LinearOrderedField α]

/-- The state `t` with the tour of slot `k` replaced by `tour`. -/
def withTour (t : TPSA α) (k : Nat) (tour : List Nat) : TPSA α :=
  { t with Tours := t.Tours.set k tour }

/-- The matrix of `t` has `Size` rows of `Size` entries. -/
def SquareMatrix (t : TPSA α) : Prop :=
  t.Matrix.length = t.Size ∧ ∀ row ∈ t.Matrix, row.length = t.Size

/-- The invariant of `sa` on slot `k` of the state `t`: the current state is `t` up to
the tour of slot `k`, which is a permutation of `0..Size-1`. -/
def SaInv (t : TPSA α) (k : Nat) (s : TPSA α) : Prop :=
  ∃ tour, s = withTour t k tour ∧ tour.Perm (List.range t.Size)

end Predicates
end Tpsa

namespace Tpsa
section Predicates2
variable {α : Type} [LinearOrderedField α]

/-- A well-formed solver state: the matrix is `Size x Size`, there are `Thread` tours
and `Thread` temperatures, and every tour has `Size` entries below `Size`. -/
def WellFormed (t : TPSA α) : Prop :=
  SquareMatrix t ∧ (t.Tours.length : Int) = t.Thread ∧
    (t.Temperatures.length : Int) = t.Thread ∧
    ∀ tour ∈ t.Tours, tour.length = t.Size ∧ ∀ x ∈ tour, x < t.Size

end Predicates2
end Tpsa

namespace Tpsa
section Statements
variable {α : Type} [LinearOrderedField α]

/-- The matrix entry `Matrix[a][b]`, read as `0` outside the matrix. -/
def cost (t : TPSA α) (a b : Nat) : α :=
  (t.Matrix.getD a []).getD b 0

end Statements
end Tpsa

namespace Tpsa
section MatrixEntries
variable {α : Type} [LinearOrderedField α]

/-- The entry `m[a][b]`, read as `0` outside the matrix. -/
def entry (m : List (List α)) (a b : Nat) : α :=
  (m.getD a []).getD b 0

/-- The pairs `(a, b)` of distinct indices below `n` that the construction loops have
stored when the outer loop is at `i` and the inner loop at `j`. -/
def PairDone (n i j a b : Nat) : Prop :=
  (a < b ∧ b < n ∧ (a < i ∨ (a = i ∧ b < j))) ∨
  (b < a ∧ a < n ∧ (b < i ∨ (b = i ∧ a < j)))

end MatrixEntries
end Tpsa

namespace Tpsa
section LoadData2
variable {α : Type} [LinearOrderedField α]

/-- The invariant of the construction loops at the outer index `i` and the inner index
`j`: the matrix is square, the entries of the pairs stored so far are the distances of
their points, and every other entry is `0`. -/
def BuildInv (sqrtF : α → α) (xys : List (Point α)) (i j : Nat) (m : List (List α)) :
    Prop :=
  m.length = xys.length ∧ (∀ row ∈ m, row.length = xys.length) ∧
    ∀ a b,
      (PairDone xys.length i j a b →
        entry m a b = dist sqrtF (xys.getD a ⟨0, 0⟩) (xys.getD b ⟨0, 0⟩)) ∧
      (¬ PairDone xys.length i j a b → entry m a b = 0)

end LoadData2
end Tpsa

namespace Tpsa
section ListCost
variable {α : Type} [LinearOrderedField α]

/-- The cost of walking along a list of cities: the sum of `c` over consecutive pairs. -/
def pathCost (c : Nat → Nat → α) : List Nat → α
  | a :: b :: rest => c a b + pathCost c (b :: rest)
  | _ => 0

/-- The cost of the step from the last city of `xs` to the first city of `ys`, and `0`
when one of them is empty. -/
def link (c : Nat → Nat → α) (xs ys : List Nat) : α :=
  match xs.getLast?, ys.head? with
  | some a, some b => c a b
  | _, _ => 0

/-- The cost of the closed walk along a list of cities, back to its first city. -/
def cycleCost (c : Nat → Nat → α) (xs : List Nat) : α :=
  pathCost c (xs ++ xs.take 1)

end ListCost
end Tpsa

namespace Tpsa

/-- The indices `i0, i0 + 2, i0 + 4, ...` below `bound`, in increasing order. -/
def slotsFrom (bound : Int) (i0 : Nat) : List Nat :=
  (List.range bound.toNat).filter (fun x => decide (i0 ≤ x ∧ x % 2 = i0 % 2))

/-- The slots `i` with `0 <= i < Thread - 1` and `i mod 2 = count mod 2`, in increasing
order. -/
def scheduledSlots (thread count : Int) : List Nat :=
  (List.range (thread - 1).toNat).filter (fun i => decide ((i : Int) % 2 = count % 2))

end Tpsa

namespace Tpsa

/-- Two computations that may panic agree up to `R`: both panic, or both return and the
results are related by `R`. -/
def OptRel {σ τ : Type} (R : σ → τ → Prop) (x : Option σ) (y : Option τ) : Prop :=
  (x = none ∧ y = none) ∨ ∃ a b, x = some a ∧ y = some b ∧ R a b

end Tpsa

namespace Tpsa
section SolveInvariant
variable {α : Type} [LinearOrderedField α]

/-- The invariant of the loop of `Solve` started in `t`: the state `u` is well formed,
has the ladder, the matrix, `Size` and the configuration of `t`, and every tour of `u`
is a rearrangement of a tour of `t`. -/
def SolveInv (t u : TPSA α) : Prop :=
  WellFormed u ∧ u.Temperatures = t.Temperatures ∧ u.Matrix = t.Matrix ∧
    u.Size = t.Size ∧ u.toTPSAConfig = t.toTPSAConfig ∧
    ∀ tour' ∈ u.Tours, ∃ tour0 ∈ t.Tours, tour'.Perm tour0

end SolveInvariant
end Tpsa

/-! ## Concrete states for the examples -/

namespace Tpsa

/-- A stand-in for the exponential on rational numbers: positive, increasing, `1` at `0`. -/
def demoExp (x : ℚ) : ℚ := if x < 0 then 1 / (1 - x) else 1 + x

/-- Four cities on the corners of a square under the taxicab distance, two slots. -/
def demoState : TPSA ℚ :=
  { MinTemp := 1, MaxTemp := 2, Thread := 2, Period := 1, MaxIteration := 1,
    Temperatures := [FVal.fin 2, FVal.fin 1],
    Tours := [[0, 1, 2, 3], [3, 1, 0, 2]],
    Matrix := [[0, 1, 2, 1], [1, 0, 1, 2], [2, 1, 0, 1], [1, 2, 1, 0]],
    Size := 4 }

end Tpsa

namespace Tpsa

/-- Three points for the examples. -/
def demoPoints : List (Point ℚ) := [⟨0, 0⟩, ⟨3, 0⟩, ⟨0, 4⟩]

end Tpsa

namespace Tpsa

/-- Three cities with a symmetric matrix, two slots holding the tour `0,1,2`. -/
def triState : TPSA ℚ :=
  { MinTemp := 1, MaxTemp := 2, Thread := 2, Period := 1, MaxIteration := 2,
    Temperatures := [FVal.fin 2, FVal.fin 1],
    Tours := [[0, 1, 2], [0, 1, 2]],
    Matrix := [[0, 1, 2], [1, 0, 3], [2, 3, 0]],
    Size := 3 }

end Tpsa
namespace Tpsa

/-- The four-city state with `Thread` set to the least `int`. -/
def minThreadState : TPSA ℚ :=
  { demoState with Thread := -2 ^ 63 }

end Tpsa

/-! ## The rounding of float64 -/

namespace Tpsa

/-- The integer nearest to `y`, the even one of the two when `y` lies halfway between two
integers. -/
def roundHalfEven (y : ℚ) : ℤ :=
  if y - ⌊y⌋ < 1 / 2 then ⌊y⌋
  else if 1 / 2 < y - ⌊y⌋ then ⌊y⌋ + 1
  else if ⌊y⌋ % 2 = 0 then ⌊y⌋ else ⌊y⌋ + 1

/-- The exponent of the spacing of the `float64` numbers around the magnitude `a`: the
numbers of `[2^e, 2^(e+1))` are `2^(e-52)` apart, and below `2^(-1022)` they are
`2^(-1074)` apart. -/
def ulpExp (a : ℚ) : ℤ := max (Int.log 2 a) (-1022) - 52

/-- The magnitude `a` rounded to the nearest multiple of the spacing around it, ties to
the even multiple. -/
def roundMag (a : ℚ) : ℚ := (roundHalfEven (a / 2 ^ ulpExp a) : ℚ) * 2 ^ ulpExp a

/-- The `float64` nearest to the rational number `x` (IEEE-754 binary64, ties to even):
the rounded magnitude with the sign of `x`, an infinity when the rounded magnitude
reaches `2^1024`. -/
def roundF64 (x : ℚ) : FVal ℚ :=
  if x = 0 then FVal.fin 0
  else if 2 ^ (1024 : ℤ) ≤ roundMag |x| then (if 0 < x then FVal.pinf else FVal.ninf)
  else if 0 < x then FVal.fin (roundMag |x|)
  else FVal.fin (-roundMag |x|)

/-- A stand-in for `math.Exp` on rational numbers, see `demoExp`. -/
def demoExpFl (x : ℚ) : FVal ℚ := FVal.fin (demoExp x)

end Tpsa

namespace Tpsa

/-- A cost of `2^(-500)`, a `float64`. -/
def smallCost : ℚ := 2 ^ (-500 : ℤ)

/-- Four cities of which only `0` and `1` are apart, by `smallCost`; slot 0 is at the
temperature `tc` and holds the tour `0,2,1,3` of cost `0`, slot 1 is at the temperature
`tn` and holds the tour `0,1,2,3` of cost `smallCost`. -/
def pairState (tc tn : ℚ) : TPSA ℚ :=
  { MinTemp := tn, MaxTemp := tc, Thread := 2, Period := 1, MaxIteration := 1,
    Temperatures := [FVal.fin tc, FVal.fin tn],
    Tours := [[0, 2, 1, 3], [0, 1, 2, 3]],
    Matrix := [[0, smallCost, 0, 0], [smallCost, 0, 0, 0], [0, 0, 0, 0], [0, 0, 0, 0]],
    Size := 4 }

end Tpsa

namespace Tpsa

/-- A temperature of `2^(-600)`, a positive `float64`. -/
def tinyTemp : ℚ := 2 ^ (-600 : ℤ)

/-- A temperature of `2^(-599)`, twice `tinyTemp`. -/
def hotTemp : ℚ := 2 ^ (-599 : ℤ)

end Tpsa

namespace Tpsa

/-- A distance of `2^1023`, a finite `float64`. -/
def hugeCost : ℚ := 2 ^ (1023 : ℤ)

/-- Three cities that are `c` apart from each other, one slot at the temperature `2`
holding the tour `0,1,2`. -/
def triFl (c : ℚ) : TPSA ℚ :=
  { MinTemp := 2, MaxTemp := 2, Thread := 1, Period := 1, MaxIteration := 1,
    Temperatures := [FVal.fin 2],
    Tours := [[0, 1, 2]],
    Matrix := [[0, c, c], [c, 0, c], [c, c, 0]],
    Size := 3 }

end Tpsa

namespace Tpsa

/-- A configuration with two slots between the temperatures `-2^1023` and `2^1023`, both
finite `float64`, and no cities. -/
def wideState : TPSA ℚ :=
  { MinTemp := -hugeCost, MaxTemp := hugeCost, Thread := 2, Period := 1, MaxIteration := 1,
    Temperatures := [],
    Tours := [],
    Matrix := [],
    Size := 0 }

end Tpsa


/-! # Theorems -/

namespace Tpsa

/-! ## Loops -/

/-- A loop whose body never panics on a state satisfying the invariant returns, and the
invariant holds of the result. -/
theorem forLoop_total {σ : Type} (P : Nat → σ → Prop) (body : Nat → σ → Option σ) :
    ∀ (r lo : Nat) (s : σ), P lo s →
      (∀ i s, lo ≤ i → i < lo + r → P i s → ∃ s', body i s = some s' ∧ P (i + 1) s') →
      ∃ s', forLoop body r lo s = some s' ∧ P (lo + r) s' := by
  intro r
  induction r with
  | zero => intro lo s h0 _; exact ⟨s, rfl, by simpa using h0⟩
  | succ r ih =>
    intro lo s h0 hstep
    obtain ⟨s1, hb, h1⟩ := hstep lo s (Nat.le_refl _) (by omega) h0
    obtain ⟨s2, hl, h2⟩ := ih (lo + 1) s1 h1
      (fun i u hi hlt hP => hstep i u (by omega) (by omega) hP)
    refine ⟨s2, ?_, ?_⟩
    · simp [forLoop, hb, hl]
    · have e : lo + (r + 1) = lo + 1 + r := by omega
      rw [e]; exact h2

/-- Whatever a loop returns satisfies an invariant that every returning body call
preserves. -/
theorem forLoop_inv {σ : Type} (P : Nat → σ → Prop) (body : Nat → σ → Option σ) :
    ∀ (r lo : Nat) (s s' : σ), P lo s →
      (∀ i u u', lo ≤ i → i < lo + r → P i u → body i u = some u' → P (i + 1) u') →
      forLoop body r lo s = some s' → P (lo + r) s' := by
  intro r
  induction r with
  | zero =>
    intro lo s s' h0 _ h
    simp only [forLoop, Option.some.injEq] at h
    subst h; simpa using h0
  | succ r ih =>
    intro lo s s' h0 hstep h
    simp only [forLoop, Option.bind_eq_some] at h
    obtain ⟨s1, hb, hl⟩ := h
    have h1 := hstep lo s s1 (Nat.le_refl _) (by omega) h0 hb
    have h2 := ih (lo + 1) s1 s' h1
      (fun i u u' hi hlt hP hbu => hstep i u u' (by omega) (by omega) hP hbu) hl
    have e : lo + (r + 1) = lo + 1 + r := by omega
    rw [e]; exact h2

/-! ## Swapping two positions of a list -/

theorem count_pos_of_getElem? {β : Type} [DecidableEq β] {l : List β} {i : Nat} {a : β}
    (h : l[i]? = some a) : 0 < l.count a := by
  rw [List.count_pos_iff]
  exact List.mem_iff_getElem?.mpr ⟨i, h⟩

/-- Exchanging the entries at two valid positions rearranges the list. -/
theorem swap_perm {β : Type} [DecidableEq β] (l : List β) (i j : Nat) (a b : β)
    (ha : l[i]? = some a) (hb : l[j]? = some b) : ((l.set i b).set j a).Perm l := by
  have hi : i < l.length := (List.getElem?_eq_some_iff.mp ha).1
  have hj : j < l.length := (List.getElem?_eq_some_iff.mp hb).1
  have hia : l[i] = a := (List.getElem?_eq_some_iff.mp ha).2
  have hjb : l[j] = b := (List.getElem?_eq_some_iff.mp hb).2
  have hca := count_pos_of_getElem? ha
  have hcb := count_pos_of_getElem? hb
  rw [List.perm_iff_count]
  intro x
  rw [List.count_set _ _ _ _ (by simpa using hj), List.count_set _ _ _ _ hi]
  simp only [List.getElem_set, hia, hjb, beq_iff_eq]
  by_cases hij : i = j
  · subst hij
    have hab : a = b := by rw [← hia, ← hjb]
    subst hab
    simp only [if_true]
    by_cases hx : a = x
    · subst hx; simp; omega
    · simp [hx]
  · simp only [hij, if_false]
    by_cases hax : a = x <;> by_cases hbx : b = x
    · subst hax; subst hbx; simp; omega
    · subst hax; simp [hbx]; omega
    · subst hbx; simp [hax]
    · simp [hax, hbx]

end Tpsa

namespace Tpsa
section SaLemmas
variable {α : Type} [LinearOrderedField α]

theorem isTour_length {n : Nat} {tour : List Nat} (h : tour.Perm (List.range n)) :
    tour.length = n := by
  have := List.Perm.length_eq h
  simpa using this

theorem isTour_lt_of_mem {n : Nat} {tour : List Nat} (h : tour.Perm (List.range n)) {x : Nat}
    (hx : x ∈ tour) : x < n := by
  have := (List.Perm.mem_iff h).mp hx
  simpa using this

theorem set_of_getElem? {β : Type} (l : List β) (k : Nat) (x : β) (h : l[k]? = some x) :
    l.set k x = l := by
  apply List.ext_getElem?
  intro m
  rw [List.getElem?_set]
  have hk : k < l.length := (List.getElem?_eq_some_iff.mp h).1
  by_cases hkm : k = m
  · subst hkm; simp [hk, h]
  · simp [hkm]

theorem withTour_self (t : TPSA α) (k : Nat) (tour : List Nat)
    (h : t.Tours[k]? = some tour) : withTour t k tour = t := by
  cases t
  simp only [withTour, TPSA.mk.injEq, true_and, and_true]
  exact set_of_getElem? _ _ _ h

theorem withTour_withTour (t : TPSA α) (k : Nat) (a b : List Nat) :
    withTour (withTour t k a) k b = withTour t k b := by
  simp [withTour, List.set_set]

theorem withTour_tours_getElem? (t : TPSA α) (k : Nat) (tour : List Nat)
    (hk : k < t.Tours.length) : (withTour t k tour).Tours[k]? = some tour := by
  simp [withTour, List.getElem?_set_self hk]

/-- The cost lookup is defined when the matrix is square and the tour has `Size`
entries below `Size`. -/
theorem getCost_isSome (t : TPSA α) (tour : List Nat) (n m : Nat) (hM : SquareMatrix t)
    (hlen : tour.length = t.Size) (hlt : ∀ x ∈ tour, x < t.Size) (hpos : 0 < t.Size) :
    ∃ c, getCost t tour n m = some c := by
  have hn : n % t.Size < tour.length := by rw [hlen]; exact Nat.mod_lt _ hpos
  have hm : m % t.Size < tour.length := by rw [hlen]; exact Nat.mod_lt _ hpos
  have ha : tour[n % t.Size] < t.Matrix.length := by
    rw [hM.1]; exact hlt _ (List.getElem_mem _)
  have hb : tour[m % t.Size] < (t.Matrix[tour[n % t.Size]]).length := by
    rw [hM.2 _ (List.getElem_mem _)]; exact hlt _ (List.getElem_mem _)
  refine ⟨(t.Matrix[tour[n % t.Size]])[tour[m % t.Size]], ?_⟩
  simp only [getCost, Nat.ne_of_gt hpos, if_false, Option.bind_eq_bind,
    List.getElem?_eq_getElem hn, List.getElem?_eq_getElem hm, Option.some_bind,
    List.getElem?_eq_getElem ha, List.getElem?_eq_getElem hb]

theorem getCost_withTour (t : TPSA α) (k : Nat) (x tour : List Nat) (n m : Nat) :
    getCost (withTour t k x) tour n m = getCost t tour n m := rfl

/-- A returning `flip` replaces the tour of its slot by a rearrangement of it. -/
theorem flip_eq_some (t t' : TPSA α) (k i j : Nat) (h : flip t k i j = some t') :
    ∃ tour a b, t.Tours[k]? = some tour ∧ tour[i]? = some a ∧ tour[j]? = some b ∧
      t' = withTour t k ((tour.set i b).set j a) := by
  simp only [flip, Option.bind_eq_bind, Option.bind_eq_some, Option.some.injEq] at h
  obtain ⟨tour, h1, a, h2, b, h3, h4⟩ := h
  exact ⟨tour, a, b, h1, h2, h3, h4.symm⟩

theorem flip_of_getElem? (t : TPSA α) (k i j : Nat) (tour : List Nat) (a b : Nat)
    (h1 : t.Tours[k]? = some tour) (h2 : tour[i]? = some a) (h3 : tour[j]? = some b) :
    flip t k i j = some (withTour t k ((tour.set i b).set j a)) := by
  simp [flip, h1, h2, h3, withTour]

end SaLemmas
end Tpsa

namespace Tpsa
section SaPerm
variable {α : Type} [LinearOrderedField α]

theorem saInv_flip (t s s' : TPSA α) (k a b : Nat) (hk : k < t.Tours.length)
    (hs : SaInv t k s) (h : flip s k a b = some s') : SaInv t k s' := by
  obtain ⟨tour, rfl, hp⟩ := hs
  obtain ⟨tour1, x, y, h1, h2, h3, h4⟩ := flip_eq_some _ _ _ _ _ h
  rw [withTour_tours_getElem? t k tour hk] at h1
  cases h1
  refine ⟨_, ?_, (swap_perm tour a b x y h2 h3).trans hp⟩
  rw [h4, withTour_withTour]

theorem saInv_flipLoop (t s s' : TPSA α) (k i j r : Nat) (hk : k < t.Tours.length)
    (hs : SaInv t k s)
    (h : forLoop (fun m u => flip u k (i + 1 + m) (j - m)) r 0 s = some s') :
    SaInv t k s' :=
  forLoop_inv (fun _ u => SaInv t k u) _ r 0 s s' hs
    (fun _ _ _ _ _ hu hb => saInv_flip t _ _ k _ _ hk hu hb) h

/-- With valid positions the flip loop of `sa` returns. -/
theorem flipLoop_total (t s : TPSA α) (k i j : Nat) (hk : k < t.Tours.length)
    (hs : SaInv t k s) (hj : j < t.Size) :
    ∃ s', forLoop (fun m u => flip u k (i + 1 + m) (j - m)) ((j - i) / 2) 0 s = some s'
      ∧ SaInv t k s' := by
  have := forLoop_total (fun _ u => SaInv t k u)
    (fun m u => flip u k (i + 1 + m) (j - m)) ((j - i) / 2) 0 s hs ?_
  · exact this
  · intro m u _ hm hu
    obtain ⟨tour, rfl, hp⟩ := id hu
    have hlen := isTour_length hp
    have h1 : i + 1 + m < tour.length := by omega
    have h2 : j - m < tour.length := by omega
    have e := flip_of_getElem? (withTour t k tour) k (i + 1 + m) (j - m) tour _ _
      (withTour_tours_getElem? t k tour hk) (List.getElem?_eq_getElem h1)
      (List.getElem?_eq_getElem h2)
    exact ⟨_, e, saInv_flip t _ _ k _ _ hk hu e⟩

theorem saInv_saStep (expF : α → α) (t s s' : TPSA α) (k i j : Nat) (p : α)
    (hk : k < t.Tours.length) (hs : SaInv t k s)
    (h : saStep expF s k i j p = some s') : SaInv t k s' := by
  simp only [saStep, Option.bind_eq_bind, Option.bind_eq_some] at h
  obtain ⟨_, _, _, _, _, _, _, _, _, _, _, _, h⟩ := h
  split at h
  · exact saInv_flipLoop t s s' k i j _ hk hs h
  · cases h; exact hs

theorem saStep_total (expF : α → α) (t s : TPSA α) (k i j : Nat) (p : α)
    (hk : k < t.Tours.length) (hT : k < t.Temperatures.length) (hM : SquareMatrix t)
    (hs : SaInv t k s) (hj : j < t.Size) :
    ∃ s', saStep expF s k i j p = some s' ∧ SaInv t k s' := by
  obtain ⟨tour, rfl, hp⟩ := id hs
  have hlen := isTour_length hp
  have hlt : ∀ x ∈ tour, x < t.Size := fun x hx => isTour_lt_of_mem hp hx
  have hpos : 0 < t.Size := by omega
  obtain ⟨c1, e1⟩ := getCost_isSome t tour i (i + 1) hM hlen hlt hpos
  obtain ⟨c2, e2⟩ := getCost_isSome t tour j (j + 1) hM hlen hlt hpos
  obtain ⟨n1, e3⟩ := getCost_isSome t tour i j hM hlen hlt hpos
  obtain ⟨n2, e4⟩ := getCost_isSome t tour (i + 1) (j + 1) hM hlen hlt hpos
  have hT2 : (withTour t k tour).Temperatures[k]? = some (t.Temperatures[k]) :=
    List.getElem?_eq_getElem hT
  simp only [saStep, Option.bind_eq_bind, withTour_tours_getElem? t k tour hk,
    Option.some_bind, getCost_withTour, e1, e2, e3, e4, hT2]
  split
  · exact flipLoop_total t _ k i j hk hs hj
  · exact ⟨_, rfl, hs⟩

theorem saInv_saPass (expF : α → α) (t : TPSA α) (k n : Nat) (draws : Nat → α)
    (s s' : TPSA α × Nat) (hk : k < t.Tours.length) (hs : SaInv t k s.1)
    (h : saPass expF k n draws s = some s') : SaInv t k s'.1 := by
  refine forLoop_inv (fun _ u => SaInv t k u.1) _ (n - 2) 0 s s' hs ?_ h
  intro i u u' _ _ hu hb
  refine forLoop_inv (fun _ v => SaInv t k v.1) _ (n - (i + 2)) (i + 2) u u' hu ?_ hb
  intro j v v' _ _ hv hbv
  simp only [Option.map_eq_some'] at hbv
  obtain ⟨w, hw, rfl⟩ := hbv
  exact saInv_saStep expF t v.1 w k i j _ hk hv hw

theorem saPass_total (expF : α → α) (t : TPSA α) (k : Nat) (draws : Nat → α)
    (s : TPSA α × Nat) (hk : k < t.Tours.length) (hT : k < t.Temperatures.length)
    (hM : SquareMatrix t) (hs : SaInv t k s.1) :
    ∃ s', saPass expF k t.Size draws s = some s' ∧ SaInv t k s'.1 := by
  refine forLoop_total (fun _ u => SaInv t k u.1) _ (t.Size - 2) 0 s hs ?_
  intro i u _ hi hu
  refine forLoop_total (fun _ v => SaInv t k v.1) _ (t.Size - (i + 2)) (i + 2) u hu ?_
  intro j v _ hj hv
  obtain ⟨w, hw, hw2⟩ := saStep_total expF t v.1 k i j (draws v.2) hk hT hM hv (by omega)
  exact ⟨(w, v.2 + 1), by simp [hw], hw2⟩

end SaPerm
end Tpsa

namespace Tpsa
section C1
variable {α : Type} [LinearOrderedField α]

/-- C1. If `Tours[k]` is a permutation of `0..Size-1` before `sa(k)` runs, then whenever
`sa(k)` returns (any `Period`, matrix, temperatures and draws) `Tours[k]` is again a
permutation of `0..Size-1`, of length `Size`, and `Size` is unchanged; and `sa(k)` does
return when the matrix is `Size x Size` and slot `k` has a temperature. -/
theorem sa_keeps_permutation (expF : α → α) (t : TPSA α) (k : Nat) (draws : Nat → α)
    (tour : List Nat) (h : t.Tours[k]? = some tour)
    (hperm : tour.Perm (List.range t.Size)) :
    (∀ t', sa expF t k draws = some t' →
      t'.Size = t.Size ∧ ∃ tour', t'.Tours[k]? = some tour' ∧
        tour'.Perm (List.range t.Size) ∧ tour'.length = t.Size) ∧
    (SquareMatrix t → k < t.Temperatures.length →
      ∃ t', sa expF t k draws = some t') := by
  have hk : k < t.Tours.length := (List.getElem?_eq_some_iff.mp h).1
  have h0 : SaInv t k t := ⟨tour, (withTour_self t k tour h).symm, hperm⟩
  constructor
  · intro t' ht'
    simp only [sa, Option.map_eq_some'] at ht'
    obtain ⟨s', hs', rfl⟩ := ht'
    have hinv : SaInv t k s'.1 :=
      forLoop_inv (fun _ u => SaInv t k u.1) _ t.Period.toNat 0 (t, 0) s' h0
        (fun _ u u' _ _ hu hb => saInv_saPass expF t k t.Size draws u u' hk hu hb) hs'
    obtain ⟨tour', e, hp⟩ := hinv
    rw [e]
    exact ⟨rfl, tour', withTour_tours_getElem? t k tour' hk, hp, isTour_length hp⟩
  · intro hM hT
    obtain ⟨s', hs', _⟩ :=
      forLoop_total (fun _ u => SaInv t k u.1)
        (fun _ s => saPass expF k t.Size draws s) t.Period.toNat 0 (t, 0) h0
        (fun _ u _ _ hu => saPass_total expF t k draws u hk hT hM hu)
    exact ⟨s'.1, by simp [sa, hs']⟩

/-- C1 at the four-city state: `sa(0)` returns and slot 0 still holds a permutation
of `0..3`. -/
theorem sa_keeps_permutation_witness :
    ∃ t', sa demoExp demoState 0 (fun _ => 1 / 2) = some t' ∧
      ∃ tour', t'.Tours[0]? = some tour' ∧ tour'.Perm (List.range 4) := by
  have h := sa_keeps_permutation demoExp demoState 0 (fun _ => 1 / 2) [0, 1, 2, 3] rfl
    (by decide)
  obtain ⟨t', ht'⟩ := h.2 (by unfold SquareMatrix; decide) (by decide)
  obtain ⟨_, tour', h1, h2, _⟩ := h.1 t' ht'
  exact ⟨t', ht', tour', h1, h2⟩

end C1
end Tpsa

namespace Tpsa

/-- An `int` value is left alone by the wrap-around. -/
theorem wrapInt_of_range (x : Int) (h1 : -2 ^ 63 ≤ x) (h2 : x < 2 ^ 63) : wrapInt x = x := by
  unfold wrapInt
  omega

/-- For a thread count that is not negative the wrapped bound `Thread - 1` is at most
`Thread - 1`. -/
theorem wrapInt_sub_one_le (x : Int) (h : 0 ≤ x) : wrapInt (x - 1) ≤ x - 1 := by
  unfold wrapInt
  omega

/-- Whatever a stride-2 loop returns satisfies an invariant that every returning body
call preserves. -/
theorem stepLoop_inv {σ : Type} (P : σ → Prop) (body : Nat → σ → Option σ) (bound : Int) :
    ∀ (m i : Nat) (s s' : σ), (bound - i).toNat ≤ m → P s →
      (∀ (j : Nat) u u', (j : Int) < bound → P u → body j u = some u' → P u') →
      stepLoop body bound i s = some s' → P s' := by
  intro m
  induction m with
  | zero =>
    intro i s s' hm h0 _ h
    rw [stepLoop, if_neg (by omega)] at h
    cases h; exact h0
  | succ m ih =>
    intro i s s' hm h0 hstep h
    rw [stepLoop] at h
    split at h
    · rename_i hlt
      simp only [Option.bind_eq_some] at h
      obtain ⟨s1, hb, hl⟩ := h
      exact ih (i + 2) s1 s' (by omega) (hstep i s s1 hlt h0 hb) hstep hl
    · cases h; exact h0

/-- A stride-2 loop whose body never panics under the invariant returns. -/
theorem stepLoop_total {σ : Type} (P : σ → Prop) (body : Nat → σ → Option σ) (bound : Int) :
    ∀ (m i : Nat) (s : σ), (bound - i).toNat ≤ m → P s →
      (∀ (j : Nat) u, (j : Int) < bound → P u → ∃ u', body j u = some u' ∧ P u') →
      ∃ s', stepLoop body bound i s = some s' ∧ P s' := by
  intro m
  induction m with
  | zero =>
    intro i s hm h0 _
    refine ⟨s, ?_, h0⟩
    rw [stepLoop, if_neg (by omega)]
  | succ m ih =>
    intro i s hm h0 hstep
    by_cases hlt : (i : Int) < bound
    · obtain ⟨s1, hb, h1⟩ := hstep i s hlt h0
      obtain ⟨s2, hl, h2⟩ := ih (i + 2) s1 (by omega) h1 hstep
      refine ⟨s2, ?_, h2⟩
      rw [stepLoop, if_pos hlt, hb]
      exact hl
    · refine ⟨s, ?_, h0⟩
      rw [stepLoop, if_neg hlt]

section Exchange
variable {α : Type} [LinearOrderedField α]

/-- The accumulated cost of a tour is defined in a square matrix when the tour has
`Size` entries below `Size`. -/
theorem getTotalCost_isSome (t : TPSA α) (tour : List Nat) (hM : SquareMatrix t)
    (hlen : tour.length = t.Size) (hlt : ∀ x ∈ tour, x < t.Size) :
    ∃ v, getTotalCost t tour = some v := by
  obtain ⟨v, hv, _⟩ := forLoop_total (fun _ (_ : α) => True)
    (fun i ret => (getCost t tour i (i + 1)).map (fun c => ret + c)) tour.length 0 0 trivial
    (by
      intro i ret _ hi _
      obtain ⟨c, hc⟩ := getCost_isSome t tour i (i + 1) hM hlen hlt (by omega)
      exact ⟨ret + c, by simp [hc], trivial⟩)
  exact ⟨v, hv⟩

/-- A returning `exchangeSolution` either leaves the state as it is or exchanges the
tours of the two slots. -/
theorem exchangeSolution_eq_some (expF : α → α) (t t' : TPSA α) (cur next : Nat) (p : α)
    (h : exchangeSolution expF t cur next p = some t') :
    t' = t ∨ ∃ tourNext tourCur, t.Tours[next]? = some tourNext ∧
      t.Tours[cur]? = some tourCur ∧
      t' = { t with Tours := (t.Tours.set next tourCur).set cur tourNext } := by
  simp only [exchangeSolution, Option.bind_eq_bind, Option.bind_eq_some] at h
  obtain ⟨tn, _, tc, _, tourNext, h1, vn, _, tourCur, h2, vc, _, h⟩ := h
  split at h
  · right; cases h; exact ⟨tourNext, tourCur, h1, h2, rfl⟩
  · left; cases h; rfl

/-- The part of the state that an exchange leaves alone, and the tours as a multiset. -/
theorem exchangeSolution_frame (expF : α → α) (t t' : TPSA α) (cur next : Nat) (p : α)
    (h : exchangeSolution expF t cur next p = some t') :
    t'.Temperatures = t.Temperatures ∧ t'.Tours.Perm t.Tours ∧ t'.Matrix = t.Matrix ∧
      t'.Size = t.Size ∧ t'.toTPSAConfig = t.toTPSAConfig := by
  rcases exchangeSolution_eq_some expF t t' cur next p h with rfl | ⟨a, b, h1, h2, rfl⟩
  · exact ⟨rfl, List.Perm.refl _, rfl, rfl, rfl⟩
  · exact ⟨rfl, swap_perm t.Tours next cur a b h1 h2, rfl, rfl, rfl⟩

end Exchange
end Tpsa

namespace Tpsa
section C2
variable {α : Type} [LinearOrderedField α]

theorem wellFormed_of_frame (t t' : TPSA α) (h : WellFormed t)
    (hf : t'.Temperatures = t.Temperatures ∧ t'.Tours.Perm t.Tours ∧ t'.Matrix = t.Matrix ∧
      t'.Size = t.Size ∧ t'.toTPSAConfig = t.toTPSAConfig) : WellFormed t' := by
  obtain ⟨hT, hP, hM, hS, hC⟩ := hf
  obtain ⟨⟨h1, h2⟩, h3, h4, h5⟩ := h
  have hThread : t'.Thread = t.Thread := by
    show t'.toTPSAConfig.Thread = t.toTPSAConfig.Thread
    rw [hC]
  refine ⟨⟨by rw [hM, hS]; exact h1, by rw [hM, hS]; exact h2⟩, ?_, ?_, ?_⟩
  · rw [hP.length_eq, hThread]; exact h3
  · rw [hT, hThread]; exact h4
  · intro tour htour
    rw [hS]
    exact h5 tour (hP.mem_iff.mp htour)

/-- In a well-formed state `exchangeSolution` on two slots below `Thread` returns. -/
theorem exchangeSolution_total (expF : α → α) (t : TPSA α) (cur next : Nat) (p : α)
    (h : WellFormed t) (hc : (cur : Int) < t.Thread) (hn : (next : Int) < t.Thread) :
    ∃ t', exchangeSolution expF t cur next p = some t' := by
  obtain ⟨hM, h3, h4, h5⟩ := h
  have hcT : cur < t.Temperatures.length := by omega
  have hnT : next < t.Temperatures.length := by omega
  have hcU : cur < t.Tours.length := by omega
  have hnU : next < t.Tours.length := by omega
  obtain ⟨vn, hvn⟩ := getTotalCost_isSome t t.Tours[next] hM
    (h5 _ (List.getElem_mem _)).1 (h5 _ (List.getElem_mem _)).2
  obtain ⟨vc, hvc⟩ := getTotalCost_isSome t t.Tours[cur] hM
    (h5 _ (List.getElem_mem _)).1 (h5 _ (List.getElem_mem _)).2
  simp only [exchangeSolution, Option.bind_eq_bind, List.getElem?_eq_getElem hcT,
    List.getElem?_eq_getElem hnT, List.getElem?_eq_getElem hcU,
    List.getElem?_eq_getElem hnU, Option.some_bind, hvn, hvc]
  split
  · exact ⟨_, rfl⟩
  · exact ⟨_, rfl⟩

/-- C2. Whenever `exchangeSolutions(count)` returns, `Temperatures` is what it was and
`Tours` is a rearrangement of what it was: the same tours with the same contents, each
as often as before, possibly in other slots. In a well-formed state it does return. -/
theorem exchangeSolutions_conserves_tours (expF : α → α) (draws : Nat → α) (count : Int)
    (s : TPSA α × Nat) :
    (∀ s', exchangeSolutions expF draws count s = some s' →
      s'.1.Temperatures = s.1.Temperatures ∧ s'.1.Tours.Perm s.1.Tours) ∧
    (WellFormed s.1 → ∃ s', exchangeSolutions expF draws count s = some s') := by
  constructor
  · intro s' h
    have key : ∀ i0 : Nat, stepLoop (fun i u =>
        (exchangeSolution expF u.1 i (i + 1) (draws u.2)).map (fun t => (t, u.2 + 1)))
        (wrapInt (s.1.Thread - 1)) i0 s = some s' →
        s'.1.Temperatures = s.1.Temperatures ∧ s'.1.Tours.Perm s.1.Tours := by
      intro i0 hl
      refine stepLoop_inv
        (fun u => u.1.Temperatures = s.1.Temperatures ∧ u.1.Tours.Perm s.1.Tours) _ _ _
        i0 s s' (Nat.le_refl _) ⟨rfl, List.Perm.refl _⟩ ?_ hl
      intro j u u' _ hu hb
      simp only [Option.map_eq_some'] at hb
      obtain ⟨w, hw, rfl⟩ := hb
      obtain ⟨e1, e2, _⟩ := exchangeSolution_frame expF u.1 w j (j + 1) _ hw
      exact ⟨e1.trans hu.1, e2.trans hu.2⟩
    unfold exchangeSolutions exchangeSchedule at h
    split at h
    · exact key 0 h
    · exact key 1 h
  · intro hwf
    have key : ∀ i0 : Nat, ∃ s', stepLoop (fun i u =>
        (exchangeSolution expF u.1 i (i + 1) (draws u.2)).map (fun t => (t, u.2 + 1)))
        (wrapInt (s.1.Thread - 1)) i0 s = some s' := by
      intro i0
      obtain ⟨s', hs', _⟩ := stepLoop_total
        (fun u => WellFormed u.1 ∧ u.1.Thread = s.1.Thread)
        (fun i u =>
          (exchangeSolution expF u.1 i (i + 1) (draws u.2)).map (fun t => (t, u.2 + 1)))
        (wrapInt (s.1.Thread - 1)) _ i0 s (Nat.le_refl _) ⟨hwf, rfl⟩ (by
          intro j u hj hu
          have hj := lt_of_lt_of_le hj
            (wrapInt_sub_one_le s.1.Thread (by rw [← hwf.2.1]; exact Int.ofNat_nonneg _))
          obtain ⟨w, hw⟩ := exchangeSolution_total expF u.1 j (j + 1) (draws u.2) hu.1
            (by rw [hu.2]; omega) (by rw [hu.2]; push_cast; omega)
          have hf := exchangeSolution_frame expF u.1 w j (j + 1) _ hw
          refine ⟨(w, u.2 + 1), by simp [hw], wellFormed_of_frame u.1 w hu.1 hf, ?_⟩
          have : w.toTPSAConfig = u.1.toTPSAConfig := hf.2.2.2.2
          show w.toTPSAConfig.Thread = s.1.Thread
          rw [this]; exact hu.2)
      exact ⟨s', hs'⟩
    unfold exchangeSolutions exchangeSchedule
    split
    · exact key 0
    · exact key 1

/-- C2 at the four-city state: the exchange of iteration 0 returns, keeps the ladder
and rearranges the two tours. -/
theorem exchangeSolutions_conserves_tours_witness :
    ∃ s', exchangeSolutions demoExp (fun _ => 1 / 2) 0 (demoState, 0) = some s' ∧
      s'.1.Temperatures = [FVal.fin 2, FVal.fin 1] ∧
      s'.1.Tours.Perm [[0, 1, 2, 3], [3, 1, 0, 2]] := by
  have h := exchangeSolutions_conserves_tours demoExp (fun _ => 1 / 2) 0 (demoState, 0)
  obtain ⟨s', hs'⟩ := h.2 (by unfold WellFormed SquareMatrix; decide)
  exact ⟨s', hs', h.1 s' hs'⟩

end C2
end Tpsa

namespace Tpsa
section FlipLoop
variable {α : Type} [LinearOrderedField α]

/-- The flip loop of `sa` at the pair `(i, j)` returns the tour with the positions
`i+1..j` in reverse order and every other position as it was. -/
theorem flipLoop_eq (t : TPSA α) (k i j : Nat) (tour : List Nat)
    (hk : k < t.Tours.length) (hj : j < tour.length) :
    ∃ tour', forLoop (fun m u => flip u k (i + 1 + m) (j - m)) ((j - i) / 2) 0
        (withTour t k tour) = some (withTour t k tour') ∧
      tour'.length = tour.length ∧
      ∀ pos, tour'[pos]? =
        if i + 1 ≤ pos ∧ pos ≤ j then tour[i + 1 + j - pos]? else tour[pos]? := by
  obtain ⟨s', hs', tour', rfl, hlen, hcur⟩ := forLoop_total
    (fun m u => ∃ cur, u = withTour t k cur ∧ cur.length = tour.length ∧
      ∀ pos, cur[pos]? =
        if (i + 1 ≤ pos ∧ pos < i + 1 + m) ∨ (j - m < pos ∧ pos ≤ j)
        then tour[i + 1 + j - pos]? else tour[pos]?)
    (fun m u => flip u k (i + 1 + m) (j - m)) ((j - i) / 2) 0 (withTour t k tour)
    ⟨tour, rfl, rfl, by intro pos; rw [if_neg (by omega)]⟩
    (by
      intro m u _ hm hu
      obtain ⟨cur, rfl, hlen, hcur⟩ := hu
      have ha : i + 1 + m < cur.length := by omega
      have hb : j - m < cur.length := by omega
      have hca : cur[i + 1 + m]? = tour[i + 1 + m]? := by
        rw [hcur, if_neg (by omega)]
      have hcb : cur[j - m]? = tour[j - m]? := by
        rw [hcur, if_neg (by omega)]
      have e := flip_of_getElem? (withTour t k cur) k (i + 1 + m) (j - m) cur _ _
        (withTour_tours_getElem? t k cur hk) (List.getElem?_eq_getElem ha)
        (List.getElem?_eq_getElem hb)
      rw [withTour_withTour] at e
      refine ⟨_, e, _, rfl, by simp [hlen], ?_⟩
      intro pos
      rw [List.getElem?_set, List.getElem?_set]
      simp only [List.length_set]
      by_cases h1 : j - m = pos
      · subst h1
        rw [if_pos rfl, if_pos hb, if_pos (by omega), ← List.getElem?_eq_getElem ha, hca]
        congr 1; omega
      · rw [if_neg h1]
        by_cases h2 : i + 1 + m = pos
        · subst h2
          rw [if_pos rfl, if_pos ha, if_pos (by omega), ← List.getElem?_eq_getElem hb, hcb]
          congr 1; omega
        · rw [if_neg h2, hcur]
          by_cases h3 : (i + 1 ≤ pos ∧ pos < i + 1 + m) ∨ (j - m < pos ∧ pos ≤ j)
          · rw [if_pos h3, if_pos (by omega)]
          · rw [if_neg h3, if_neg (by omega)])
  refine ⟨tour', by simpa using hs', hlen, ?_⟩
  intro pos
  rw [hcur]
  by_cases h3 : i + 1 ≤ pos ∧ pos ≤ j
  · rw [if_pos h3]
    by_cases h4 : (i + 1 ≤ pos ∧ pos < i + 1 + (0 + (j - i) / 2)) ∨
        (j - (0 + (j - i) / 2) < pos ∧ pos ≤ j)
    · rw [if_pos h4]
    · rw [if_neg h4]
      congr 1; omega
  · rw [if_neg h3, if_neg (by omega)]

end FlipLoop
end Tpsa

namespace Tpsa
section C3
variable {α : Type} [LinearOrderedField α]

/-- In a square matrix, on a tour of `Size` entries below `Size`, `getCost` returns the
matrix entry of the two cities at the positions taken modulo `Size`. -/
theorem getCost_eq (t : TPSA α) (tour : List Nat) (n m : Nat) (hM : SquareMatrix t)
    (hlen : tour.length = t.Size) (hlt : ∀ x ∈ tour, x < t.Size) (hpos : 0 < t.Size) :
    getCost t tour n m =
      some (cost t (tour.getD (n % t.Size) 0) (tour.getD (m % t.Size) 0)) := by
  have hn : n % t.Size < tour.length := by rw [hlen]; exact Nat.mod_lt _ hpos
  have hm : m % t.Size < tour.length := by rw [hlen]; exact Nat.mod_lt _ hpos
  have ha : tour[n % t.Size] < t.Matrix.length := by
    rw [hM.1]; exact hlt _ (List.getElem_mem _)
  have hb : tour[m % t.Size] < (t.Matrix[tour[n % t.Size]]).length := by
    rw [hM.2 _ (List.getElem_mem _)]; exact hlt _ (List.getElem_mem _)
  simp only [getCost, Nat.ne_of_gt hpos, if_false, Option.bind_eq_bind,
    List.getElem?_eq_getElem hn, List.getElem?_eq_getElem hm, Option.some_bind,
    List.getElem?_eq_getElem ha, List.getElem?_eq_getElem hb, cost, List.getD_eq_getElem?_getD,
    Option.getD_some]

/-- C3. One inner step of `sa` at a pair `(i, j)` with `i + 2 <= j < n` and the draw `p`:
with `current` and `next` the two edge sums that the step computes, the step returns,
changes nothing but the tour of its slot, and sets that tour to the 2-opt result: if
`next < current` or `p <= exp(-(next - current) / temperature)` then
`new[i+1+m] = old[j-m]` for every `m < j - i` and every position outside `i+1..j` is
as before; otherwise the tour is as before. -/
theorem saStep_two_opt (expF : α → α) (t : TPSA α) (k i j : Nat) (p : α)
    (tour : List Nat) (temp : FVal α) (hM : SquareMatrix t)
    (htour : t.Tours[k]? = some tour) (hlen : tour.length = t.Size)
    (hlt : ∀ x ∈ tour, x < t.Size) (htemp : t.Temperatures[k]? = some temp)
    (hij : i + 2 ≤ j) (hj : j < t.Size) :
    let current := cost t (tour.getD i 0) (tour.getD (i + 1) 0)
      + cost t (tour.getD j 0) (tour.getD ((j + 1) % t.Size) 0)
    let next := cost t (tour.getD i 0) (tour.getD j 0)
      + cost t (tour.getD (i + 1) 0) (tour.getD ((j + 1) % t.Size) 0)
    ∃ tour', saStep expF t k i j p = some (withTour t k tour') ∧
      tour'.length = t.Size ∧
      if next < current ∨
          FVal.le (FVal.fin p)
            (FVal.exp expF (FVal.div (FVal.fin (-(next - current))) temp)) = true
      then (∀ m, m < j - i → tour'[i + 1 + m]? = tour[j - m]?) ∧
        (∀ pos, pos ≤ i ∨ j < pos → tour'[pos]? = tour[pos]?)
      else tour' = tour := by
  intro current next
  have hk : k < t.Tours.length := (List.getElem?_eq_some_iff.mp htour).1
  have hpos : 0 < t.Size := by omega
  have e1 := getCost_eq t tour i (i + 1) hM hlen hlt hpos
  have e2 := getCost_eq t tour j (j + 1) hM hlen hlt hpos
  have e3 := getCost_eq t tour i j hM hlen hlt hpos
  have e4 := getCost_eq t tour (i + 1) (j + 1) hM hlen hlt hpos
  rw [Nat.mod_eq_of_lt (by omega : i < t.Size),
    Nat.mod_eq_of_lt (by omega : i + 1 < t.Size)] at e1
  rw [Nat.mod_eq_of_lt hj] at e2
  rw [Nat.mod_eq_of_lt (by omega : i < t.Size), Nat.mod_eq_of_lt hj] at e3
  rw [Nat.mod_eq_of_lt (by omega : i + 1 < t.Size)] at e4
  simp only [saStep, Option.bind_eq_bind, htour, Option.some_bind, e1, e2, e3, e4, htemp,
    exchange, FVal.neg, Bool.or_eq_true, decide_eq_true_eq]
  by_cases hacc : next < current ∨
      FVal.le (FVal.fin p)
        (FVal.exp expF (FVal.div (FVal.fin (-(next - current))) temp)) = true
  · rw [if_pos hacc]
    obtain ⟨tour', h1, h2, h3⟩ := flipLoop_eq t k i j tour hk (by omega)
    rw [withTour_self t k tour htour] at h1
    refine ⟨tour', h1, by omega, ?_⟩
    rw [if_pos hacc]
    refine ⟨?_, ?_⟩
    · intro m hm
      rw [h3, if_pos (by omega)]
      congr 1; omega
    · intro pos hpos
      rw [h3, if_neg (by omega)]
  · rw [if_neg hacc]
    exact ⟨tour, by rw [withTour_self t k tour htour], hlen, by rw [if_neg hacc]⟩

/-- C3 on the four-city state at the pair `(0, 2)` with the draw `1/2`: the step
returns and changes the tour of slot 0 only, to a tour of the same length. -/
theorem saStep_two_opt_witness :
    ∃ tour', saStep demoExp demoState 0 0 2 (1 / 2) = some (withTour demoState 0 tour') ∧
      tour'.length = 4 := by
  obtain ⟨tour', h1, h2, _⟩ := saStep_two_opt demoExp demoState 0 0 2 (1 / 2)
    [0, 1, 2, 3] (FVal.fin 2) (by unfold SquareMatrix; decide) rfl rfl (by decide) rfl
    (by decide) (by decide)
  exact ⟨tour', h1, h2⟩

end C3
end Tpsa

namespace Tpsa
section ListCostLemmas
variable {α : Type} [LinearOrderedField α]

theorem pathCost_append (c : Nat → Nat → α) :
    ∀ xs ys : List Nat, pathCost c (xs ++ ys) = pathCost c xs + link c xs ys + pathCost c ys
  | [], ys => by simp [pathCost, link]
  | [a], [] => by simp [pathCost, link]
  | [a], b :: ys => by simp [pathCost, link]
  | a :: a' :: xs, ys => by
    have ih := pathCost_append c (a' :: xs) ys
    have hl : link c (a :: a' :: xs) ys = link c (a' :: xs) ys := by
      simp [link, List.getLast?_cons_cons]
    have e1 : pathCost c (a :: a' :: xs ++ ys) = c a a' + pathCost c (a' :: xs ++ ys) := rfl
    have e2 : pathCost c (a :: a' :: xs) = c a a' + pathCost c (a' :: xs) := rfl
    rw [e1, e2, ih, hl]; ring

theorem link_reverse (c : Nat → Nat → α) (hc : ∀ a b, c a b = c b a) (xs ys : List Nat) :
    link c ys.reverse xs.reverse = link c xs ys := by
  simp only [link, List.getLast?_reverse, List.head?_reverse]
  cases xs.getLast? <;> cases ys.head? <;> simp [hc]

theorem pathCost_reverse (c : Nat → Nat → α) (hc : ∀ a b, c a b = c b a) :
    ∀ xs : List Nat, pathCost c xs.reverse = pathCost c xs
  | [] => by simp
  | a :: xs => by
    have ih := pathCost_reverse c hc xs
    have h1 := pathCost_append c xs.reverse [a]
    have h2 := pathCost_append c [a] xs
    have h3 := link_reverse c hc [a] xs
    simp only [List.reverse_cons, List.singleton_append, List.reverse_nil, List.nil_append]
      at h1 h2 h3 ⊢
    rw [h1, h2, ih, h3]
    simp [pathCost]; ring

end ListCostLemmas
end Tpsa

namespace Tpsa
section TotalCost
variable {α : Type} [LinearOrderedField α]

theorem head?_drop_append_take (l : List Nat) (i : Nat) (hi : i < l.length) :
    (l.drop (i + 1) ++ l.take 1).head? = l[(i + 1) % l.length]? := by
  rw [List.head?_append, List.head?_drop]
  by_cases h : i + 1 < l.length
  · rw [Nat.mod_eq_of_lt h, List.getElem?_eq_getElem h]; rfl
  · have e : i + 1 = l.length := by omega
    rw [e, Nat.mod_self, List.getElem?_eq_none (Nat.le_refl _)]
    cases l with
    | nil => simp at hi
    | cons a l => simp

theorem pathCost_cons (c : Nat → Nat → α) (a : Nat) (xs : List Nat) :
    pathCost c (a :: xs) = link c [a] xs + pathCost c xs := by
  have h := pathCost_append c [a] xs
  simp only [List.singleton_append] at h
  rw [h]; simp [pathCost]

/-- The accumulator loop of `getTotalCost` from position `i` on adds the cost of the
walk along the rest of the tour and back to its first city. -/
theorem getTotalCost_loop (t : TPSA α) (tour : List Nat) (hM : SquareMatrix t)
    (hlen : tour.length = t.Size) (hlt : ∀ x ∈ tour, x < t.Size) :
    ∀ (r i : Nat) (ret : α), i + r = tour.length →
      forLoop (fun i ret => (getCost t tour i (i + 1)).map (fun c => ret + c)) r i ret =
        some (ret + pathCost (cost t) (tour.drop i ++ tour.take 1)) := by
  intro r
  induction r with
  | zero =>
    intro i ret hi
    have e : i = tour.length := by omega
    subst e
    cases tour with
    | nil => simp [forLoop, pathCost]
    | cons a l => simp [forLoop, pathCost]
  | succ r ih =>
    intro i ret hi
    have hil : i < tour.length := by omega
    have hpos : 0 < t.Size := by omega
    have hc := getCost_eq t tour i (i + 1) hM hlen hlt hpos
    rw [Nat.mod_eq_of_lt (by omega : i < t.Size)] at hc
    simp only [forLoop, hc, Option.map_some', Option.some_bind]
    rw [ih (i + 1) _ (by omega), List.drop_eq_getElem_cons hil, List.cons_append,
      pathCost_cons (cost t) tour[i]]
    have hh := head?_drop_append_take tour i hil
    rw [hlen] at hh
    have hm : (i + 1) % t.Size < tour.length := by rw [hlen]; exact Nat.mod_lt _ hpos
    rw [List.getElem?_eq_getElem hm] at hh
    simp only [link, List.getLast?_singleton, hh, List.getD_eq_getElem?_getD,
      List.getElem?_eq_getElem hil, List.getElem?_eq_getElem hm, Option.getD_some]
    congr 1; ring

/-- The method `getTotalCost` returns the cost of the closed walk along the tour. -/
theorem getTotalCost_eq_cycleCost (t : TPSA α) (tour : List Nat) (hM : SquareMatrix t)
    (hlen : tour.length = t.Size) (hlt : ∀ x ∈ tour, x < t.Size) :
    getTotalCost t tour = some (cycleCost (cost t) tour) := by
  rw [getTotalCost, getTotalCost_loop t tour hM hlen hlt tour.length 0 0 (by omega)]
  simp [cycleCost]

end TotalCost
end Tpsa

namespace Tpsa
section TwoOpt
variable {α : Type} [LinearOrderedField α]

/-- A matrix that is square and symmetric inside its range is symmetric as a total
lookup. -/
theorem cost_symm (t : TPSA α) (hM : SquareMatrix t)
    (hsym : ∀ a b, a < t.Size → b < t.Size → cost t a b = cost t b a) (a b : Nat) :
    cost t a b = cost t b a := by
  have out : ∀ x y, t.Size ≤ x → cost t x y = 0 ∧ cost t y x = 0 := by
    intro x y hx
    constructor
    · simp [cost, List.getD_eq_getElem?_getD, List.getElem?_eq_none (hM.1 ▸ hx)]
    · by_cases hy : y < t.Matrix.length
      · have hrow := hM.2 _ (List.getElem_mem hy)
        simp [cost, List.getD_eq_getElem?_getD, List.getElem?_eq_getElem hy,
          List.getElem?_eq_none (hrow ▸ hx)]
      · simp [cost, List.getD_eq_getElem?_getD, List.getElem?_eq_none (Nat.le_of_not_lt hy)]
  by_cases ha : a < t.Size
  · by_cases hb : b < t.Size
    · exact hsym a b ha hb
    · obtain ⟨h1, h2⟩ := out b a (Nat.le_of_not_lt hb)
      rw [h1, h2]
  · obtain ⟨h1, h2⟩ := out a b (Nat.le_of_not_lt ha)
    rw [h1, h2]

theorem getLast?_take_succ (l : List Nat) (i : Nat) (hi : i < l.length) :
    (l.take (i + 1)).getLast? = l[i]? := by
  rw [List.getLast?_eq_getElem?, List.length_take, Nat.min_eq_left (by omega)]
  exact List.getElem?_take_of_lt (by omega)

theorem head?_segment (l : List Nat) (i m : Nat) (hm : 0 < m) :
    ((l.drop (i + 1)).take m).head? = l[i + 1]? := by
  rw [List.head?_eq_getElem?, List.getElem?_take_of_lt hm, List.getElem?_drop]

theorem getLast?_segment (l : List Nat) (i j : Nat) (hij : i < j) (hj : j < l.length) :
    ((l.drop (i + 1)).take (j - i)).getLast? = l[j]? := by
  rw [List.getLast?_eq_getElem?, List.length_take, List.length_drop,
    Nat.min_eq_left (by omega), List.getElem?_take_of_lt (by omega), List.getElem?_drop]
  congr 1; omega

/-- A list whose positions `i+1..j` are those of `tour` in reverse order, the others
being those of `tour`, is `tour` with that segment reversed. -/
theorem eq_reverse_segment (tour tour' : List Nat) (i j : Nat) (hij : i < j)
    (hj : j < tour.length)
    (h : ∀ pos, tour'[pos]? =
      if i + 1 ≤ pos ∧ pos ≤ j then tour[i + 1 + j - pos]? else tour[pos]?) :
    tour' = tour.take (i + 1) ++ ((tour.drop (i + 1)).take (j - i)).reverse
      ++ tour.drop (j + 1) := by
  apply List.ext_getElem?
  intro pos
  rw [h pos]
  have hA : (tour.take (i + 1)).length = i + 1 := by
    rw [List.length_take]; omega
  have hB : ((tour.drop (i + 1)).take (j - i)).reverse.length = j - i := by
    rw [List.length_reverse, List.length_take, List.length_drop]; omega
  by_cases h1 : pos < i + 1
  · rw [if_neg (by omega), List.append_assoc, List.getElem?_append_left (by omega),
      List.getElem?_take_of_lt h1]
  · by_cases h2 : pos ≤ j
    · rw [if_pos ⟨by omega, h2⟩, List.getElem?_append_left (by
        rw [List.length_append, hA, hB]; omega),
        List.getElem?_append_right (by omega), hA,
        List.getElem?_reverse (by rw [List.length_reverse] at hB; omega)]
      rw [List.length_reverse] at hB
      rw [hB, List.getElem?_take_of_lt (by omega), List.getElem?_drop]
      congr 1; omega
    · rw [if_neg (by omega), List.getElem?_append_right (by
        rw [List.length_append, hA, hB]; omega), List.length_append, hA, hB,
        List.getElem?_drop]
      congr 1; omega

end TwoOpt
end Tpsa

namespace Tpsa
section TwoOptCost
variable {α : Type} [LinearOrderedField α]

theorem link_of_some (c : Nat → Nat → α) (xs ys : List Nat) (a b : Nat)
    (hx : xs.getLast? = some a) (hy : ys.head? = some b) : link c xs ys = c a b := by
  simp [link, hx, hy]

/-- Reversing the positions `i+1..j` of a tour changes the cost of the closed walk, for
a symmetric cost, by the two edges taken out and the two edges put in. -/
theorem cycleCost_reverse_segment (c : Nat → Nat → α) (hc : ∀ a b, c a b = c b a)
    (tour : List Nat) (i j : Nat) (hij : i + 2 ≤ j) (hj : j < tour.length) :
    cycleCost c (tour.take (i + 1) ++ ((tour.drop (i + 1)).take (j - i)).reverse
        ++ tour.drop (j + 1)) =
      cycleCost c tour
        - (c (tour.getD i 0) (tour.getD (i + 1) 0)
            + c (tour.getD j 0) (tour.getD ((j + 1) % tour.length) 0))
        + (c (tour.getD i 0) (tour.getD j 0)
            + c (tour.getD (i + 1) 0) (tour.getD ((j + 1) % tour.length) 0)) := by
  have hi : i < tour.length := by omega
  have hi1 : i + 1 < tour.length := by omega
  have hj1 : (j + 1) % tour.length < tour.length := Nat.mod_lt _ (by omega)
  have fA : (tour.take (i + 1)).getLast? = some (tour.getD i 0) := by
    rw [getLast?_take_succ tour i hi, List.getD_eq_getElem?_getD,
      List.getElem?_eq_getElem hi]; rfl
  have fBh : ((tour.drop (i + 1)).take (j - i)).head? = some (tour.getD (i + 1) 0) := by
    rw [head?_segment tour i (j - i) (by omega), List.getD_eq_getElem?_getD,
      List.getElem?_eq_getElem hi1]; rfl
  have fBl : ((tour.drop (i + 1)).take (j - i)).getLast? = some (tour.getD j 0) := by
    rw [getLast?_segment tour i j (by omega) hj, List.getD_eq_getElem?_getD,
      List.getElem?_eq_getElem hj]; rfl
  have fC : (tour.drop (j + 1) ++ tour.take 1).head?
      = some (tour.getD ((j + 1) % tour.length) 0) := by
    rw [head?_drop_append_take tour j hj, List.getD_eq_getElem?_getD,
      List.getElem?_eq_getElem hj1]; rfl
  have hsplit : tour.take (i + 1) ++ (tour.drop (i + 1)).take (j - i) ++ tour.drop (j + 1)
      = tour := by
    have e : tour.drop (j + 1) = (tour.drop (i + 1)).drop (j - i) := by
      rw [List.drop_drop]; congr 1; omega
    rw [e, List.append_assoc, List.take_append_drop, List.take_append_drop]
  have hlenA : 1 ≤ (tour.take (i + 1)).length := by
    rw [List.length_take]; omega
  have hT : ∀ xs : List Nat, (tour.take (i + 1) ++ xs).take 1 = tour.take 1 := by
    intro xs
    rw [List.take_append_of_le_length hlenA, List.take_take]
    congr 1
    omega
  have hold : cycleCost c tour = pathCost c (tour.take (i + 1)
      ++ ((tour.drop (i + 1)).take (j - i) ++ (tour.drop (j + 1) ++ tour.take 1))) := by
    rw [cycleCost]
    congr 1
    rw [← List.append_assoc, ← List.append_assoc, hsplit]
  have hnew : cycleCost c (tour.take (i + 1) ++ ((tour.drop (i + 1)).take (j - i)).reverse
        ++ tour.drop (j + 1)) = pathCost c (tour.take (i + 1)
      ++ (((tour.drop (i + 1)).take (j - i)).reverse
        ++ (tour.drop (j + 1) ++ tour.take 1))) := by
    rw [cycleCost]
    simp only [List.append_assoc, hT]
  rw [hold, hnew, pathCost_append, pathCost_append, pathCost_append c (tour.take (i + 1)),
    pathCost_append c ((tour.drop (i + 1)).take (j - i)), pathCost_reverse c hc,
    link_of_some c _ _ _ _ fA (by rw [List.head?_append, List.head?_reverse, fBl]; rfl),
    link_of_some c _ _ _ _ (by rw [List.getLast?_reverse]; exact fBh) fC,
    link_of_some c _ _ _ _ fA (by rw [List.head?_append, fBh]; rfl),
    link_of_some c _ _ _ _ fBl fC]
  ring

end TwoOptCost
end Tpsa

namespace Tpsa
section C4
variable {α : Type} [LinearOrderedField α]

/-- C4. For a symmetric `Size x Size` matrix, a tour of `Size` entries below `Size` (a
permutation of `0..Size-1` is one), a pair `i + 2 <= j < Size` and any temperature and
draw: the step of `sa` at `(i, j)` reads the matrix entries of the edges `(i, i+1)`,
`(j, j+1 mod n)`, `(i, j)` and `(i+1, j+1 mod n)`, forms `current` and `next` from them,
and returns the state with the positions `i+1..j` of the tour reversed when its test on
`next - current` succeeds and the state as it was otherwise; and `getTotalCost` of the
reversed tour is `getTotalCost` of the original tour minus `current` plus `next`, so the
difference `next - current` that the step tests is the change of the total cost that
the accepted move makes. -/
theorem two_opt_delta_is_cost_change (expF : α → α) (t : TPSA α) (k i j : Nat) (p : α)
    (tour : List Nat) (temp : FVal α) (hM : SquareMatrix t)
    (hsym : ∀ a b, a < t.Size → b < t.Size → cost t a b = cost t b a)
    (htour : t.Tours[k]? = some tour) (hlen : tour.length = t.Size)
    (hlt : ∀ x ∈ tour, x < t.Size) (htemp : t.Temperatures[k]? = some temp)
    (hij : i + 2 ≤ j) (hj : j < t.Size) :
    ∃ (tour' : List Nat) (v c1 c2 n1 n2 : α),
      getCost t tour i (i + 1) = some c1 ∧ getCost t tour j (j + 1) = some c2 ∧
      getCost t tour i j = some n1 ∧ getCost t tour (i + 1) (j + 1) = some n2 ∧
      c1 = cost t (tour.getD i 0) (tour.getD (i + 1) 0) ∧
      c2 = cost t (tour.getD j 0) (tour.getD ((j + 1) % t.Size) 0) ∧
      n1 = cost t (tour.getD i 0) (tour.getD j 0) ∧
      n2 = cost t (tour.getD (i + 1) 0) (tour.getD ((j + 1) % t.Size) 0) ∧
      saStep expF t k i j p =
        some (if (decide (n1 + n2 < c1 + c2) ||
            FVal.le (FVal.fin p)
              (exchange expF (FVal.fin (n1 + n2 - (c1 + c2))) temp)) = true
          then withTour t k tour' else t) ∧
      (∀ pos, tour'[pos]? =
        if i + 1 ≤ pos ∧ pos ≤ j then tour[i + 1 + j - pos]? else tour[pos]?) ∧
      getTotalCost t tour = some v ∧
      getTotalCost t tour' = some (v - (c1 + c2) + (n1 + n2)) ∧
      getTotalCost t tour' = some (v + (n1 + n2 - (c1 + c2))) := by
  have hk : k < t.Tours.length := (List.getElem?_eq_some_iff.mp htour).1
  have hpos : 0 < t.Size := by omega
  have e1 := getCost_eq t tour i (i + 1) hM hlen hlt hpos
  have e2 := getCost_eq t tour j (j + 1) hM hlen hlt hpos
  have e3 := getCost_eq t tour i j hM hlen hlt hpos
  have e4 := getCost_eq t tour (i + 1) (j + 1) hM hlen hlt hpos
  rw [Nat.mod_eq_of_lt (by omega : i < t.Size),
    Nat.mod_eq_of_lt (by omega : i + 1 < t.Size)] at e1
  rw [Nat.mod_eq_of_lt hj] at e2
  rw [Nat.mod_eq_of_lt (by omega : i < t.Size), Nat.mod_eq_of_lt hj] at e3
  rw [Nat.mod_eq_of_lt (by omega : i + 1 < t.Size)] at e4
  obtain ⟨tour', h1, h2, h3⟩ := flipLoop_eq t k i j tour hk (by omega)
  rw [withTour_self t k tour htour] at h1
  have hrev := eq_reverse_segment tour tour' i j (by omega) (by omega) h3
  have hsplit : tour.take (i + 1) ++ (tour.drop (i + 1)).take (j - i) ++ tour.drop (j + 1)
      = tour := by
    have e : tour.drop (j + 1) = (tour.drop (i + 1)).drop (j - i) := by
      rw [List.drop_drop]; congr 1; omega
    rw [e, List.append_assoc, List.take_append_drop, List.take_append_drop]
  have hlt' : ∀ x ∈ tour', x < t.Size := by
    intro x hx
    apply hlt
    rw [← hsplit]
    rw [hrev] at hx
    simp only [List.mem_append, List.mem_reverse] at hx ⊢
    exact hx
  have hcost : getTotalCost t tour' = some (cycleCost (cost t) tour
      - (cost t (tour.getD i 0) (tour.getD (i + 1) 0)
        + cost t (tour.getD j 0) (tour.getD ((j + 1) % t.Size) 0))
      + (cost t (tour.getD i 0) (tour.getD j 0)
        + cost t (tour.getD (i + 1) 0) (tour.getD ((j + 1) % t.Size) 0))) := by
    rw [getTotalCost_eq_cycleCost t tour' hM (by omega) hlt', hrev,
      cycleCost_reverse_segment (cost t) (cost_symm t hM hsym) tour i j hij (by omega), hlen]
  refine ⟨tour', cycleCost (cost t) tour, _, _, _, _, e1, e2, e3, e4, rfl, rfl, rfl, rfl,
    ?_, h3, getTotalCost_eq_cycleCost t tour hM hlen hlt, hcost, ?_⟩
  · simp only [saStep, Option.bind_eq_bind, htour, Option.some_bind, e1, e2, e3, e4, htemp]
    split
    · exact h1
    · rfl
  · rw [hcost]
    congr 1
    ring

/-- C4 on the square: the step at `(0, 2)` with the draw `1/2` at temperature `2` accepts
the move, and reversing positions `1..2` of the tour `0,1,2,3` turns the cost `4` into
`4 - 2 + 4`. -/
theorem two_opt_delta_is_cost_change_witness :
    ∃ tour', saStep demoExp demoState 0 0 2 (1 / 2) = some (withTour demoState 0 tour') ∧
      getTotalCost demoState [0, 1, 2, 3] = some 4 ∧
      getTotalCost demoState tour' = some 6 := by
  obtain ⟨tour', v, c1, c2, n1, n2, _, _, _, _, g1, g2, g3, g4, h1, _, h3, h4, _⟩ :=
    two_opt_delta_is_cost_change demoExp demoState 0 0 2 (1 / 2)
    [0, 1, 2, 3] (FVal.fin 2) (by unfold SquareMatrix; decide)
    (by
      intro a b ha hb
      have ha' : a < 4 := ha
      have hb' : b < 4 := hb
      interval_cases a <;> interval_cases b <;> rfl)
    rfl rfl (by decide) rfl (by decide) (by decide)
  have e : getTotalCost demoState [0, 1, 2, 3] = some 4 := by
    simp [getTotalCost, forLoop, getCost, demoState]; norm_num
  rw [e] at h3
  cases h3
  have hc1 : c1 = 1 := by rw [g1]; simp [cost, demoState]
  have hc2 : c2 = 1 := by rw [g2]; simp [cost, demoState]
  have hn1 : n1 = 2 := by rw [g3]; simp [cost, demoState]
  have hn2 : n2 = 2 := by rw [g4]; simp [cost, demoState]
  subst hc1 hc2 hn1 hn2
  refine ⟨tour', ?_, e, ?_⟩
  · rw [h1, if_pos]
    simp [exchange, FVal.neg, FVal.div, FVal.exp, FVal.le, demoExp]
    norm_num
  · rw [h4]; norm_num

end C4
end Tpsa

namespace Tpsa
section BuildMatrix
variable {α : Type} [LinearOrderedField α]

theorem dist_comm (sqrtF : α → α) (p q : Point α) : dist sqrtF p q = dist sqrtF q p := by
  unfold dist
  congr 1
  ring

theorem entry_set (m : List (List α)) (i : Nat) (r : List α) (hi : i < m.length)
    (a b : Nat) : entry (m.set i r) a b = if a = i then r.getD b 0 else entry m a b := by
  unfold entry
  simp only [List.getD_eq_getElem?_getD, List.getElem?_set]
  by_cases h : i = a
  · subst h; simp [hi]
  · have h' : ¬ a = i := fun e => h e.symm
    simp [h, h']

theorem getD_set (r : List α) (j : Nat) (v : α) (hj : j < r.length) (b : Nat) :
    (r.set j v).getD b 0 = if b = j then v else r.getD b 0 := by
  rw [List.getD_eq_getElem?_getD, List.getElem?_set]
  by_cases h : j = b
  · subst h; simp [hj]
  · have h' : ¬ b = j := fun e => h e.symm
    simp [h, h', List.getD_eq_getElem?_getD]

/-- Inside a square matrix `m[i][j] = v` returns, keeps the shape and changes the entry
`(i, j)` only. -/
theorem setEntry_spec (m : List (List α)) (n i j : Nat) (v : α) (hlen : m.length = n)
    (hrows : ∀ row ∈ m, row.length = n) (hi : i < n) (hj : j < n) :
    ∃ m', setEntry m i j v = some m' ∧ m'.length = n ∧ (∀ row ∈ m', row.length = n) ∧
      ∀ a b, entry m' a b = if a = i ∧ b = j then v else entry m a b := by
  have hi' : i < m.length := by omega
  have hrow : (m[i]).length = n := hrows _ (List.getElem_mem _)
  refine ⟨m.set i ((m[i]).set j v), ?_, by simp [hlen], ?_, ?_⟩
  · simp [setEntry, List.getElem?_eq_getElem hi', hrow, hj]
  · intro row hrow'
    rcases List.mem_or_eq_of_mem_set hrow' with h | h
    · exact hrows row h
    · rw [h, List.length_set]; exact hrow
  · intro a b
    rw [entry_set m i _ hi', getD_set _ j v (by omega)]
    by_cases ha : a = i
    · subst ha
      by_cases hb : b = j
      · simp [hb]
      · simp [hb, entry, List.getD_eq_getElem?_getD, List.getElem?_eq_getElem hi']
    · simp [ha]

/-- The first loop of the construction returns the `n x n` matrix of zeros. -/
theorem zeroRows_spec (n : Nat) :
    ∃ m : List (List α),
      forLoop (fun i m => setRow m i (List.replicate n (0 : α))) n 0 (List.replicate n [])
        = some m ∧
      m.length = n ∧ (∀ row ∈ m, row.length = n) ∧ ∀ a b, entry m a b = 0 := by
  obtain ⟨m, hm, hlen, hrows⟩ := forLoop_total
    (fun i (m : List (List α)) => m.length = n ∧
      ∀ r, r < i → m[r]? = some (List.replicate n (0 : α)))
    (fun i m => setRow m i (List.replicate n (0 : α))) n 0 (List.replicate n [])
    ⟨by simp, by intro r hr; omega⟩
    (by
      intro i m _ hi hP
      refine ⟨m.set i (List.replicate n 0), by simp [setRow, hP.1]; omega, by simp [hP.1], ?_⟩
      intro r hr
      rw [List.getElem?_set]
      by_cases h : i = r
      · simp [h, hP.1]; omega
      · rw [if_neg h]; exact hP.2 r (by omega))
  have hall : ∀ row ∈ m, row = List.replicate n (0 : α) := by
    intro row hrow
    obtain ⟨r, hr⟩ := List.mem_iff_getElem?.mp hrow
    have hrn : r < 0 + n := by
      have := (List.getElem?_eq_some_iff.mp hr).1
      omega
    have := hrows r hrn
    rw [hr] at this
    exact Option.some.inj this
  refine ⟨m, hm, hlen, ?_, ?_⟩
  · intro row hrow
    rw [hall row hrow]; simp
  · intro a b
    unfold entry
    by_cases ha : a < m.length
    · have e : m[a] = List.replicate n (0 : α) := hall _ (List.getElem_mem _)
      simp only [List.getD_eq_getElem?_getD, List.getElem?_eq_getElem ha, Option.getD_some, e]
      by_cases hb : b < n
      · simp [List.getElem?_replicate, hb]
      · simp [List.getElem?_replicate, hb]
    · simp only [List.getD_eq_getElem?_getD, List.getElem?_eq_none (Nat.le_of_not_lt ha)]
      simp

end BuildMatrix
end Tpsa

namespace Tpsa
section C5
variable {α : Type} [LinearOrderedField α]

theorem buildInv_congr (sqrtF : α → α) (xys : List (Point α)) (i j i' j' : Nat)
    (m : List (List α))
    (h : ∀ a b, PairDone xys.length i j a b ↔ PairDone xys.length i' j' a b)
    (hm : BuildInv sqrtF xys i j m) : BuildInv sqrtF xys i' j' m := by
  obtain ⟨h1, h2, h3⟩ := hm
  refine ⟨h1, h2, fun a b => ⟨fun hd => (h3 a b).1 ((h a b).mpr hd),
    fun hd => (h3 a b).2 (fun hd' => hd ((h a b).mp hd'))⟩⟩

/-- The body of the inner construction loop at a pair `i < j` below the number of
points returns and stores the pair. -/
theorem buildInv_step (sqrtF : α → α) (xys : List (Point α)) (i j : Nat)
    (m : List (List α)) (hij : i < j) (hj : j < xys.length)
    (hm : BuildInv sqrtF xys i j m) :
    ∃ m', (do
        let p1 ← xys[i]?
        let p2 ← xys[j]?
        let cost := dist sqrtF p1 p2
        let m' ← setEntry m i j cost
        setEntry m' j i cost) = some m' ∧ BuildInv sqrtF xys i (j + 1) m' := by
  obtain ⟨h1, h2, h3⟩ := hm
  have hi : i < xys.length := by omega
  obtain ⟨m1, e1, l1, r1, s1⟩ :=
    setEntry_spec m xys.length i j (dist sqrtF xys[i] xys[j]) h1 h2 hi hj
  obtain ⟨m2, e2, l2, r2, s2⟩ :=
    setEntry_spec m1 xys.length j i (dist sqrtF xys[i] xys[j]) l1 r1 hj hi
  refine ⟨m2, ?_, l2, r2, ?_⟩
  · simp only [Option.bind_eq_bind, List.getElem?_eq_getElem hi,
      List.getElem?_eq_getElem hj, Option.some_bind, e1, e2]
  · intro a b
    have gi : xys.getD i ⟨0, 0⟩ = xys[i] := by
      rw [List.getD_eq_getElem?_getD, List.getElem?_eq_getElem hi]; rfl
    have gj : xys.getD j ⟨0, 0⟩ = xys[j] := by
      rw [List.getD_eq_getElem?_getD, List.getElem?_eq_getElem hj]; rfl
    rw [s2, s1]
    by_cases c1 : a = j ∧ b = i
    · obtain ⟨rfl, rfl⟩ := c1
      rw [if_pos ⟨rfl, rfl⟩]
      refine ⟨fun _ => ?_, fun hd => absurd ?_ hd⟩
      · rw [gi, gj, dist_comm]
      · unfold PairDone; omega
    · rw [if_neg c1]
      by_cases c2 : a = i ∧ b = j
      · obtain ⟨rfl, rfl⟩ := c2
        rw [if_pos ⟨rfl, rfl⟩]
        refine ⟨fun _ => ?_, fun hd => absurd ?_ hd⟩
        · rw [gi, gj]
        · unfold PairDone; omega
      · rw [if_neg c2]
        have hiff : PairDone xys.length i (j + 1) a b ↔ PairDone xys.length i j a b := by
          unfold PairDone; omega
        exact ⟨fun hd => (h3 a b).1 (hiff.mp hd), fun hd => (h3 a b).2 (fun hd' => hd (hiff.mpr hd'))⟩

/-- The construction loops return a square matrix holding the distance of every pair
of distinct points and `0` elsewhere. -/
theorem buildMatrix_spec (sqrtF : α → α) (xys : List (Point α)) :
    ∃ m, buildMatrix sqrtF xys xys.length = some m ∧
      BuildInv sqrtF xys xys.length (xys.length + 1) m := by
  obtain ⟨m1, e1, l1, r1, z1⟩ := zeroRows_spec (α := α) xys.length
  have h0 : BuildInv sqrtF xys 0 (0 + 1) m1 :=
    ⟨l1, r1, fun a b => ⟨fun hd => absurd hd (by unfold PairDone; omega), fun _ => z1 a b⟩⟩
  obtain ⟨m2, e2, h2⟩ := forLoop_total
    (fun i m => BuildInv sqrtF xys i (i + 1) m)
    (fun i => forLoop (fun j m => do
      let p1 ← xys[i]?
      let p2 ← xys[j]?
      let cost := dist sqrtF p1 p2
      let m' ← setEntry m i j cost
      setEntry m' j i cost) (xys.length - (i + 1)) (i + 1))
    xys.length 0 m1 h0
    (by
      intro i m _ hi hm
      obtain ⟨m', e', h'⟩ := forLoop_total
        (fun j m => BuildInv sqrtF xys i j m)
        (fun j m => do
          let p1 ← xys[i]?
          let p2 ← xys[j]?
          let cost := dist sqrtF p1 p2
          let m' ← setEntry m i j cost
          setEntry m' j i cost) (xys.length - (i + 1)) (i + 1) m hm
        (fun j u hj1 hj2 hu => buildInv_step sqrtF xys i j u (by omega) (by omega) hu)
      refine ⟨m', e', buildInv_congr sqrtF xys _ _ _ _ m' ?_ h'⟩
      intro a b
      unfold PairDone; omega)
  refine ⟨m2, ?_, ?_⟩
  · simp only [buildMatrix, Option.bind_eq_bind, e1, Option.some_bind]
    exact e2
  · exact buildInv_congr sqrtF xys _ _ _ _ m2 (by intro a b; unfold PairDone; omega) h2

/-- C5. For every list of `n` points `loadData` returns; the matrix it builds has `n`
rows of `n` entries, `Matrix[i][j] = Matrix[j][i] = dist(points[i], points[j])` for all
`i, j < n` with `i != j`, and `Matrix[i][i] = 0` for all `i < n`. -/
theorem loadData_matrix (sqrtF : α → α) (t : TPSA α) (xys : List (Point α)) :
    ∃ t', loadData sqrtF t xys = some t' ∧ t'.Size = xys.length ∧ SquareMatrix t' ∧
      ∀ (i j : Nat) (hi : i < xys.length) (hj : j < xys.length),
        (i ≠ j → cost t' i j = dist sqrtF xys[i] xys[j] ∧
          cost t' j i = dist sqrtF xys[i] xys[j]) ∧
        cost t' i i = 0 := by
  obtain ⟨m, e, l, r, h⟩ := buildMatrix_spec sqrtF xys
  refine ⟨{ t with Size := xys.length, Matrix := m }, by simp [loadData, e], rfl, ⟨l, r⟩, ?_⟩
  intro i j hi hj
  have gi : xys.getD i ⟨0, 0⟩ = xys[i] := by
    rw [List.getD_eq_getElem?_getD, List.getElem?_eq_getElem hi]; rfl
  have gj : xys.getD j ⟨0, 0⟩ = xys[j] := by
    rw [List.getD_eq_getElem?_getD, List.getElem?_eq_getElem hj]; rfl
  refine ⟨fun hne => ⟨?_, ?_⟩, ?_⟩
  · have := (h i j).1 (by unfold PairDone; omega)
    rw [gi, gj] at this
    exact this
  · have := (h j i).1 (by unfold PairDone; omega)
    rw [gi, gj, dist_comm] at this
    exact this
  · exact (h i i).2 (by unfold PairDone; omega)

/-- C5 on three points, with the identity in the place of the square root: the entries
of the pair `(1, 2)` are `3^2 + 4^2` and the diagonal entry is `0`. -/
theorem loadData_matrix_witness :
    ∃ t', loadData (fun x => x) demoState demoPoints = some t' ∧
      cost t' 1 2 = 25 ∧ cost t' 2 1 = 25 ∧ cost t' 1 1 = 0 := by
  obtain ⟨t', h1, _, _, h4⟩ := loadData_matrix (fun x => x) demoState demoPoints
  obtain ⟨h5, h6⟩ := h4 1 2 (by decide) (by decide)
  obtain ⟨h7, h8⟩ := h5 (by decide)
  have e : dist (fun x => x) (demoPoints[1]) (demoPoints[2]) = (25 : ℚ) := by
    simp [dist, demoPoints]; norm_num
  rw [e] at h7 h8
  exact ⟨t', h1, h7, h8, h6⟩

end C5
end Tpsa

namespace Tpsa
section C6
variable {α : Type} [LinearOrderedField α]

theorem pathCost_of_length_le_one (c : Nat → Nat → α) (xs : List Nat)
    (h : xs.length ≤ 1) : pathCost c xs = 0 := by
  match xs, h with
  | [], _ => rfl
  | [_], _ => rfl

theorem link_congr (c : Nat → Nat → α) (xs xs' ys ys' : List Nat)
    (hx : xs.getLast? = xs'.getLast?) (hy : ys.head? = ys'.head?) :
    link c xs ys = link c xs' ys' := by
  simp only [link, hx, hy]

/-- The cost of the closed walk is the cost of the open walk plus the closing edge. -/
theorem cycleCost_eq (c : Nat → Nat → α) (xs : List Nat) :
    cycleCost c xs = pathCost c xs + link c xs xs := by
  rw [cycleCost, pathCost_append, pathCost_of_length_le_one c (xs.take 1) (by simp),
    link_congr c xs xs (xs.take 1) xs rfl (by rw [List.head?_take]; simp)]
  ring

theorem cycleCost_rotate_one (c : Nat → Nat → α) (a : Nat) (l : List Nat) :
    cycleCost c (l ++ [a]) = cycleCost c (a :: l) := by
  rw [cycleCost_eq, cycleCost_eq, pathCost_append, pathCost_cons]
  cases l with
  | nil => simp [link, pathCost]
  | cons b l =>
    have hl : ∃ z, (b :: l).getLast? = some z :=
      ⟨(b :: l).getLast (by simp), List.getLast?_eq_getLast _ _⟩
    obtain ⟨z, hz⟩ := hl
    have ha : (b :: (l ++ [a])).getLast? = some a := by
      rw [← List.cons_append, List.getLast?_append]; simp
    simp [link, pathCost, hz, ha]
    ring

/-- The cost of the closed walk does not depend on the city it starts from. -/
theorem cycleCost_rotate (c : Nat → Nat → α) :
    ∀ (r : Nat) (l : List Nat), cycleCost c (l.rotate r) = cycleCost c l
  | 0, l => by rw [List.rotate_zero]
  | r + 1, [] => by simp
  | r + 1, a :: l => by
    rw [List.rotate_cons_succ, cycleCost_rotate c r, cycleCost_rotate_one]

/-- The cost of the closed walk, for a symmetric cost, does not depend on its
direction. -/
theorem cycleCost_reverse (c : Nat → Nat → α) (hc : ∀ a b, c a b = c b a) (l : List Nat) :
    cycleCost c l.reverse = cycleCost c l := by
  rw [cycleCost_eq, cycleCost_eq, pathCost_reverse c hc, link_reverse c hc]

/-- The accumulator loop of `getTotalCost` adds the edge costs in the order of the
positions. -/
theorem getTotalCost_loop_sum (t : TPSA α) (tour : List Nat) (hM : SquareMatrix t)
    (hlen : tour.length = t.Size) (hlt : ∀ x ∈ tour, x < t.Size) :
    ∀ (r i : Nat) (ret : α), i + r = tour.length →
      forLoop (fun i ret => (getCost t tour i (i + 1)).map (fun c => ret + c)) r i ret =
        some (ret + ∑ k ∈ Finset.range r,
          cost t (tour.getD (i + k) 0) (tour.getD ((i + k + 1) % t.Size) 0)) := by
  intro r
  induction r with
  | zero => intro i ret _; simp [forLoop]
  | succ r ih =>
    intro i ret hi
    have hpos : 0 < t.Size := by omega
    have hc := getCost_eq t tour i (i + 1) hM hlen hlt hpos
    rw [Nat.mod_eq_of_lt (by omega : i < t.Size)] at hc
    simp only [forLoop, hc, Option.map_some', Option.some_bind]
    rw [ih (i + 1) _ (by omega), Finset.sum_range_succ']
    congr 1
    have e : ∀ k, i + 1 + k = i + (k + 1) := fun k => by omega
    simp only [e, Nat.add_zero]
    ring

/-- C6. For a symmetric `Size x Size` matrix and a tour of `Size` entries below `Size`,
`getTotalCost` returns the sum over `k < n` of `Matrix[tour[k]][tour[(k+1) mod n]]`, and
it returns the same value on every rotation of the tour and on the reversed tour. -/
theorem getTotalCost_sum_rotate_reverse (t : TPSA α) (tour : List Nat)
    (hM : SquareMatrix t)
    (hsym : ∀ a b, a < t.Size → b < t.Size → cost t a b = cost t b a)
    (hlen : tour.length = t.Size) (hlt : ∀ x ∈ tour, x < t.Size) :
    getTotalCost t tour = some (∑ k ∈ Finset.range t.Size,
        cost t (tour.getD k 0) (tour.getD ((k + 1) % t.Size) 0)) ∧
      (∀ r, getTotalCost t (tour.rotate r) = getTotalCost t tour) ∧
      getTotalCost t tour.reverse = getTotalCost t tour := by
  refine ⟨?_, ?_, ?_⟩
  · rw [getTotalCost, getTotalCost_loop_sum t tour hM hlen hlt tour.length 0 0 (by omega),
      hlen]
    simp
  · intro r
    rw [getTotalCost_eq_cycleCost t tour hM hlen hlt,
      getTotalCost_eq_cycleCost t (tour.rotate r) hM (by rw [List.length_rotate]; exact hlen)
        (fun x hx => hlt x (List.mem_rotate.mp hx)),
      cycleCost_rotate]
  · rw [getTotalCost_eq_cycleCost t tour hM hlen hlt,
      getTotalCost_eq_cycleCost t tour.reverse hM (by rw [List.length_reverse]; exact hlen)
        (fun x hx => hlt x (List.mem_reverse.mp hx)),
      cycleCost_reverse (cost t) (cost_symm t hM hsym)]

/-- C6 on the square: the tour `3,1,0,2`, its rotation by one and its reversal all
cost `6`. -/
theorem getTotalCost_sum_rotate_reverse_witness :
    getTotalCost demoState [3, 1, 0, 2] = some 6 ∧
      getTotalCost demoState [1, 0, 2, 3] = some 6 ∧
      getTotalCost demoState [2, 0, 1, 3] = some 6 := by
  obtain ⟨h1, h2, h3⟩ := getTotalCost_sum_rotate_reverse demoState [3, 1, 0, 2]
    (by unfold SquareMatrix; decide)
    (by
      intro a b ha hb
      have ha' : a < 4 := ha
      have hb' : b < 4 := hb
      interval_cases a <;> interval_cases b <;> rfl)
    rfl (by decide)
  have e : getTotalCost demoState [3, 1, 0, 2] = some 6 := by
    rw [h1]
    simp [Finset.sum_range_succ, cost, demoState]; norm_num
  have h2' := h2 1
  rw [e] at h2' h3
  exact ⟨e, h2', h3⟩

end C6
end Tpsa

namespace Tpsa
section InitialLemmas
variable {α : Type} [LinearOrderedField α]

theorem swapAt_spec (l : List Nat) (i j : Nat) (hi : i < l.length) (hj : j < l.length) :
    ∃ l', swapAt l i j = some l' ∧ l'.Perm l := by
  refine ⟨(l.set i l[j]).set j l[i], ?_, ?_⟩
  · simp [swapAt, List.getElem?_eq_getElem hi, List.getElem?_eq_getElem hj]
  · exact swap_perm l i j _ _ (List.getElem?_eq_getElem hi) (List.getElem?_eq_getElem hj)

/-- The shuffle returns a rearrangement of the tour it is given. -/
theorem shuffle_spec (rnd : Nat → Nat) (tour : List Nat) :
    ∃ l, shuffle rnd tour = some l ∧ l.Perm tour := by
  obtain ⟨l, hl, hp⟩ := forLoop_total (fun _ (l : List Nat) => l.Perm tour)
    (fun m l => swapAt l (tour.length - 1 - m) (rnd m % (tour.length - 1 - m + 1)))
    (tour.length - 1) 0 tour (List.Perm.refl _)
    (by
      intro m l _ hm hp
      have hlen : l.length = tour.length := hp.length_eq
      have hj : rnd m % (tour.length - 1 - m + 1) < tour.length - 1 - m + 1 :=
        Nat.mod_lt _ (Nat.succ_pos _)
      obtain ⟨l', h1, h2⟩ := swapAt_spec l (tour.length - 1 - m)
        (rnd m % (tour.length - 1 - m + 1)) (by omega) (by omega)
      exact ⟨l', h1, h2.trans hp⟩)
  exact ⟨l, hl, hp⟩

/-- The loop that appends `0, 1, ..., n-1` returns `List.range n`. -/
theorem appendLoop_spec (n : Nat) :
    forLoop (fun i (l : List Nat) => some (l ++ [i])) n 0 [] = some (List.range n) := by
  obtain ⟨l, hl, hp⟩ := forLoop_total (fun i (l : List Nat) => l = List.range i)
    (fun i (l : List Nat) => some (l ++ [i])) n 0 [] rfl
    (by
      intro i l _ _ hl
      exact ⟨l ++ [i], rfl, by show l ++ [i] = List.range (i + 1); rw [hl, List.range_succ]⟩)
  rw [hl, hp, Nat.zero_add]

theorem copy_of_length_eq (n : Nat) (tour : List Nat) (h : tour.length = n) :
    copy (List.replicate n 0) tour = tour := by
  simp [copy, h]

/-- The loop that fills a list of `n` slots with the same value returns the list of `n`
copies of it. -/
theorem fillLoop_spec {β σ : Type} (n : Nat) (v : β) (vf : σ → β) (get : σ → List β)
    (put : σ → List β → σ) (hgp : ∀ u l, get (put u l) = l)
    (hpp : ∀ u l l', put (put u l) l' = put u l') (u0 : σ) (l0 : List β)
    (hvf : ∀ l, vf (put u0 l) = v) (h0 : l0.length = n) :
    forLoop (fun i u => (setAt (get u) (i : Int) (vf u)).map (fun l => put u l)) n 0
        (put u0 l0)
      = some (put u0 (List.replicate n v)) := by
  obtain ⟨u, hu, l, rfl, hlen, hl⟩ := forLoop_total
    (fun i u => ∃ l, u = put u0 l ∧ l.length = n ∧ ∀ r, r < i → l[r]? = some v)
    (fun i u => (setAt (get u) (i : Int) (vf u)).map (fun l => put u l)) n 0 (put u0 l0)
    ⟨l0, rfl, h0, by intro r hr; omega⟩
    (by
      intro i u _ hi hu
      obtain ⟨l, rfl, hlen, hl⟩ := hu
      refine ⟨put u0 (l.set i v), ?_, l.set i v, rfl, by simp [hlen], ?_⟩
      · have hc : (0 : Int) ≤ (i : Int) ∧ (i : Int) < (l.length : Int) := by
          constructor <;> omega
        simp [setAt, hgp, hpp, hc, hvf]
      · intro r hr
        rw [List.getElem?_set]
        by_cases h : i = r
        · simp [h, hlen]; omega
        · rw [if_neg h]; exact hl r (by omega))
  rw [hu]
  have e : l = List.replicate n v := by
    apply List.ext_getElem?
    intro r
    by_cases hr : r < n
    · rw [hl r (by omega), List.getElem?_replicate, if_pos hr]
    · rw [List.getElem?_eq_none (by omega), List.getElem?_replicate, if_neg hr]
  rw [e]

/-- The ladder loop of `makeInitialData` returns, changes `Temperatures` only, and
puts the value of round `i` in the slot `n - 1 - i`. -/
theorem ladderLoop_spec (u0 : TPSA α) (interval : FVal α) (n : Nat)
    (hn : (n : Int) = u0.Thread) (hlen : u0.Temperatures.length = n) :
    ∃ temps, forLoop (fun i u =>
          (setAt u.Temperatures (u.Thread - 1 - i)
            (FVal.add (FVal.mul interval (FVal.fin (i : α))) (FVal.fin u.MinTemp))).map
            (fun temps => { u with Temperatures := temps })) n 0 u0
        = some { u0 with Temperatures := temps } ∧
      temps.length = n ∧
      ∀ i, i < n → temps[n - 1 - i]? =
        some (FVal.add (FVal.mul interval (FVal.fin (i : α))) (FVal.fin u0.MinTemp)) := by
  obtain ⟨u, hu, temps, rfl, h1, h2⟩ := forLoop_total
    (fun i u => ∃ temps, u = { u0 with Temperatures := temps } ∧ temps.length = n ∧
      ∀ r, r < i → temps[n - 1 - r]? =
        some (FVal.add (FVal.mul interval (FVal.fin (r : α))) (FVal.fin u0.MinTemp)))
    (fun i u =>
      (setAt u.Temperatures (u.Thread - 1 - i)
        (FVal.add (FVal.mul interval (FVal.fin (i : α))) (FVal.fin u.MinTemp))).map
        (fun temps => { u with Temperatures := temps })) n 0 u0
    ⟨u0.Temperatures, rfl, hlen, by intro r hr; omega⟩
    (by
      intro i u _ hi hu
      obtain ⟨temps, rfl, h1, h2⟩ := hu
      have hc : (0 : Int) ≤ u0.Thread - 1 - (i : Int) ∧
          u0.Thread - 1 - (i : Int) < (temps.length : Int) := by
        constructor <;> omega
      have hidx : (u0.Thread - 1 - (i : Int)).toNat = n - 1 - i := by omega
      have key : ∀ v : FVal α,
          (setAt temps (u0.Thread - 1 - (i : Int)) v).map
            (fun x => ({ u0 with Temperatures := x } : TPSA α))
          = some { u0 with Temperatures := temps.set (n - 1 - i) v } := by
        intro v
        simp only [setAt, hc, and_self, if_true, Option.map_some', hidx]
      refine ⟨_, key _, _, rfl, by simp [h1], ?_⟩
      intro r hr
      rw [List.getElem?_set]
      by_cases h : n - 1 - i = n - 1 - r
      · have e : r = i := by omega
        subst e
        rw [if_pos rfl, if_pos (by omega)]
      · rw [if_neg h]; exact h2 r (by omega))
  exact ⟨temps, hu, h1, fun i hi => h2 i (by omega)⟩

/-- With a non-negative `Thread`, `makeInitialData` returns: the configuration, the
matrix and `Size` are as before, the ladder has `Thread` entries with the value of
round `i` in the slot `Thread - 1 - i`, and every one of the `Thread` slots holds the
same rearrangement of `0..Size-1`. -/
theorem makeInitialData_spec (t : TPSA α) (rnd : Nat → Nat) (h : 0 ≤ t.Thread) :
    ∃ temps tour, makeInitialData t rnd =
        some { t with Temperatures := temps, Tours := List.replicate t.Thread.toNat tour } ∧
      temps.length = t.Thread.toNat ∧
      (∀ i, i < t.Thread.toNat → temps[t.Thread.toNat - 1 - i]? =
        some (FVal.add
          (FVal.mul
            (FVal.div (FVal.fin (t.MaxTemp - t.MinTemp)) (FVal.fin (((t.Thread - 1 : Int)) : α)))
            (FVal.fin (i : α)))
          (FVal.fin t.MinTemp))) ∧
      tour.Perm (List.range t.Size) := by
  obtain ⟨temps, e1, h1, h2⟩ := ladderLoop_spec
    ({ t with Temperatures := List.replicate t.Thread.toNat (FVal.fin 0),
              Tours := List.replicate t.Thread.toNat [] } : TPSA α)
    (FVal.div (FVal.fin (t.MaxTemp - t.MinTemp)) (FVal.fin (((t.Thread - 1 : Int)) : α)))
    t.Thread.toNat (by simp; omega) (by simp)
  obtain ⟨tour, e2, hp⟩ := shuffle_spec rnd (List.range t.Size)
  have hlen : tour.length = t.Size := by rw [hp.length_eq, List.length_range]
  have e3 := fillLoop_spec t.Thread.toNat tour
    (fun u : TPSA α => copy (List.replicate u.Size 0) tour) (fun u : TPSA α => u.Tours)
    (fun u l => { u with Tours := l }) (fun _ _ => rfl) (fun _ _ _ => rfl)
    ({ t with Temperatures := temps, Tours := List.replicate t.Thread.toNat [] } : TPSA α)
    (List.replicate t.Thread.toNat [])
    (fun _ => copy_of_length_eq t.Size tour hlen) (by simp)
  refine ⟨temps, tour, ?_, h1, h2, hp⟩
  simp only [makeInitialData, if_neg (not_lt.mpr h), Option.bind_eq_bind]
  rw [e1]
  simp only [Option.some_bind, appendLoop_spec, e2]
  exact e3

end InitialLemmas
end Tpsa

namespace Tpsa
section C7
variable {α : Type} [LinearOrderedField α]

/-- C7. For `Thread >= 2` and any `MinTemp`, `MaxTemp`, `makeInitialData` returns and the
ladder has exactly `Thread` entries, `Temperatures[0] = MaxTemp`,
`Temperatures[Thread-1] = MinTemp`, and for every slot `k < Thread`,
`Temperatures[k] = MinTemp + (Thread-1-k) * (MaxTemp - MinTemp) / (Thread-1)`, all of
them finite. -/
theorem makeInitialData_ladder (t : TPSA α) (rnd : Nat → Nat) (hT : 2 ≤ t.Thread) :
    ∃ t', makeInitialData t rnd = some t' ∧
      (t'.Temperatures.length : Int) = t.Thread ∧
      t'.Temperatures[0]? = some (FVal.fin t.MaxTemp) ∧
      t'.Temperatures[(t.Thread - 1).toNat]? = some (FVal.fin t.MinTemp) ∧
      ∀ k : Nat, (k : Int) < t.Thread →
        t'.Temperatures[k]? = some (FVal.fin
          (t.MinTemp + (((t.Thread - 1 - k : Int)) : α) * (t.MaxTemp - t.MinTemp)
            / (((t.Thread - 1 : Int)) : α))) := by
  obtain ⟨temps, tour, e, hlen, hval, _⟩ := makeInitialData_spec t rnd (by omega)
  have hne : (((t.Thread - 1 : Int)) : α) ≠ 0 := by
    have : (t.Thread - 1 : Int) ≠ 0 := by omega
    exact_mod_cast this
  have hslot : ∀ k : Nat, (k : Int) < t.Thread →
      temps[k]? = some (FVal.fin
        (t.MinTemp + (((t.Thread - 1 - k : Int)) : α) * (t.MaxTemp - t.MinTemp)
          / (((t.Thread - 1 : Int)) : α))) := by
    intro k hk
    have h := hval (t.Thread.toNat - 1 - k) (by omega)
    have e1 : t.Thread.toNat - 1 - (t.Thread.toNat - 1 - k) = k := by omega
    have e2 : ((t.Thread.toNat - 1 - k : Nat) : Int) = t.Thread - 1 - k := by omega
    have e3 : (((t.Thread.toNat - 1 - k : Nat)) : α) = (((t.Thread - 1 - k : Int)) : α) := by
      rw [← e2, Int.cast_natCast]
    rw [e1, e3] at h
    rw [h]
    simp only [FVal.div, if_neg hne, FVal.mul, FVal.add]
    congr 2
    ring
  refine ⟨_, e, ?_, ?_, ?_, hslot⟩
  · show (temps.length : Int) = t.Thread
    rw [hlen]; omega
  · have h := hslot 0 (by omega)
    show temps[0]? = _
    rw [h]
    congr 2
    have e0 : (t.Thread - 1 - ((0 : Nat) : Int) : Int) = t.Thread - 1 := by omega
    rw [e0, mul_div_cancel_left₀ _ hne]
    ring
  · have h := hslot (t.Thread - 1).toNat (by omega)
    show temps[(t.Thread - 1).toNat]? = _
    rw [h]
    congr 2
    have e0 : (t.Thread - 1 - ((t.Thread - 1).toNat : Int) : Int) = 0 := by omega
    rw [e0]
    simp

/-- C7 for two slots between `1` and `2`: the ladder is `2, 1`. -/
theorem makeInitialData_ladder_witness :
    ∃ t', makeInitialData demoState (fun m => m) = some t' ∧
      t'.Temperatures[0]? = some (FVal.fin 2) ∧
      t'.Temperatures[1]? = some (FVal.fin 1) := by
  obtain ⟨t', h1, _, h3, h4, _⟩ := makeInitialData_ladder demoState (fun m => m)
    (by decide)
  exact ⟨t', h1, h3, h4⟩

end C7
end Tpsa

namespace Tpsa
section C8

theorem slotsFrom_nil (bound : Int) (i : Nat) (h : ¬ (i : Int) < bound) :
    slotsFrom bound i = [] := by
  unfold slotsFrom
  rw [List.filter_eq_nil_iff]
  intro x hx
  rw [List.mem_range] at hx
  simp only [decide_eq_true_eq]
  omega

theorem filter_range_cons (i : Nat) :
    ∀ n, i < n →
      (List.range n).filter (fun x => decide (i ≤ x ∧ x % 2 = i % 2)) =
        i :: (List.range n).filter (fun x => decide (i + 2 ≤ x ∧ x % 2 = (i + 2) % 2)) := by
  intro n
  induction n with
  | zero => intro h; omega
  | succ n ih =>
    intro h
    rw [List.range_succ, List.filter_append, List.filter_append]
    by_cases hin : i < n
    · rw [ih hin, List.cons_append]
      congr 2
      apply List.filter_congr
      intro x hx
      rw [List.mem_singleton] at hx
      subst hx
      rw [decide_eq_decide]
      omega
    · have e : i = n := by omega
      subst e
      have h1 : (List.range i).filter (fun x => decide (i ≤ x ∧ x % 2 = i % 2)) = [] := by
        rw [List.filter_eq_nil_iff]
        intro x hx
        rw [List.mem_range] at hx
        simp only [decide_eq_true_eq]
        omega
      have h2 : (List.range i).filter
          (fun x => decide (i + 2 ≤ x ∧ x % 2 = (i + 2) % 2)) = [] := by
        rw [List.filter_eq_nil_iff]
        intro x hx
        rw [List.mem_range] at hx
        simp only [decide_eq_true_eq]
        omega
      rw [h1, h2]
      simp [List.filter_singleton]

theorem slotsFrom_cons (bound : Int) (i : Nat) (h : (i : Int) < bound) :
    slotsFrom bound i = i :: slotsFrom bound (i + 2) :=
  filter_range_cons i bound.toNat (by omega)

/-- A stride-2 loop runs its body on the indices `i, i + 2, ...` below the bound, in
that order. -/
theorem stepLoop_eq_foldlM {σ : Type} (body : Nat → σ → Option σ) (bound : Int) :
    ∀ (m i : Nat) (s : σ), (bound - i).toNat ≤ m →
      stepLoop body bound i s = (slotsFrom bound i).foldlM (fun u x => body x u) s := by
  intro m
  induction m with
  | zero =>
    intro i s hm
    rw [stepLoop, if_neg (by omega), slotsFrom_nil bound i (by omega)]
    rfl
  | succ m ih =>
    intro i s hm
    by_cases hlt : (i : Int) < bound
    · rw [stepLoop, if_pos hlt, slotsFrom_cons bound i hlt, List.foldlM_cons]
      cases hb : body i s with
      | none => rfl
      | some s1 =>
        simp only [Option.some_bind, Option.bind_eq_bind]
        exact ih (i + 2) s1 (by omega)
    · rw [stepLoop, if_neg hlt, slotsFrom_nil bound i hlt]
      rfl

theorem scheduledSlots_eq (thread count : Int) :
    scheduledSlots thread count =
      slotsFrom (thread - 1) (if count.tmod 2 = 0 then 0 else 1) := by
  unfold scheduledSlots slotsFrom
  apply List.filter_congr
  intro x _
  have hc : count.tmod 2 = 0 ↔ count % 2 = 0 := by
    rw [← Int.dvd_iff_tmod_eq_zero, Int.dvd_iff_emod_eq_zero]
  have h2 := Int.emod_two_eq count
  by_cases h : count.tmod 2 = 0
  · have h' := hc.mp h
    simp only [h, if_true, h', decide_eq_decide]
    omega
  · have h' : count % 2 = 1 := by
      rcases h2 with h2 | h2
      · exact absurd (hc.mpr h2) h
      · exact h2
    simp only [h, if_false, h', decide_eq_decide]
    omega

/-- For a thread count above the least `int`, the control flow of `exchangeSolutions`
runs its body on the scheduled slots, in increasing order. -/
theorem exchangeSchedule_eq_foldlM {σ : Type} (body : Nat → Nat → σ → Option σ)
    (thread count : Int) (h1 : -2 ^ 63 < thread) (h2 : thread < 2 ^ 63) (s : σ) :
    exchangeSchedule body thread count s =
      (scheduledSlots thread count).foldlM (fun u i => body i (i + 1) u) s := by
  rw [scheduledSlots_eq]
  unfold exchangeSchedule
  rw [wrapInt_of_range (thread - 1) (by omega) (by omega)]
  split
  · exact stepLoop_eq_foldlM (fun i => body i (i + 1)) (thread - 1) _ 0 s (Nat.le_refl _)
  · exact stepLoop_eq_foldlM (fun i => body i (i + 1)) (thread - 1) _ 1 s (Nat.le_refl _)

theorem foldlM_record (l : List Nat) :
    ∀ log : List (Nat × Nat),
      l.foldlM (fun (u : List (Nat × Nat)) i => some (u ++ [(i, i + 1)])) log =
        some (log ++ l.map (fun i => (i, i + 1))) := by
  induction l with
  | nil => intro log; simp
  | cons a l ih =>
    intro log
    rw [List.foldlM_cons]
    simp only [Option.bind_eq_bind, Option.some_bind, ih, List.map_cons, List.append_assoc,
      List.singleton_append]

/-- C8, the claim as stated fails at the least `int`: with `Thread = -2^63` no slot is
below `Thread - 1`, but the bound `t.Thread-1` wraps around to `2^63 - 1`, so
`exchangeSolutions(0)` calls `exchangeSolution(0, 1)` and then `exchangeSolution(2, 3)`,
which indexes `Temperatures` out of range: the call panics where the claimed schedule
would return the state as it was. -/
theorem exchangeSolutions_schedule_counterexample :
    scheduledSlots (-2 ^ 63) 0 = [] ∧
      wrapInt (-2 ^ 63 - 1) = 2 ^ 63 - 1 ∧
      (exchangeSolution demoExp minThreadState 0 1 (1 / 2)).isSome = true ∧
      exchangeSolutions demoExp (fun _ => 1 / 2) 0 (minThreadState, 0) = none := by
  have hw : wrapInt (-2 ^ 63 - 1) = 2 ^ 63 - 1 := by unfold wrapInt; decide
  have h01 : exchangeSolution demoExp minThreadState 0 1 (1 / 2) =
      some { minThreadState with Tours := [[3, 1, 0, 2], [0, 1, 2, 3]] } := by
    simp [exchangeSolution, minThreadState, demoState, getTotalCost, getCost, forLoop,
      FVal.sub, FVal.add, FVal.neg, FVal.mul, FVal.div, FVal.exp, FVal.lt, FVal.le, demoExp]
    norm_num
  refine ⟨by decide, hw, by rw [h01]; rfl, ?_⟩
  unfold exchangeSolutions exchangeSchedule
  rw [if_pos (by decide)]
  have hT : minThreadState.Thread = -2 ^ 63 := rfl
  show stepLoop _ (wrapInt (minThreadState.Thread - 1)) 0 (minThreadState, 0) = none
  rw [hT, hw, stepLoop, if_pos (by decide)]
  simp only [h01, Option.map_some', Option.some_bind]
  rw [stepLoop, if_pos (by decide)]
  rfl

/-- C8. For every `count` and every `Thread` above the least `int`,
`exchangeSolutions(count)` calls `exchangeSolution(i, i+1)` for exactly the slots `i`
with `0 <= i < Thread-1` and `i mod 2 = count mod 2`, in increasing order of `i` and once
each; both slots of every pair are below `Thread` and no slot is in two pairs; and the
result of `exchangeSolutions` is that of these calls made in this order. -/
theorem exchangeSolutions_schedule (thread count : Int) (h1 : -2 ^ 63 < thread)
    (h2 : thread < 2 ^ 63) :
    exchangeCalls thread count =
        some ((scheduledSlots thread count).map (fun i => (i, i + 1))) ∧
      (scheduledSlots thread count).Sorted (· < ·) ∧
      (∀ i, i ∈ scheduledSlots thread count ↔
        ((i : Int) < thread - 1 ∧ (i : Int) % 2 = count % 2)) ∧
      (∀ i ∈ scheduledSlots thread count, (i : Int) + 1 < thread) ∧
      (∀ i ∈ scheduledSlots thread count, ∀ j ∈ scheduledSlots thread count,
        i ≠ j → i + 1 ≠ j ∧ j + 1 ≠ i) ∧
      ∀ {α : Type} [LinearOrderedField α] (expF : α → α) (draws : Nat → α)
        (s : TPSA α × Nat), s.1.Thread = thread →
        exchangeSolutions expF draws count s =
          (scheduledSlots thread count).foldlM
            (fun u i => (exchangeSolution expF u.1 i (i + 1) (draws u.2)).map
              (fun t => (t, u.2 + 1))) s := by
  have hmem : ∀ i, i ∈ scheduledSlots thread count ↔
      ((i : Int) < thread - 1 ∧ (i : Int) % 2 = count % 2) := by
    intro i
    unfold scheduledSlots
    rw [List.mem_filter, List.mem_range, decide_eq_true_eq]
    constructor
    · rintro ⟨h1, h2⟩; exact ⟨by omega, h2⟩
    · rintro ⟨h1, h2⟩; exact ⟨by omega, h2⟩
  refine ⟨?_, ?_, hmem, ?_, ?_, ?_⟩
  · unfold exchangeCalls
    rw [exchangeSchedule_eq_foldlM _ _ _ h1 h2, foldlM_record]
    rfl
  · exact (List.sorted_lt_range _).filter _
  · intro i hi
    have := (hmem i).mp hi
    omega
  · intro i hi j hj _
    have h1 := (hmem i).mp hi
    have h2 := (hmem j).mp hj
    omega
  · intro α _ expF draws s hs
    unfold exchangeSolutions
    rw [hs, exchangeSchedule_eq_foldlM _ _ _ h1 h2]

/-- C8 for seven slots: the pairs of an even and of an odd iteration. -/
theorem exchangeSolutions_schedule_witness :
    exchangeCalls 7 4 = some [(0, 1), (2, 3), (4, 5)] ∧
      exchangeCalls 7 5 = some [(1, 2), (3, 4), (5, 6)] := by
  refine ⟨?_, ?_⟩
  · rw [(exchangeSolutions_schedule 7 4 (by decide) (by decide)).1]; decide
  · rw [(exchangeSolutions_schedule 7 5 (by decide) (by decide)).1]; decide

end C8
end Tpsa

namespace Tpsa
section C9
variable {α : Type} [LinearOrderedField α]

/-- The result of `exchangeSolution` on two slots that hold temperatures and tours with
defined costs. -/
theorem exchangeSolution_eq_ite (expF : α → α) (t : TPSA α) (cur next : Nat) (p : α)
    (tn tc : FVal α) (tourNext tourCur : List Nat) (vn vc : α)
    (hn : t.Temperatures[next]? = some tn) (hc : t.Temperatures[cur]? = some tc)
    (hN : t.Tours[next]? = some tourNext) (hC : t.Tours[cur]? = some tourCur)
    (hvn : getTotalCost t tourNext = some vn) (hvc : getTotalCost t tourCur = some vc) :
    exchangeSolution expF t cur next p =
      some (if FVal.lt (FVal.mul (FVal.sub tn tc) (FVal.fin (vn - vc))) (FVal.fin 0) = true ∨
            FVal.le (FVal.fin p)
              (FVal.exp expF
                (FVal.div (FVal.mul (FVal.neg (FVal.sub tn tc)) (FVal.fin (vn - vc)))
                  (FVal.mul tn tc))) = true
        then { t with Tours := (t.Tours.set next tourCur).set cur tourNext }
        else t) := by
  simp only [exchangeSolution, Option.bind_eq_bind, hn, hc, hN, hC, hvn, hvc,
    Option.some_bind, Bool.or_eq_true]
  split <;> rfl

/-- C9. For two slots `cur`, `next` that hold temperatures and tours with defined costs,
and every draw `p`, `exchangeSolution(cur, next)` returns the state with `Tours[cur]`
and `Tours[next]` exchanged if `dT * dV < 0` or
`p <= exp(-dT * dV / (Temperatures[next] * Temperatures[cur]))`, and the state as it was
otherwise, where `dT = Temperatures[next] - Temperatures[cur]` and
`dV = getTotalCost(Tours[next]) - getTotalCost(Tours[cur])`, the operations being those
of `float64`. For finite temperatures with a nonzero product the test is the one of
real arithmetic. -/
theorem exchangeSolution_swaps_iff (expF : α → α) (t : TPSA α) (cur next : Nat) (p : α)
    (tn tc : FVal α) (tourNext tourCur : List Nat) (vn vc : α)
    (hn : t.Temperatures[next]? = some tn) (hc : t.Temperatures[cur]? = some tc)
    (hN : t.Tours[next]? = some tourNext) (hC : t.Tours[cur]? = some tourCur)
    (hvn : getTotalCost t tourNext = some vn) (hvc : getTotalCost t tourCur = some vc) :
    (exchangeSolution expF t cur next p =
      some (if FVal.lt (FVal.mul (FVal.sub tn tc) (FVal.fin (vn - vc))) (FVal.fin 0) = true ∨
            FVal.le (FVal.fin p)
              (FVal.exp expF
                (FVal.div (FVal.mul (FVal.neg (FVal.sub tn tc)) (FVal.fin (vn - vc)))
                  (FVal.mul tn tc))) = true
        then { t with Tours := (t.Tours.set next tourCur).set cur tourNext }
        else t)) ∧
    ∀ a b : α, tn = FVal.fin a → tc = FVal.fin b → a * b ≠ 0 →
      ((FVal.lt (FVal.mul (FVal.sub tn tc) (FVal.fin (vn - vc))) (FVal.fin 0) = true ∨
          FVal.le (FVal.fin p)
            (FVal.exp expF
              (FVal.div (FVal.mul (FVal.neg (FVal.sub tn tc)) (FVal.fin (vn - vc)))
                (FVal.mul tn tc))) = true) ↔
        ((a - b) * (vn - vc) < 0 ∨ p ≤ expF (-(a - b) * (vn - vc) / (a * b)))) := by
  constructor
  · exact exchangeSolution_eq_ite expF t cur next p tn tc tourNext tourCur vn vc
      hn hc hN hC hvn hvc
  · intro a b ha hb hab
    subst ha; subst hb
    simp only [FVal.sub, FVal.neg, FVal.add, FVal.mul, FVal.div, if_neg hab, FVal.exp,
      FVal.lt, FVal.le, decide_eq_true_eq]
    have e1 : a + -b = a - b := by ring
    rw [e1]

/-- C9 on the four-city state: with temperatures `2` and `1` and costs `4` and `6` the
product `dT * dV` is negative and the two tours are exchanged. -/
theorem exchangeSolution_swaps_iff_witness :
    exchangeSolution demoExp demoState 0 1 (1 / 2) =
      some { demoState with Tours := [[3, 1, 0, 2], [0, 1, 2, 3]] } := by
  have h := (exchangeSolution_swaps_iff demoExp demoState 0 1 (1 / 2) (FVal.fin 1)
    (FVal.fin 2) [3, 1, 0, 2] [0, 1, 2, 3] 6 4 rfl rfl rfl rfl
    (by simp [getTotalCost, forLoop, getCost, demoState]; norm_num)
    (by simp [getTotalCost, forLoop, getCost, demoState]; norm_num)).1
  rw [h, if_pos (Or.inl (by simp [FVal.sub, FVal.neg, FVal.add, FVal.mul, FVal.lt]; norm_num))]
  rfl

end C9

end Tpsa

namespace Tpsa
section C11
variable {α : Type} [LinearOrderedField α]

/-- With three cities a pass of `sa` is the single step at the pair `(0, 2)`. -/
theorem saPass_three (expF : α → α) (k : Nat) (draws : Nat → α) (s : TPSA α × Nat) :
    saPass expF k 3 draws s =
      (saStep expF s.1 k 0 2 (draws s.2)).map (fun t => (t, s.2 + 1)) := by
  simp only [saPass, forLoop]
  cases saStep expF s.1 k 0 2 (draws s.2) <;> rfl

/-- With at most two cities a pass of `sa` runs no step. -/
theorem saPass_le_two (expF : α → α) (k n : Nat) (draws : Nat → α) (s : TPSA α × Nat)
    (hn : n ≤ 2) : saPass expF k n draws s = some s := by
  have e : n - 2 = 0 := by omega
  simp only [saPass, e, forLoop]

/-- A step at the pair `(0, 2)` of a three-city tour returns the state as it is or with
the positions 1 and 2 of the tour exchanged. -/
theorem saStep_three (expF : α → α) (t w : TPSA α) (k : Nat) (p : α) (a b c : Nat)
    (h : t.Tours[k]? = some [a, b, c]) (hw : saStep expF t k 0 2 p = some w) :
    w = t ∨ w = withTour t k [a, c, b] := by
  simp only [saStep, Option.bind_eq_bind, Option.bind_eq_some] at hw
  obtain ⟨_, _, _, _, _, _, _, _, _, _, _, _, hw⟩ := hw
  split at hw
  · right
    simp only [forLoop, Option.bind_eq_some] at hw
    obtain ⟨w1, h1, h2⟩ := hw
    cases h2
    obtain ⟨tour, x, y, g1, g2, g3, g4⟩ := flip_eq_some _ _ _ _ _ h1
    rw [h] at g1
    cases g1
    simp only [Nat.zero_add, Nat.sub_zero, List.getElem?_cons_succ, List.getElem?_cons_zero,
      Option.some.injEq] at g2 g3
    subst g2; subst g3
    rw [g4]
    rfl
  · left
    cases hw; rfl

/-- The value of `sa(0)` on the three-city state with the draws `1/2`. -/
theorem sa_triState_eval :
    sa demoExp triState 0 (fun _ => 1 / 2)
      = some { triState with Tours := [[0, 2, 1], [0, 1, 2]] } := by
  have e : triState.Period.toNat = 1 := rfl
  have e3 : triState.Size = 3 := rfl
  simp only [sa, e, e3, forLoop, saPass_three]
  simp [saStep, getCost, triState, exchange, FVal.neg, FVal.div, FVal.exp, FVal.le, demoExp,
    forLoop, flip]
  norm_num

/-- C11, counterexample. Three cities, symmetric matrix, temperature `2`, one pass with
the draw `1/2`: the pass runs the step at the pair `(0, 2)`, whose two edge sums are
equal, and `sa` returns slot 0 with the tour `0,2,1` in the place of `0,1,2`. -/
theorem sa_three_cities_counterexample :
    triState.Size = 3 ∧ triState.Tours[0]? = some [0, 1, 2] ∧
      sa demoExp triState 0 (fun _ => 1 / 2)
        = some { triState with Tours := [[0, 2, 1], [0, 1, 2]] } ∧
      ([0, 2, 1] : List Nat) ≠ [0, 1, 2] :=
  ⟨rfl, rfl, sa_triState_eval, by decide⟩

/-- C11, amended. With `Size = 3` every pass of `sa` runs exactly one step, at the pair
`(0, 2)`, so whenever `sa` returns it has left the state as it was or has exchanged the
positions 1 and 2 of the tour of its slot, for every `Period`, temperature, matrix and
sequence of draws; with `Size <= 2` a pass runs no step and `sa` returns the state as it
was. -/
theorem sa_three_cities (expF : α → α) (t : TPSA α) (k : Nat) (draws : Nat → α) :
    (t.Size = 3 → ∀ s : TPSA α × Nat, saPass expF k t.Size draws s =
      (saStep expF s.1 k 0 2 (draws s.2)).map (fun u => (u, s.2 + 1))) ∧
    (t.Size = 3 → ∀ a b c : Nat, t.Tours[k]? = some [a, b, c] →
      ∀ t', sa expF t k draws = some t' → t' = t ∨ t' = withTour t k [a, c, b]) ∧
    (t.Size ≤ 2 → sa expF t k draws = some t) := by
  refine ⟨?_, ?_, ?_⟩
  · intro h3 s
    rw [h3]; exact saPass_three expF k draws s
  · intro h3 a b c h t' ht'
    have hk : k < t.Tours.length := (List.getElem?_eq_some_iff.mp h).1
    simp only [sa, Option.map_eq_some'] at ht'
    obtain ⟨s', hs', rfl⟩ := ht'
    refine forLoop_inv (fun _ (u : TPSA α × Nat) => u.1 = t ∨ u.1 = withTour t k [a, c, b])
      _ t.Period.toNat 0 (t, 0) s' (Or.inl rfl) ?_ hs'
    intro _ u u' _ _ hu hb
    rw [h3, saPass_three] at hb
    simp only [Option.map_eq_some'] at hb
    obtain ⟨w, hw, rfl⟩ := hb
    rcases hu with hu | hu
    · rw [hu] at hw
      exact saStep_three expF t w k _ a b c h hw
    · rw [hu] at hw
      rcases saStep_three expF (withTour t k [a, c, b]) w k _ a c b
          (withTour_tours_getElem? t k _ hk) hw with h1 | h1
      · right; rw [h1]
      · left
        rw [h1, withTour_withTour, withTour_self t k _ h]
  · intro h2
    have key : ∀ r i (s : TPSA α × Nat),
        forLoop (fun _ s => saPass expF k t.Size draws s) r i s = some s := by
      intro r
      induction r with
      | zero => intro i s; rfl
      | succ r ih =>
        intro i s
        simp only [forLoop, saPass_le_two expF k t.Size draws s h2, Option.some_bind, ih]
    simp only [sa, key, Option.map_some']

/-- C11, amended, on the three-city state: `sa(0)` returns, and the result is the state
as it was or the state with the tour `0,2,1` in slot 0. -/
theorem sa_three_cities_witness :
    ∃ t', sa demoExp triState 0 (fun _ => 1 / 2) = some t' ∧
      (t' = triState ∨ t' = withTour triState 0 [0, 2, 1]) :=
  ⟨_, sa_triState_eval,
    (sa_three_cities demoExp triState 0 (fun _ => 1 / 2)).2.1 rfl 0 1 2 rfl _
      sa_triState_eval⟩

end C11
end Tpsa

namespace Tpsa
section SaTotal
variable {α : Type} [LinearOrderedField α]

theorem permInv_flip (t s s' : TPSA α) (k a b : Nat) (tour0 : List Nat)
    (hk : k < t.Tours.length) (hs : ∃ x, s = withTour t k x ∧ x.Perm tour0)
    (h : flip s k a b = some s') : ∃ x, s' = withTour t k x ∧ x.Perm tour0 := by
  obtain ⟨tour, rfl, hp⟩ := hs
  obtain ⟨tour1, x, y, h1, h2, h3, h4⟩ := flip_eq_some _ _ _ _ _ h
  rw [withTour_tours_getElem? t k tour hk] at h1
  cases h1
  refine ⟨_, ?_, (swap_perm tour a b x y h2 h3).trans hp⟩
  rw [h4, withTour_withTour]

theorem flipLoop_total_perm (t s : TPSA α) (k i j : Nat) (tour0 : List Nat)
    (hk : k < t.Tours.length) (hs : ∃ x, s = withTour t k x ∧ x.Perm tour0)
    (hj : j < tour0.length) :
    ∃ s', forLoop (fun m u => flip u k (i + 1 + m) (j - m)) ((j - i) / 2) 0 s = some s'
      ∧ ∃ x, s' = withTour t k x ∧ x.Perm tour0 := by
  refine forLoop_total (fun _ u => ∃ x, u = withTour t k x ∧ x.Perm tour0)
    (fun m u => flip u k (i + 1 + m) (j - m)) ((j - i) / 2) 0 s hs ?_
  intro m u _ hm hu
  obtain ⟨tour, rfl, hp⟩ := id hu
  have hlen : tour.length = tour0.length := hp.length_eq
  have h1 : i + 1 + m < tour.length := by omega
  have h2 : j - m < tour.length := by omega
  have e := flip_of_getElem? (withTour t k tour) k (i + 1 + m) (j - m) tour _ _
    (withTour_tours_getElem? t k tour hk) (List.getElem?_eq_getElem h1)
    (List.getElem?_eq_getElem h2)
  exact ⟨_, e, permInv_flip t _ _ k _ _ tour0 hk hu e⟩

/-- A step of `sa` returns when the matrix is square, the slot has a temperature and
its tour has `Size` entries below `Size`; the tour stays a rearrangement of the
original one and nothing else changes. -/
theorem saStep_total_perm (expF : α → α) (t s : TPSA α) (k i j : Nat) (p : α)
    (tour0 : List Nat) (hk : k < t.Tours.length) (hT : k < t.Temperatures.length)
    (hM : SquareMatrix t) (hlen : tour0.length = t.Size) (hlt : ∀ x ∈ tour0, x < t.Size)
    (hs : ∃ x, s = withTour t k x ∧ x.Perm tour0) (hj : j < t.Size) :
    ∃ s', saStep expF s k i j p = some s' ∧ ∃ x, s' = withTour t k x ∧ x.Perm tour0 := by
  obtain ⟨tour, rfl, hp⟩ := id hs
  have hlen' : tour.length = t.Size := by rw [hp.length_eq, hlen]
  have hlt' : ∀ x ∈ tour, x < t.Size := fun x hx => hlt x (hp.mem_iff.mp hx)
  have hpos : 0 < t.Size := by omega
  obtain ⟨c1, e1⟩ := getCost_isSome t tour i (i + 1) hM hlen' hlt' hpos
  obtain ⟨c2, e2⟩ := getCost_isSome t tour j (j + 1) hM hlen' hlt' hpos
  obtain ⟨n1, e3⟩ := getCost_isSome t tour i j hM hlen' hlt' hpos
  obtain ⟨n2, e4⟩ := getCost_isSome t tour (i + 1) (j + 1) hM hlen' hlt' hpos
  have hT2 : (withTour t k tour).Temperatures[k]? = some (t.Temperatures[k]) :=
    List.getElem?_eq_getElem hT
  simp only [saStep, Option.bind_eq_bind, withTour_tours_getElem? t k tour hk,
    Option.some_bind, getCost_withTour, e1, e2, e3, e4, hT2]
  split
  · exact flipLoop_total_perm t _ k i j tour0 hk hs (by omega)
  · exact ⟨_, rfl, hs⟩

theorem saPass_total_perm (expF : α → α) (t : TPSA α) (k : Nat) (draws : Nat → α)
    (s : TPSA α × Nat) (tour0 : List Nat) (hk : k < t.Tours.length)
    (hT : k < t.Temperatures.length) (hM : SquareMatrix t) (hlen : tour0.length = t.Size)
    (hlt : ∀ x ∈ tour0, x < t.Size) (hs : ∃ x, s.1 = withTour t k x ∧ x.Perm tour0) :
    ∃ s', saPass expF k t.Size draws s = some s' ∧
      ∃ x, s'.1 = withTour t k x ∧ x.Perm tour0 := by
  refine forLoop_total (fun _ (u : TPSA α × Nat) => ∃ x, u.1 = withTour t k x ∧ x.Perm tour0)
    _ (t.Size - 2) 0 s hs ?_
  intro i u _ hi hu
  refine forLoop_total
    (fun _ (v : TPSA α × Nat) => ∃ x, v.1 = withTour t k x ∧ x.Perm tour0)
    _ (t.Size - (i + 2)) (i + 2) u hu ?_
  intro j v _ hj hv
  obtain ⟨w, hw, hw2⟩ :=
    saStep_total_perm expF t v.1 k i j (draws v.2) tour0 hk hT hM hlen hlt hv (by omega)
  exact ⟨(w, v.2 + 1), by simp [hw], hw2⟩

/-- In a state with a square matrix, `sa(k)` returns when slot `k` has a temperature and
a tour of `Size` entries below `Size`: the result is the state with the tour of slot `k`
rearranged. -/
theorem sa_total_perm (expF : α → α) (t : TPSA α) (k : Nat) (draws : Nat → α)
    (tour0 : List Nat) (h : t.Tours[k]? = some tour0) (hT : k < t.Temperatures.length)
    (hM : SquareMatrix t) (hlen : tour0.length = t.Size) (hlt : ∀ x ∈ tour0, x < t.Size) :
    ∃ x, sa expF t k draws = some (withTour t k x) ∧ x.Perm tour0 := by
  have hk : k < t.Tours.length := (List.getElem?_eq_some_iff.mp h).1
  obtain ⟨s', hs', x, hx, hp⟩ :=
    forLoop_total (fun _ (u : TPSA α × Nat) => ∃ x, u.1 = withTour t k x ∧ x.Perm tour0)
      (fun _ s => saPass expF k t.Size draws s) t.Period.toNat 0 (t, 0)
      ⟨tour0, (withTour_self t k tour0 h).symm, List.Perm.refl _⟩
      (fun _ u _ _ hu => saPass_total_perm expF t k draws u tour0 hk hT hM hlen hlt hu)
  exact ⟨x, by simp [sa, hs', hx], hp⟩

end SaTotal
end Tpsa

namespace Tpsa

/-! ## Two runs side by side -/

theorem optRel_bind {σ τ γ : Type} (R : σ → τ → Prop) (x : Option γ) (f : γ → Option σ)
    (g : γ → Option τ) (h : ∀ a, OptRel R (f a) (g a)) :
    OptRel R (x.bind f) (x.bind g) := by
  cases x with
  | none => exact Or.inl ⟨rfl, rfl⟩
  | some a => exact h a

theorem optRel_map {σ τ σ' τ' : Type} (R : σ → τ → Prop) (R' : σ' → τ' → Prop)
    (x : Option σ) (y : Option τ) (f : σ → σ') (g : τ → τ')
    (hfg : ∀ a b, R a b → R' (f a) (g b)) (h : OptRel R x y) :
    OptRel R' (x.map f) (y.map g) := by
  rcases h with ⟨rfl, rfl⟩ | ⟨a, b, rfl, rfl, hab⟩
  · exact Or.inl ⟨rfl, rfl⟩
  · exact Or.inr ⟨f a, g b, rfl, rfl, hfg a b hab⟩

/-- Two loops whose bodies keep two states related stay related: both panic or both
return related states. -/
theorem forLoop_rel {σ τ : Type} (R : σ → τ → Prop) (b1 : Nat → σ → Option σ)
    (b2 : Nat → τ → Option τ) (hstep : ∀ i u v, R u v → OptRel R (b1 i u) (b2 i v)) :
    ∀ (r i : Nat) (u : σ) (v : τ), R u v →
      OptRel R (forLoop b1 r i u) (forLoop b2 r i v) := by
  intro r
  induction r with
  | zero => intro i u v h; exact Or.inr ⟨u, v, rfl, rfl, h⟩
  | succ r ih =>
    intro i u v h
    rcases hstep i u v h with ⟨h1, h2⟩ | ⟨a, b, h1, h2, hab⟩
    · exact Or.inl ⟨by simp [forLoop, h1], by simp [forLoop, h2]⟩
    · have := ih (i + 1) a b hab
      simpa [forLoop, h1, h2] using this

section SaCongr
variable {α : Type} [LinearOrderedField α]

theorem withTour_of_length_le (t : TPSA α) (k : Nat) (x : List Nat)
    (h : t.Tours.length ≤ k) : withTour t k x = t := by
  cases t
  simp only [withTour, TPSA.mk.injEq, true_and, and_true]
  exact List.set_eq_of_length_le h

theorem withTour_comm (t : TPSA α) (k m : Nat) (x y : List Nat) (h : k ≠ m) :
    withTour (withTour t k x) m y = withTour (withTour t m y) k x := by
  simp only [withTour]
  rw [List.set_comm _ _ _ h]

theorem tours_length_iff (t1 t2 : TPSA α) (k : Nat) (h : t1.Tours[k]? = t2.Tours[k]?) :
    k < t1.Tours.length ↔ k < t2.Tours.length := by
  constructor
  · intro hk
    by_contra hn
    rw [List.getElem?_eq_getElem hk, List.getElem?_eq_none (Nat.le_of_not_lt hn)] at h
    cases h
  · intro hk
    by_contra hn
    rw [List.getElem?_eq_getElem hk, List.getElem?_eq_none (Nat.le_of_not_lt hn)] at h
    cases h

theorem withTour_tours_congr (t1 t2 : TPSA α) (k : Nat) (x : List Nat)
    (h : t1.Tours[k]? = t2.Tours[k]?) :
    (withTour t2 k x).Tours[k]? = (withTour t1 k x).Tours[k]? := by
  have hiff := tours_length_iff t1 t2 k h
  simp only [withTour, List.getElem?_set, if_true]
  by_cases hk : k < t1.Tours.length
  · rw [if_pos hk, if_pos (hiff.mp hk)]
  · rw [if_neg hk, if_neg (fun h2 => hk (hiff.mpr h2))]

theorem getCost_congr (t1 t2 : TPSA α) (hM : t1.Matrix = t2.Matrix) (hS : t1.Size = t2.Size)
    (tour : List Nat) (n m : Nat) : getCost t2 tour n m = getCost t1 tour n m := by
  simp only [getCost, hM, hS]

/-- Two states that agree on the tour of slot `k` are changed by `flip` on that slot in
the same way. -/
theorem flip_rel (t1 t2 : TPSA α) (k a b : Nat) (hU : t1.Tours[k]? = t2.Tours[k]?)
    (u v : TPSA α) (h : ∃ x, u = withTour t1 k x ∧ v = withTour t2 k x) :
    OptRel (fun u v => ∃ x, u = withTour t1 k x ∧ v = withTour t2 k x)
      (flip u k a b) (flip v k a b) := by
  obtain ⟨x, rfl, rfl⟩ := h
  simp only [flip, Option.bind_eq_bind, withTour_tours_congr t1 t2 k x hU]
  refine optRel_bind _ _ _ _ (fun tour => ?_)
  refine optRel_bind _ _ _ _ (fun c => ?_)
  refine optRel_bind _ _ _ _ (fun d => ?_)
  refine Or.inr ⟨_, _, rfl, rfl, (tour.set a d).set b c, ?_, ?_⟩
  · exact withTour_withTour t1 k x _
  · exact withTour_withTour t2 k x _

/-- Two states that agree on the tour and the temperature of slot `k`, the matrix and
`Size` are changed by a step of `sa(k)` in the same way. -/
theorem saStep_rel (expF : α → α) (t1 t2 : TPSA α) (k i j : Nat) (p : α)
    (hU : t1.Tours[k]? = t2.Tours[k]?) (hT : t1.Temperatures[k]? = t2.Temperatures[k]?)
    (hM : t1.Matrix = t2.Matrix) (hS : t1.Size = t2.Size)
    (u v : TPSA α) (h : ∃ x, u = withTour t1 k x ∧ v = withTour t2 k x) :
    OptRel (fun u v => ∃ x, u = withTour t1 k x ∧ v = withTour t2 k x)
      (saStep expF u k i j p) (saStep expF v k i j p) := by
  obtain ⟨x, rfl, rfl⟩ := id h
  have hg : ∀ tour n m, getCost (withTour t2 k x) tour n m
      = getCost (withTour t1 k x) tour n m :=
    fun tour n m => getCost_congr (withTour t1 k x) (withTour t2 k x) hM hS tour n m
  have hT' : (withTour t2 k x).Temperatures[k]? = (withTour t1 k x).Temperatures[k]? :=
    hT.symm
  simp only [saStep, Option.bind_eq_bind, withTour_tours_congr t1 t2 k x hU, hg, hT']
  refine optRel_bind _ _ _ _ (fun tour => ?_)
  refine optRel_bind _ _ _ _ (fun c1 => ?_)
  refine optRel_bind _ _ _ _ (fun c2 => ?_)
  refine optRel_bind _ _ _ _ (fun n1 => ?_)
  refine optRel_bind _ _ _ _ (fun n2 => ?_)
  refine optRel_bind _ _ _ _ (fun temp => ?_)
  split
  · exact forLoop_rel _ (fun m s => flip s k (i + 1 + m) (j - m))
      (fun m s => flip s k (i + 1 + m) (j - m))
      (fun m a b hab => flip_rel t1 t2 k (i + 1 + m) (j - m) hU a b hab) _ 0 _ _ h
  · exact Or.inr ⟨_, _, rfl, rfl, h⟩

/-- The result of `sa(k)` is a function of the tour and the temperature of slot `k`,
the matrix, `Size`, `Period` and the draws: on two states that agree on these, both
runs panic or both return their state with the same new tour in slot `k`. -/
theorem sa_rel (expF : α → α) (t1 t2 : TPSA α) (k : Nat) (draws : Nat → α)
    (hU : t1.Tours[k]? = t2.Tours[k]?) (hT : t1.Temperatures[k]? = t2.Temperatures[k]?)
    (hM : t1.Matrix = t2.Matrix) (hS : t1.Size = t2.Size) (hP : t1.Period = t2.Period) :
    OptRel (fun u v => ∃ x, u = withTour t1 k x ∧ v = withTour t2 k x)
      (sa expF t1 k draws) (sa expF t2 k draws) := by
  have h0 : ∃ x, t1 = withTour t1 k x ∧ t2 = withTour t2 k x := by
    by_cases hk : k < t1.Tours.length
    · have hk2 := (tours_length_iff t1 t2 k hU).mp hk
      refine ⟨t1.Tours[k], (withTour_self t1 k _ (List.getElem?_eq_getElem hk)).symm,
        (withTour_self t2 k _ ?_).symm⟩
      rw [← hU, List.getElem?_eq_getElem hk]
    · have hk2 : ¬ k < t2.Tours.length := fun h => hk ((tours_length_iff t1 t2 k hU).mpr h)
      exact ⟨[], (withTour_of_length_le t1 k [] (Nat.le_of_not_lt hk)).symm,
        (withTour_of_length_le t2 k [] (Nat.le_of_not_lt hk2)).symm⟩
  unfold sa
  rw [← hS, ← hP]
  refine optRel_map
    (fun (a b : TPSA α × Nat) => a.2 = b.2 ∧ ∃ x, a.1 = withTour t1 k x ∧ b.1 = withTour t2 k x)
    _ _ _ _ _ (fun a b hab => hab.2) ?_
  refine forLoop_rel _ _ _ ?_ _ 0 _ _ ⟨rfl, h0⟩
  intro _ a b hab
  unfold saPass
  refine forLoop_rel _ _ _ ?_ _ 0 _ _ hab
  intro i a b hab
  refine forLoop_rel _ _ _ ?_ _ _ _ _ hab
  intro j a b hab
  rw [← hab.1]
  exact optRel_map _ _ _ _ _ _ (fun c d hcd => ⟨rfl, hcd⟩)
    (saStep_rel expF t1 t2 k i j _ hU hT hM hS a.1 b.1 hab.2)

end SaCongr
end Tpsa

namespace Tpsa
section C13
variable {α : Type} [LinearOrderedField α]

theorem withTour_tours_ne (t : TPSA α) (k m : Nat) (x : List Nat) (h : m ≠ k) :
    (withTour t k x).Tours[m]? = t.Tours[m]? := by
  simp only [withTour]
  exact List.getElem?_set_ne (fun e => h e.symm)

/-- C13. Whenever `sa(k)` returns it has changed nothing but `Tours[k]`: the other
tours, `Temperatures`, `Matrix`, `Size` and the configuration are as before. The new
`Tours[k]` depends only on the prior `Tours[k]`, `Temperatures[k]`, `Matrix`, `Size`,
`Period` and the draws: on a second state that agrees on these, `sa(k)` panics if and
only if it panics on the first, and otherwise puts the same tour in slot `k`.
Consequently for `k != m` running `sa(k)` then `sa(m)` gives the same result as running
`sa(m)` then `sa(k)`. -/
theorem sa_frame_and_commute (expF : α → α) (t : TPSA α) (k : Nat) (draws : Nat → α) :
    (∀ t', sa expF t k draws = some t' →
      (∃ x, t' = withTour t k x) ∧ t'.Temperatures = t.Temperatures ∧
        t'.Matrix = t.Matrix ∧ t'.Size = t.Size ∧ t'.toTPSAConfig = t.toTPSAConfig ∧
        ∀ m, m ≠ k → t'.Tours[m]? = t.Tours[m]?) ∧
    (∀ t2 : TPSA α, t.Tours[k]? = t2.Tours[k]? →
      t.Temperatures[k]? = t2.Temperatures[k]? → t.Matrix = t2.Matrix →
      t.Size = t2.Size → t.Period = t2.Period →
      (sa expF t k draws = none ∧ sa expF t2 k draws = none) ∨
        ∃ x, sa expF t k draws = some (withTour t k x) ∧
          sa expF t2 k draws = some (withTour t2 k x) ∧
          (withTour t2 k x).Tours[k]? = (withTour t k x).Tours[k]?) ∧
    (∀ (m : Nat) (draws' : Nat → α), k ≠ m →
      (sa expF t k draws).bind (fun u => sa expF u m draws') =
        (sa expF t m draws').bind (fun u => sa expF u k draws)) := by
  refine ⟨?_, ?_, ?_⟩
  · intro t' ht'
    rcases sa_rel expF t t k draws rfl rfl rfl rfl rfl with ⟨h1, _⟩ | ⟨a, _, h1, _, x, hx, _⟩
    · rw [h1] at ht'; cases ht'
    · rw [h1] at ht'
      cases ht'
      subst hx
      exact ⟨⟨x, rfl⟩, rfl, rfl, rfl, rfl, fun m hm => withTour_tours_ne t k m x hm⟩
  · intro t2 hU hT hM hS hP
    rcases sa_rel expF t t2 k draws hU hT hM hS hP with
      ⟨h1, h2⟩ | ⟨a, b, h1, h2, x, hx, hy⟩
    · exact Or.inl ⟨h1, h2⟩
    · subst hx; subst hy
      exact Or.inr ⟨x, h1, h2, withTour_tours_congr t t2 k x hU⟩
  · intro m draws' hkm
    have hmk : m ≠ k := fun e => hkm e.symm
    rcases sa_rel expF t t k draws rfl rfl rfl rfl rfl with
      ⟨h1, _⟩ | ⟨_, _, h1, _, x, hx, _⟩
    · rw [h1]
      rcases sa_rel expF t t m draws' rfl rfl rfl rfl rfl with
        ⟨g1, _⟩ | ⟨_, _, g1, _, y, hy, _⟩
      · rw [g1]; simp only [Option.none_bind]
      · subst hy
        rw [g1]
        rcases sa_rel expF t (withTour t m y) k draws (withTour_tours_ne t m k y hkm).symm
            rfl rfl rfl rfl with ⟨_, f2⟩ | ⟨_, _, f1, _, _⟩
        · simp [f2]
        · rw [h1] at f1; cases f1
    · subst hx
      rw [h1]
      rcases sa_rel expF t (withTour t k x) m draws' (withTour_tours_ne t k m x hmk).symm
          rfl rfl rfl rfl with ⟨g1, g2⟩ | ⟨_, _, g1, g2, y, hy, hy2⟩
      · simp [g1, g2]
      · subst hy; subst hy2
        rw [g1]
        rcases sa_rel expF t (withTour t m y) k draws (withTour_tours_ne t m k y hkm).symm
            rfl rfl rfl rfl with ⟨f1, _⟩ | ⟨_, _, f1, f2, x', hx', hx2⟩
        · rw [h1] at f1; cases f1
        · subst hx'; subst hx2
          rw [h1] at f1
          have e : withTour t k x = withTour t k x' := Option.some.inj f1
          simp only [Option.some_bind, g2, f2]
          rw [withTour_comm t m k y x' hmk, ← e]

/-- C13 on the four-city state: the workers of slots 0 and 1 commute. -/
theorem sa_frame_and_commute_witness :
    (sa demoExp demoState 0 (fun _ => 1 / 2)).bind (fun u => sa demoExp u 1 (fun _ => 1 / 3)) =
      (sa demoExp demoState 1 (fun _ => 1 / 3)).bind
        (fun u => sa demoExp u 0 (fun _ => 1 / 2)) :=
  (sa_frame_and_commute demoExp demoState 0 (fun _ => 1 / 2)).2.2 1 (fun _ => 1 / 3)
    (by decide)

end C13
end Tpsa

namespace Tpsa
section C14
variable {α : Type} [LinearOrderedField α]

/-- C14. For `Thread >= 1`, every `Size` and every outcome of the shuffle,
`makeInitialData` returns a state with exactly `Thread` tours; every tour has length
`Size`, is a permutation of `0..Size-1` and is equal to `Tours[0]`. -/
theorem makeInitialData_tours (t : TPSA α) (rnd : Nat → Nat) (hT : 1 ≤ t.Thread) :
    ∃ t' tour0, makeInitialData t rnd = some t' ∧
      (t'.Tours.length : Int) = t.Thread ∧ t'.Size = t.Size ∧
      t'.Tours[0]? = some tour0 ∧
      ∀ i : Nat, (i : Int) < t.Thread →
        t'.Tours[i]? = some tour0 ∧ tour0.length = t.Size ∧
          tour0.Perm (List.range t.Size) := by
  obtain ⟨temps, tour, e, _, _, hp⟩ := makeInitialData_spec t rnd (by omega)
  have hlen : tour.length = t.Size := by rw [hp.length_eq, List.length_range]
  refine ⟨_, tour, e, ?_, rfl, ?_, ?_⟩
  · show ((List.replicate t.Thread.toNat tour).length : Int) = t.Thread
    rw [List.length_replicate]; omega
  · show (List.replicate t.Thread.toNat tour)[0]? = some tour
    rw [List.getElem?_replicate, if_pos (by omega)]
  · intro i hi
    refine ⟨?_, hlen, hp⟩
    show (List.replicate t.Thread.toNat tour)[i]? = some tour
    rw [List.getElem?_replicate, if_pos (by omega)]

/-- C14 on the four-city configuration with two slots: both slots hold the same
permutation of `0..3`. -/
theorem makeInitialData_tours_witness :
    ∃ t' tour0, makeInitialData demoState (fun m => m) = some t' ∧
      t'.Tours[0]? = some tour0 ∧ t'.Tours[1]? = some tour0 ∧
      tour0.Perm (List.range 4) := by
  obtain ⟨t', tour0, h1, _, _, h4, h5⟩ :=
    makeInitialData_tours demoState (fun m => m) (by decide)
  exact ⟨t', tour0, h1, h4, (h5 1 (by decide)).1, (h5 1 (by decide)).2.2⟩

end C14
end Tpsa

namespace Tpsa
section WellFormedLemmas
variable {α : Type} [LinearOrderedField α]

/-- Replacing the tour of a slot by a rearrangement of it keeps the state well formed. -/
theorem wellFormed_withTour (t : TPSA α) (k : Nat) (x tour0 : List Nat)
    (h : WellFormed t) (h0 : t.Tours[k]? = some tour0) (hp : x.Perm tour0) :
    WellFormed (withTour t k x) := by
  obtain ⟨hM, h3, h4, h5⟩ := h
  have hmem : tour0 ∈ t.Tours := List.mem_iff_getElem?.mpr ⟨k, h0⟩
  refine ⟨hM, ?_, h4, ?_⟩
  · show ((t.Tours.set k x).length : Int) = t.Thread
    rw [List.length_set]; exact h3
  · intro tour htour
    have htour' : tour ∈ t.Tours.set k x := htour
    rcases List.mem_or_eq_of_mem_set htour' with hin | rfl
    · exact h5 tour hin
    · exact ⟨by rw [hp.length_eq]; exact (h5 tour0 hmem).1,
        fun y hy => (h5 tour0 hmem).2 y (hp.mem_iff.mp hy)⟩

/-- In a well-formed state `sa(k)` returns for every slot `k < Thread`: the result is
the state with the tour of slot `k` rearranged, and it is well formed. -/
theorem sa_total_wf (expF : α → α) (t : TPSA α) (k : Nat) (draws : Nat → α)
    (h : WellFormed t) (hk : (k : Int) < t.Thread) :
    ∃ x tour0, t.Tours[k]? = some tour0 ∧ sa expF t k draws = some (withTour t k x) ∧
      x.Perm tour0 ∧ WellFormed (withTour t k x) := by
  obtain ⟨hM, h3, h4, h5⟩ := id h
  have hkU : k < t.Tours.length := by omega
  have hkT : k < t.Temperatures.length := by omega
  have h0 : t.Tours[k]? = some t.Tours[k] := List.getElem?_eq_getElem hkU
  obtain ⟨x, hx, hp⟩ := sa_total_perm expF t k draws t.Tours[k] h0 hkT hM
    (h5 _ (List.getElem_mem _)).1 (h5 _ (List.getElem_mem _)).2
  exact ⟨x, _, h0, hx, hp, wellFormed_withTour t k x _ h h0 hp⟩

/-- In a well-formed state `exchangeSolutions` returns; the result is well formed, has
the same ladder, matrix, `Size` and configuration, and its tours are the former ones in
some order. -/
theorem exchangeSolutions_total_frame (expF : α → α) (draws : Nat → α) (count : Int)
    (s : TPSA α × Nat) (hwf : WellFormed s.1) :
    ∃ s', exchangeSolutions expF draws count s = some s' ∧ WellFormed s'.1 ∧
      s'.1.Temperatures = s.1.Temperatures ∧ s'.1.Tours.Perm s.1.Tours ∧
      s'.1.Matrix = s.1.Matrix ∧ s'.1.Size = s.1.Size ∧
      s'.1.toTPSAConfig = s.1.toTPSAConfig := by
  have key : ∀ i0 : Nat, ∃ s', stepLoop (fun i u =>
      (exchangeSolution expF u.1 i (i + 1) (draws u.2)).map (fun t => (t, u.2 + 1)))
      (wrapInt (s.1.Thread - 1)) i0 s = some s' ∧ WellFormed s'.1 ∧
      s'.1.Temperatures = s.1.Temperatures ∧ s'.1.Tours.Perm s.1.Tours ∧
      s'.1.Matrix = s.1.Matrix ∧ s'.1.Size = s.1.Size ∧
      s'.1.toTPSAConfig = s.1.toTPSAConfig := by
    intro i0
    refine stepLoop_total
      (fun u => WellFormed u.1 ∧ u.1.Temperatures = s.1.Temperatures ∧
        u.1.Tours.Perm s.1.Tours ∧ u.1.Matrix = s.1.Matrix ∧ u.1.Size = s.1.Size ∧
        u.1.toTPSAConfig = s.1.toTPSAConfig)
      (fun i u =>
        (exchangeSolution expF u.1 i (i + 1) (draws u.2)).map (fun t => (t, u.2 + 1)))
      (wrapInt (s.1.Thread - 1)) _ i0 s (Nat.le_refl _)
      ⟨hwf, rfl, List.Perm.refl _, rfl, rfl, rfl⟩ ?_
    intro j u hj hu
    have hj := lt_of_lt_of_le hj
      (wrapInt_sub_one_le s.1.Thread (by rw [← hwf.2.1]; exact Int.ofNat_nonneg _))
    obtain ⟨hu1, hu2, hu3, hu4, hu5, hu6⟩ := hu
    have hth : u.1.Thread = s.1.Thread := by
      show u.1.toTPSAConfig.Thread = s.1.toTPSAConfig.Thread
      rw [hu6]
    obtain ⟨w, hw⟩ := exchangeSolution_total expF u.1 j (j + 1) (draws u.2) hu1
      (by rw [hth]; omega) (by rw [hth]; push_cast; omega)
    have hf := exchangeSolution_frame expF u.1 w j (j + 1) _ hw
    exact ⟨(w, u.2 + 1), by simp [hw], wellFormed_of_frame u.1 w hu1 hf,
      hf.1.trans hu2, hf.2.1.trans hu3, hf.2.2.1.trans hu4, hf.2.2.2.1.trans hu5,
      hf.2.2.2.2.trans hu6⟩
  unfold exchangeSolutions exchangeSchedule
  split
  · exact key 0
  · exact key 1

end WellFormedLemmas
end Tpsa

namespace Tpsa
section C17
variable {α : Type} [LinearOrderedField α]

/-- C17. In a well-formed state (the matrix is `Size x Size`, there are `Thread` tours and
`Thread` temperatures, every tour has `Size` entries below `Size`) `sa(k)` returns for
every `k < Thread` and `exchangeSolutions(count)` returns for every `count`, whatever
the draws, and the state they return is well formed again; every cost lookup
`getCost(tour, n, m)` on a tour of the state returns when `Size` is not `0`. An access
out of range or a modulo by zero is the result `none`, so none of them happens. -/
theorem sa_exchange_total (expF : α → α) (t : TPSA α) (hwf : WellFormed t) :
    (∀ (k : Nat) (draws : Nat → α), (k : Int) < t.Thread →
      ∃ t', sa expF t k draws = some t' ∧ WellFormed t') ∧
    (∀ (count : Int) (draws : Nat → α) (d : Nat),
      ∃ s', exchangeSolutions expF draws count (t, d) = some s' ∧ WellFormed s'.1) ∧
    (∀ tour ∈ t.Tours, ∀ n m : Nat, 0 < t.Size → ∃ c, getCost t tour n m = some c) := by
  refine ⟨?_, ?_, ?_⟩
  · intro k draws hk
    obtain ⟨x, _, _, hx, _, hw⟩ := sa_total_wf expF t k draws hwf hk
    exact ⟨_, hx, hw⟩
  · intro count draws d
    obtain ⟨s', hs', hw, _⟩ := exchangeSolutions_total_frame expF draws count (t, d) hwf
    exact ⟨s', hs', hw⟩
  · intro tour htour n m hpos
    exact getCost_isSome t tour n m hwf.1 (hwf.2.2.2 tour htour).1
      (hwf.2.2.2 tour htour).2 hpos

/-- C17 on the four-city state: the worker of slot 1 and the exchange of iteration 3
return. -/
theorem sa_exchange_total_witness :
    (∃ t', sa demoExp demoState 1 (fun _ => 1 / 2) = some t') ∧
      ∃ s', exchangeSolutions demoExp (fun _ => 1 / 2) 3 (demoState, 0) = some s' := by
  have h := sa_exchange_total demoExp demoState (by unfold WellFormed SquareMatrix; decide)
  obtain ⟨t', ht', _⟩ := h.1 1 (fun _ => 1 / 2) (by decide)
  obtain ⟨s', hs', _⟩ := h.2.1 3 (fun _ => 1 / 2) 0
  exact ⟨⟨t', ht'⟩, ⟨s', hs'⟩⟩

end C17
end Tpsa

namespace Tpsa
section SolveLemmas
variable {α : Type} [LinearOrderedField α]

theorem solveInv_refl (t : TPSA α) (h : WellFormed t) : SolveInv t t :=
  ⟨h, rfl, rfl, rfl, rfl, fun tour htour => ⟨tour, htour, List.Perm.refl _⟩⟩

theorem solveInv_thread (t u : TPSA α) (h : SolveInv t u) : u.Thread = t.Thread := by
  show u.toTPSAConfig.Thread = t.toTPSAConfig.Thread
  rw [h.2.2.2.2.1]

/-- A worker keeps the invariant of the loop of `Solve`. -/
theorem solveInv_sa (expF : α → α) (t u : TPSA α) (k : Nat) (draws : Nat → α)
    (h : SolveInv t u) (hk : (k : Int) < u.Thread) :
    ∃ u', sa expF u k draws = some u' ∧ SolveInv t u' := by
  obtain ⟨hwf, hT, hM, hS, hC, hP⟩ := h
  obtain ⟨x, tour0, h0, hx, hp, hw⟩ := sa_total_wf expF u k draws hwf hk
  refine ⟨_, hx, hw, hT, hM, hS, hC, ?_⟩
  intro tour' htour'
  have htour2 : tour' ∈ u.Tours.set k x := htour'
  rcases List.mem_or_eq_of_mem_set htour2 with hin | rfl
  · exact hP tour' hin
  · obtain ⟨t0, ht0, hq⟩ := hP tour0 (List.mem_iff_getElem?.mpr ⟨k, h0⟩)
    exact ⟨t0, ht0, hp.trans hq⟩

/-- The parallel phase keeps the invariant of the loop of `Solve`. -/
theorem solveInv_saAll (expF : α → α) (t u : TPSA α) (workerDraws : Nat → Nat → α)
    (h : SolveInv t u) : ∃ u', saAll expF workerDraws u = some u' ∧ SolveInv t u' := by
  obtain ⟨u', h1, h2⟩ := forLoop_total (fun _ v => SolveInv t v)
    (fun i v => sa expF v i (workerDraws i)) u.Thread.toNat 0 u h
    (by
      intro i v _ hi hv
      have e1 := solveInv_thread t v hv
      have e2 := solveInv_thread t u h
      exact solveInv_sa expF t v i (workerDraws i) hv (by omega))
  exact ⟨u', h1, h2⟩

/-- The exchange phase keeps the invariant of the loop of `Solve`. -/
theorem solveInv_exchange (expF : α → α) (t : TPSA α) (draws : Nat → α) (count : Int)
    (s : TPSA α × Nat) (h : SolveInv t s.1) :
    ∃ s', exchangeSolutions expF draws count s = some s' ∧ SolveInv t s'.1 := by
  obtain ⟨hwf, hT, hM, hS, hC, hP⟩ := h
  obtain ⟨s', hs', g1, g2, g3, g4, g5, g6⟩ :=
    exchangeSolutions_total_frame expF draws count s hwf
  exact ⟨s', hs', g1, g2.trans hT, g4.trans hM, g5.trans hS, g6.trans hC,
    fun tour' htour' => hP tour' (g3.mem_iff.mp htour')⟩

/-- From a well-formed state the loop of `Solve` returns, and the state it returns
satisfies the invariant. -/
theorem solveLoop_total (expF : α → α) (workerDraws : Nat → Nat → Nat → α)
    (draws : Nat → α) (s : TPSA α × Nat) (h : WellFormed s.1) :
    ∃ s', solveLoop expF workerDraws draws s = some s' ∧ SolveInv s.1 s'.1 := by
  obtain ⟨s', h1, h2⟩ := forLoop_total (fun _ (u : TPSA α × Nat) => SolveInv s.1 u.1)
    (fun iteration u => do
      let t' ← saAll expF (workerDraws iteration) u.1
      exchangeSolutions expF draws (iteration : Int) (t', u.2))
    s.1.MaxIteration.toNat 0 s (solveInv_refl s.1 h)
    (by
      intro it u _ _ hu
      obtain ⟨u1, e1, i1⟩ := solveInv_saAll expF s.1 u.1 (workerDraws it) hu
      obtain ⟨u2, e2, i2⟩ := solveInv_exchange expF s.1 draws (it : Int) (u1, u.2) i1
      exact ⟨u2, by simp only [Option.bind_eq_bind, e1, Option.some_bind, e2], i2⟩)
  exact ⟨s', h1, h2⟩

/-- With three cities and a symmetric matrix every permutation of `0, 1, 2` has the
same cost as a closed walk. -/
theorem getTotalCost_three (t : TPSA α) (tour : List Nat) (hM : SquareMatrix t)
    (h3 : t.Size = 3)
    (hsym : ∀ a b, a < t.Size → b < t.Size → cost t a b = cost t b a)
    (hp : tour.Perm (List.range t.Size)) :
    getTotalCost t tour = some (cost t 0 1 + cost t 1 2 + cost t 2 0) := by
  have hlen := isTour_length hp
  have hlt : ∀ x ∈ tour, x < t.Size := fun x hx => isTour_lt_of_mem hp hx
  rw [getTotalCost_eq_cycleCost t tour hM hlen hlt]
  have s01 : cost t 1 0 = cost t 0 1 := hsym 1 0 (by omega) (by omega)
  have s12 : cost t 2 1 = cost t 1 2 := hsym 2 1 (by omega) (by omega)
  have s02 : cost t 0 2 = cost t 2 0 := hsym 0 2 (by omega) (by omega)
  have hnd : tour.Nodup := hp.nodup_iff.mpr (List.nodup_range _)
  rw [h3] at hlen hlt
  match tour, hlen, hlt, hnd with
  | [a, b, c], _, hlt, hnd =>
    have ha : a < 3 := hlt a (by simp)
    have hb : b < 3 := hlt b (by simp)
    have hc : c < 3 := hlt c (by simp)
    congr 1
    interval_cases a <;> interval_cases b <;> interval_cases c <;>
      first
      | (exfalso; revert hnd; decide)
      | (simp only [cycleCost, pathCost, List.take, List.cons_append, List.nil_append]
         linarith)

end SolveLemmas
end Tpsa

namespace Tpsa
section C12
variable {α : Type} [LinearOrderedField α]

/-- C12. With `Size = 3`, a symmetric `3 x 3` matrix and a well-formed state whose tours
are permutations of `0, 1, 2` (any `Thread`, `Period`, `MaxIteration`, any ladder and any
draws), the loop of `Solve` returns, the returned state still has `Thread` tours, and
`getTotalCost` of every tour of the returned state is `getTotalCost` of every tour of
the initial state; so is the value that `printSolution` reads from the last slot when
`Thread >= 1`. -/
theorem solveLoop_three_cities (expF : α → α) (workerDraws : Nat → Nat → Nat → α)
    (draws : Nat → α) (t : TPSA α) (d : Nat) (hwf : WellFormed t) (h3 : t.Size = 3)
    (hsym : ∀ a b, a < t.Size → b < t.Size → cost t a b = cost t b a)
    (hperm : ∀ tour ∈ t.Tours, tour.Perm (List.range t.Size)) :
    ∃ s' v, solveLoop expF workerDraws draws (t, d) = some s' ∧
      (s'.1.Tours.length : Int) = t.Thread ∧
      (∀ tour ∈ t.Tours, getTotalCost t tour = some v) ∧
      (∀ tour' ∈ s'.1.Tours, getTotalCost s'.1 tour' = some v) ∧
      (1 ≤ t.Thread → printSolution s'.1 = some v) := by
  obtain ⟨s', hs', hwf', hT, hM, hS, hC, hP⟩ := solveLoop_total expF workerDraws draws (t, d) hwf
  have hM' : SquareMatrix s'.1 := hwf'.1
  have hS3 : s'.1.Size = 3 := hS.trans h3
  have hcost : ∀ a b, cost s'.1 a b = cost t a b := by
    intro a b
    show (s'.1.Matrix.getD a []).getD b 0 = (t.Matrix.getD a []).getD b 0
    rw [hM]
  have hsym' : ∀ a b, a < s'.1.Size → b < s'.1.Size → cost s'.1 a b = cost s'.1 b a := by
    intro a b ha hb
    rw [hcost, hcost]
    exact hsym a b (by rw [← hS]; exact ha) (by rw [← hS]; exact hb)
  have hth : s'.1.Thread = t.Thread := by
    show s'.1.toTPSAConfig.Thread = t.toTPSAConfig.Thread
    rw [hC]
  have hfinal : ∀ tour' ∈ s'.1.Tours,
      getTotalCost s'.1 tour' = some (cost t 0 1 + cost t 1 2 + cost t 2 0) := by
    intro tour' htour'
    obtain ⟨tour0, h0, hp⟩ := hP tour' htour'
    have := getTotalCost_three s'.1 tour' hM' hS3 hsym'
      (by rw [hS]; exact hp.trans (hperm tour0 h0))
    rw [this, hcost, hcost, hcost]
  refine ⟨s', cost t 0 1 + cost t 1 2 + cost t 2 0, hs', ?_, ?_, hfinal, ?_⟩
  · rw [hwf'.2.1, hth]
  · intro tour htour
    exact getTotalCost_three t tour hwf.1 h3 hsym (hperm tour htour)
  · intro h1
    have hlen : (s'.1.Tours.length : Int) = s'.1.Thread := hwf'.2.1
    have hidx : (s'.1.Thread - 1).toNat < s'.1.Tours.length := by omega
    simp only [printSolution, if_pos (by omega : (0 : Int) ≤ s'.1.Thread - 1),
      Option.bind_eq_bind, List.getElem?_eq_getElem hidx, Option.some_bind]
    exact hfinal _ (List.getElem_mem _)

/-- C12 on the three-city state: the loop of `Solve` returns and the last slot still
costs `1 + 3 + 2`. -/
theorem solveLoop_three_cities_witness :
    ∃ s', solveLoop demoExp (fun _ _ _ => 1 / 2) (fun _ => 1 / 2) (triState, 0) = some s' ∧
      printSolution s'.1 = some 6 := by
  obtain ⟨s', v, h1, _, h3, _, h5⟩ := solveLoop_three_cities demoExp (fun _ _ _ => 1 / 2)
    (fun _ => 1 / 2) triState 0 (by unfold WellFormed SquareMatrix; decide) rfl
    (by
      intro a b ha hb
      have ha' : a < 3 := ha
      have hb' : b < 3 := hb
      interval_cases a <;> interval_cases b <;> rfl)
    (by decide)
  have e : getTotalCost triState [0, 1, 2] = some 6 := by
    simp [getTotalCost, forLoop, getCost, triState]; norm_num
  have hv := h3 [0, 1, 2] (by decide)
  rw [e] at hv
  cases hv
  exact ⟨s', h1, h5 (by decide)⟩

end C12
end Tpsa

namespace Tpsa

/-! ## The exponential -/

/-- The real exponential is at most `1` on arguments that are not positive. -/
theorem realExp_le_one (x : ℝ) (h : x ≤ 0) : Real.exp x ≤ 1 :=
  Real.exp_le_one_iff.mpr h

/-- The real exponential is at least `1` on arguments that are not negative. -/
theorem realExp_one_le (x : ℝ) (h : 0 ≤ x) : 1 ≤ Real.exp x :=
  Real.one_le_exp_iff.mpr h

theorem demoExp_le_one (x : ℚ) (h : x ≤ 0) : demoExp x ≤ 1 := by
  unfold demoExp
  split
  · rw [div_le_one (by linarith)]; linarith
  · have : x = 0 := le_antisymm h (not_lt.mp ‹_›)
    rw [this]; norm_num

theorem demoExp_one_le (x : ℚ) (h : 0 ≤ x) : 1 ≤ demoExp x := by
  unfold demoExp
  rw [if_neg (not_lt.mpr h)]
  linarith

end Tpsa


namespace Tpsa
section C19
variable {α : Type} [LinearOrderedField α]

/-- C19. For a temperature `T > 0`, an exponential that is at least `1` on arguments that
are not negative, any `current` and `next` and a draw `p` in `[0, 1)`: the value that
`exchange` returns is `exp(-(next - current) / T)`; the test of `sa`,
`next < current || p <= exchange(next - current, T)`, has the value of
`p <= exchange(next - current, T)` alone; every move with `next <= current` is
accepted; and a step of `sa` whose four costs are defined flips exactly when
`p <= exp(-(next - current) / T)`. -/
theorem sa_acceptance_test (expF : α → α) (hexp : ∀ x, 0 ≤ x → 1 ≤ expF x)
    (T current next p : α) (hT : 0 < T) (_hp0 : 0 ≤ p) (hp1 : p < 1) :
    exchange expF (FVal.fin (next - current)) (FVal.fin T)
        = FVal.fin (expF (-(next - current) / T)) ∧
    (decide (next < current) ||
        FVal.le (FVal.fin p) (exchange expF (FVal.fin (next - current)) (FVal.fin T)))
      = FVal.le (FVal.fin p) (exchange expF (FVal.fin (next - current)) (FVal.fin T)) ∧
    ((next < current ∨ p ≤ expF (-(next - current) / T)) ↔
      p ≤ expF (-(next - current) / T)) ∧
    (next ≤ current →
      FVal.le (FVal.fin p) (exchange expF (FVal.fin (next - current)) (FVal.fin T))
        = true) ∧
    (∀ (t : TPSA α) (k i j : Nat) (tour : List Nat) (c1 c2 n1 n2 : α),
      t.Tours[k]? = some tour → t.Temperatures[k]? = some (FVal.fin T) →
      getCost t tour i (i + 1) = some c1 → getCost t tour j (j + 1) = some c2 →
      getCost t tour i j = some n1 → getCost t tour (i + 1) (j + 1) = some n2 →
      current = c1 + c2 → next = n1 + n2 →
      saStep expF t k i j p =
        if p ≤ expF (-(next - current) / T)
        then forLoop (fun m s => flip s k (i + 1 + m) (j - m)) ((j - i) / 2) 0 t
        else some t) := by
  have hne : T ≠ 0 := ne_of_gt hT
  have hex : exchange expF (FVal.fin (next - current)) (FVal.fin T)
      = FVal.fin (expF (-(next - current) / T)) := by
    simp only [exchange, FVal.neg, FVal.div, if_neg hne, FVal.exp]
  have hacc : next ≤ current → p ≤ expF (-(next - current) / T) := by
    intro h
    have h0 : 0 ≤ -(next - current) / T :=
      div_nonneg (by linarith) (le_of_lt hT)
    have := hexp _ h0
    linarith
  have hiff : (next < current ∨ p ≤ expF (-(next - current) / T)) ↔
      p ≤ expF (-(next - current) / T) :=
    ⟨fun h => h.elim (fun h1 => hacc (le_of_lt h1)) id, Or.inr⟩
  have hbool : (decide (next < current) ||
        FVal.le (FVal.fin p) (exchange expF (FVal.fin (next - current)) (FVal.fin T)))
      = FVal.le (FVal.fin p) (exchange expF (FVal.fin (next - current)) (FVal.fin T)) := by
    rw [hex]
    show (decide (next < current) || decide (p ≤ expF (-(next - current) / T)))
      = decide (p ≤ expF (-(next - current) / T))
    by_cases h : next < current
    · rw [decide_eq_true (hacc (le_of_lt h)), Bool.or_true]
    · rw [decide_eq_false h, Bool.false_or]
  refine ⟨hex, hbool, hiff, ?_, ?_⟩
  · intro h
    rw [hex]
    exact decide_eq_true (hacc h)
  · intro t k i j tour c1 c2 n1 n2 htour htemp e1 e2 e3 e4 hc hn
    subst hc; subst hn
    simp only [saStep, Option.bind_eq_bind, htour, Option.some_bind, e1, e2, e3, e4, htemp]
    rw [hbool, hex]
    show (if decide (p ≤ expF (-(n1 + n2 - (c1 + c2)) / T)) = true then _ else _) = _
    simp only [decide_eq_true_eq]

/-- C19 on the four-city state: at the pair `(0, 2)` the move costs `2` more, the
exponential of `-2/2` is `1/2`, and the step with the draw `9/10` returns the state as
it was. -/
theorem sa_acceptance_test_witness :
    saStep demoExp demoState 0 0 2 (9 / 10) = some demoState := by
  have h := (sa_acceptance_test demoExp demoExp_one_le 2 2 4 (9 / 10) (by norm_num)
    (by norm_num) (by norm_num)).2.2.2.2 demoState 0 0 2 [0, 1, 2, 3] 1 1 2 2 rfl rfl
    (by simp [getCost, demoState]) (by simp [getCost, demoState])
    (by simp [getCost, demoState]) (by simp [getCost, demoState])
    (by norm_num) (by norm_num)
  rw [h, if_neg]
  simp [demoExp]
  norm_num

end C19
end Tpsa

/-! ## The rounding of float64: zero, exact values, underflow and overflow -/

namespace Tpsa

theorem roundHalfEven_intCast (n : ℤ) : roundHalfEven (n : ℚ) = n := by
  unfold roundHalfEven
  rw [Int.floor_intCast, sub_self, if_pos (by norm_num)]

theorem roundHalfEven_of_lt_half (y : ℚ) (h0 : 0 ≤ y) (h : y < 1 / 2) : roundHalfEven y = 0 := by
  have hf : ⌊y⌋ = 0 := by
    rw [Int.floor_eq_iff]
    constructor
    · simpa using h0
    · simp; linarith
  unfold roundHalfEven
  rw [hf, if_pos (by simpa using h)]

theorem floor_le_roundHalfEven (y : ℚ) : ⌊y⌋ ≤ roundHalfEven y := by
  unfold roundHalfEven
  split
  · exact le_refl _
  · split
    · omega
    · split <;> omega

theorem roundHalfEven_nonneg (y : ℚ) (h : 0 ≤ y) : 0 ≤ roundHalfEven y :=
  le_trans (Int.floor_nonneg.mpr h) (floor_le_roundHalfEven y)

theorem roundF64_zero : roundF64 0 = FVal.fin 0 := by
  unfold roundF64
  rw [if_pos rfl]


theorem two_pow_mul_zpow (L : ℤ) : ((2 ^ 52 : ℤ) : ℚ) * 2 ^ (L - 52) = 2 ^ L := by
  have h : ((2 ^ 52 : ℤ) : ℚ) = (2 : ℚ) ^ (52 : ℤ) := by norm_num
  rw [h, ← zpow_add₀ (by norm_num : (2 : ℚ) ≠ 0)]
  congr 1
  ring

theorem ulpExp_eq (a : ℚ) : ulpExp a = max (Int.log 2 a) (-1022) - 52 := rfl

/-- A magnitude below `2^(-1075)`, half the least positive `float64`, is rounded to zero. -/
theorem roundF64_underflow (x : ℚ) (h : |x| < 2 ^ (-1075 : ℤ)) : roundF64 x = FVal.fin 0 := by
  by_cases hx : x = 0
  · rw [hx, roundF64_zero]
  have ha : 0 < |x| := abs_pos.mpr hx
  have hlog : Int.log 2 |x| < -1075 := by
    rw [← Int.lt_zpow_iff_log_lt (by norm_num) ha]
    exact_mod_cast h
  have hu : ulpExp |x| = -1074 := by
    rw [ulpExp_eq, max_eq_right (by omega)]; norm_num
  have hy : |x| / 2 ^ (-1074 : ℤ) < 1 / 2 := by
    rw [div_lt_iff₀ (by positivity)]
    calc |x| < 2 ^ (-1075 : ℤ) := h
      _ = 1 / 2 * 2 ^ (-1074 : ℤ) := by
        rw [show (-1075 : ℤ) = -1 + -1074 by norm_num, zpow_add₀ (by norm_num)]
        norm_num
  have hr : roundHalfEven (|x| / 2 ^ (-1074 : ℤ)) = 0 :=
    roundHalfEven_of_lt_half _ (by positivity) hy
  unfold roundF64 roundMag
  rw [if_neg hx, hu, hr]
  simp only [Int.cast_zero, zero_mul, neg_zero, ite_self]
  rw [if_neg (not_le.mpr (by positivity))]

/-- A magnitude of `2^1024` or more is rounded to an infinity. -/
theorem roundF64_overflow (x : ℚ) (h : 2 ^ (1024 : ℤ) ≤ |x|) :
    roundF64 x = if 0 < x then FVal.pinf else FVal.ninf := by
  have ha : 0 < |x| := lt_of_lt_of_le (by positivity) h
  have hx : x ≠ 0 := abs_pos.mp ha
  have hlog : 1024 ≤ Int.log 2 |x| := by
    rw [← Int.zpow_le_iff_le_log (by norm_num) ha]
    exact_mod_cast h
  have hu : ulpExp |x| = Int.log 2 |x| - 52 := by
    rw [ulpExp_eq, max_eq_left (by omega)]
  have hle : (2 : ℚ) ^ (Int.log 2 |x|) ≤ |x| := by
    have := Int.zpow_log_le_self (b := 2) (r := |x|) (by norm_num) ha
    exact_mod_cast this
  have hy : ((2 ^ 52 : ℤ) : ℚ) ≤ |x| / 2 ^ (Int.log 2 |x| - 52) := by
    rw [le_div_iff₀ (by positivity)]
    calc ((2 ^ 52 : ℤ) : ℚ) * 2 ^ (Int.log 2 |x| - 52)
        = 2 ^ (Int.log 2 |x|) := two_pow_mul_zpow _
      _ ≤ |x| := hle
  have hfl : (2 ^ 52 : ℤ) ≤ roundHalfEven (|x| / 2 ^ (Int.log 2 |x| - 52)) :=
    le_trans (Int.le_floor.mpr hy) (floor_le_roundHalfEven _)
  have hbig : (2 : ℚ) ^ (1024 : ℤ) ≤
      (roundHalfEven (|x| / 2 ^ (Int.log 2 |x| - 52)) : ℚ) * 2 ^ (Int.log 2 |x| - 52) := by
    calc (2 : ℚ) ^ (1024 : ℤ) ≤ 2 ^ (Int.log 2 |x|) :=
          zpow_le_zpow_right₀ (by norm_num) hlog
      _ = ((2 ^ 52 : ℤ) : ℚ) * 2 ^ (Int.log 2 |x| - 52) := (two_pow_mul_zpow _).symm
      _ ≤ _ := by
          apply mul_le_mul_of_nonneg_right _ (by positivity)
          exact_mod_cast hfl
  unfold roundF64 roundMag
  rw [if_neg hx, hu, if_pos hbig]

/-- A number `m * 2^c` with `|m| < 2^53`, `c >= -1074` and magnitude below `2^1024` is a
`float64`: rounding leaves it as it is. -/
theorem roundF64_exact (m c : ℤ) (hm : |m| < 2 ^ 53) (hc : -1074 ≤ c)
    (hx : |(m : ℚ)| * 2 ^ c < 2 ^ (1024 : ℤ)) :
    roundF64 ((m : ℚ) * 2 ^ c) = FVal.fin ((m : ℚ) * 2 ^ c) := by
  by_cases hm0 : m = 0
  · rw [hm0, Int.cast_zero, zero_mul, roundF64_zero]
  have h2 : (0 : ℚ) < 2 ^ c := by positivity
  have hxne : (m : ℚ) * 2 ^ c ≠ 0 := mul_ne_zero (by exact_mod_cast hm0) (ne_of_gt h2)
  have habs : |(m : ℚ) * 2 ^ c| = |(m : ℚ)| * 2 ^ c := by
    rw [abs_mul, abs_of_pos h2]
  have ha : 0 < |(m : ℚ)| * 2 ^ c := by
    rw [← habs]; exact abs_pos.mpr hxne
  have hmq : |(m : ℚ)| < 2 ^ (53 : ℤ) := by
    have : ((|m| : ℤ) : ℚ) < ((2 ^ 53 : ℤ) : ℚ) := by exact_mod_cast hm
    rw [Int.cast_abs] at this
    calc |(m : ℚ)| < ((2 ^ 53 : ℤ) : ℚ) := this
      _ = 2 ^ (53 : ℤ) := by norm_num
  have hlt : |(m : ℚ)| * 2 ^ c < ((2 : ℕ) : ℚ) ^ (c + 53) := by
    rw [Nat.cast_ofNat, zpow_add₀ (by norm_num : (2 : ℚ) ≠ 0), mul_comm ((2 : ℚ) ^ c)]
    exact mul_lt_mul_of_pos_right hmq h2
  have hlog : Int.log 2 (|(m : ℚ)| * 2 ^ c) < c + 53 :=
    (Int.lt_zpow_iff_log_lt (by norm_num) ha).mp hlt
  have hu : ulpExp (|(m : ℚ)| * 2 ^ c) ≤ c := by
    rw [ulpExp_eq]
    have := max_le (by omega : Int.log 2 (|(m : ℚ)| * 2 ^ c) ≤ c + 52)
      (by omega : (-1022 : ℤ) ≤ c + 52)
    omega
  obtain ⟨d, hd⟩ : ∃ d : ℕ, c = ulpExp (|(m : ℚ)| * 2 ^ c) + d :=
    ⟨(c - ulpExp (|(m : ℚ)| * 2 ^ c)).toNat, by omega⟩
  have hquot : |(m : ℚ)| * 2 ^ c / 2 ^ ulpExp (|(m : ℚ)| * 2 ^ c)
      = ((|m| * 2 ^ d : ℤ) : ℚ) := by
    rw [div_eq_iff (by positivity)]
    nth_rewrite 1 [hd]
    rw [zpow_add₀ (by norm_num : (2 : ℚ) ≠ 0), zpow_natCast]
    push_cast
    ring
  have hr : (roundHalfEven (|(m : ℚ)| * 2 ^ c / 2 ^ ulpExp (|(m : ℚ)| * 2 ^ c)) : ℚ)
      * 2 ^ ulpExp (|(m : ℚ)| * 2 ^ c) = |(m : ℚ)| * 2 ^ c := by
    rw [hquot, roundHalfEven_intCast, ← hquot]
    exact div_mul_cancel₀ _ (by positivity)
  unfold roundF64 roundMag
  rw [if_neg hxne, habs, hr, if_neg (not_le.mpr hx)]
  by_cases hpos : 0 < (m : ℚ) * 2 ^ c
  · rw [if_pos hpos, ← habs, abs_of_pos hpos]
  · rw [if_neg hpos, ← habs, abs_of_nonpos (not_lt.mp hpos), neg_neg]

theorem roundF64_two_zpow (c : ℤ) (h1 : -1074 ≤ c) (h2 : c ≤ 1023) :
    roundF64 (2 ^ c) = FVal.fin (2 ^ c) := by
  have h := roundF64_exact 1 c (by norm_num) h1 (by
    rw [Int.cast_one, abs_one, one_mul]
    exact zpow_lt_zpow_right₀ (by norm_num) (by omega))
  rwa [Int.cast_one, one_mul] at h

theorem roundF64_neg_two_zpow (c : ℤ) (h1 : -1074 ≤ c) (h2 : c ≤ 1023) :
    roundF64 (-(2 ^ c)) = FVal.fin (-(2 ^ c)) := by
  have h := roundF64_exact (-1) c (by norm_num) h1 (by
    rw [Int.cast_neg, Int.cast_one, abs_neg, abs_one, one_mul]
    exact zpow_lt_zpow_right₀ (by norm_num) (by omega))
  rwa [Int.cast_neg, Int.cast_one, neg_one_mul] at h

theorem roundF64_one : roundF64 1 = FVal.fin 1 := by
  have h := roundF64_two_zpow 0 (by norm_num) (by norm_num)
  rwa [zpow_zero] at h

/-- Rounding to `float64` does not make a number that is not negative negative. -/
theorem roundF64_nonneg (x : ℚ) (h : 0 ≤ x) : FVal.le (FVal.fin 0) (roundF64 x) = true := by
  have hr : (0 : ℚ) ≤ roundMag |x| :=
    mul_nonneg (by exact_mod_cast roundHalfEven_nonneg _ (by positivity)) (by positivity)
  unfold roundF64
  by_cases hx : x = 0
  · rw [if_pos hx]; simp [FVal.le]
  · have hpos : 0 < x := lt_of_le_of_ne h (Ne.symm hx)
    rw [if_neg hx, if_pos hpos, if_pos hpos]
    split
    · rfl
    · simpa [FVal.le] using hr

/-- Rounding to `float64` does not make a number that is not positive positive. -/
theorem roundF64_nonpos (x : ℚ) (h : x ≤ 0) : FVal.le (roundF64 x) (FVal.fin 0) = true := by
  have hr : (0 : ℚ) ≤ roundMag |x| :=
    mul_nonneg (by exact_mod_cast roundHalfEven_nonneg _ (by positivity)) (by positivity)
  unfold roundF64
  by_cases hx : x = 0
  · rw [if_pos hx]; simp [FVal.le]
  · have hneg : ¬ 0 < x := not_lt.mpr h
    rw [if_neg hx, if_neg hneg, if_neg hneg]
    split
    · rfl
    · simpa [FVal.le] using hr

end Tpsa


/-! ## The rounding of float64 is monotone and leaves the float64 numbers alone -/

namespace Tpsa

theorem roundHalfEven_le_floor_add_one (y : ℚ) : roundHalfEven y ≤ ⌊y⌋ + 1 := by
  unfold roundHalfEven
  split
  · omega
  · split
    · exact le_refl _
    · split <;> omega

/-- Rounding to the nearest integer is monotone. -/
theorem roundHalfEven_mono (y z : ℚ) (h : y ≤ z) : roundHalfEven y ≤ roundHalfEven z := by
  have hf : ⌊y⌋ ≤ ⌊z⌋ := Int.floor_mono h
  rcases lt_or_eq_of_le hf with hlt | heq
  · calc roundHalfEven y ≤ ⌊y⌋ + 1 := roundHalfEven_le_floor_add_one y
      _ ≤ ⌊z⌋ := by omega
      _ ≤ roundHalfEven z := floor_le_roundHalfEven z
  · have hfr : y - ⌊y⌋ ≤ z - ⌊z⌋ := by
      rw [heq]; linarith
    unfold roundHalfEven
    rw [heq]
    by_cases h1 : y - (⌊z⌋ : ℚ) < 1 / 2
    · rw [heq] at hfr
      rw [if_pos h1]
      split
      · exact le_refl _
      · split
        · omega
        · split <;> omega
    · rw [heq] at hfr
      rw [if_neg h1]
      by_cases h2 : 1 / 2 < y - (⌊z⌋ : ℚ)
      · rw [if_pos h2, if_neg (by linarith), if_pos (by linarith)]
      · rw [if_neg h2]
        have hy : y - (⌊z⌋ : ℚ) = 1 / 2 := le_antisymm (not_lt.mp h2) (not_lt.mp h1)
        have hz : ¬ z - (⌊z⌋ : ℚ) < 1 / 2 := by linarith
        rw [if_neg hz]
        by_cases h3 : 1 / 2 < z - (⌊z⌋ : ℚ)
        · rw [if_pos h3]
          split <;> omega
        · rw [if_neg h3]

theorem roundHalfEven_le_of_le_intCast (y : ℚ) (n : ℤ) (h : y ≤ n) : roundHalfEven y ≤ n := by
  have := roundHalfEven_mono y n h
  rwa [roundHalfEven_intCast] at this

theorem intCast_le_roundHalfEven (y : ℚ) (n : ℤ) (h : (n : ℚ) ≤ y) : n ≤ roundHalfEven y := by
  have := roundHalfEven_mono n y h
  rwa [roundHalfEven_intCast] at this

theorem roundMag_nonneg (a : ℚ) (h : 0 ≤ a) : 0 ≤ roundMag a :=
  mul_nonneg (by exact_mod_cast roundHalfEven_nonneg _ (by positivity)) (by positivity)

theorem two_pow53_mul_zpow (u : ℤ) : ((2 ^ 53 : ℤ) : ℚ) * 2 ^ u = 2 ^ (u + 53) := by
  have h : ((2 ^ 53 : ℤ) : ℚ) = (2 : ℚ) ^ (53 : ℤ) := by norm_num
  rw [h, ← zpow_add₀ (by norm_num : (2 : ℚ) ≠ 0)]
  congr 1
  ring

theorem two_pow52_mul_zpow (u : ℤ) : ((2 ^ 52 : ℤ) : ℚ) * 2 ^ u = 2 ^ (u + 52) := by
  have h : ((2 ^ 52 : ℤ) : ℚ) = (2 : ℚ) ^ (52 : ℤ) := by norm_num
  rw [h, ← zpow_add₀ (by norm_num : (2 : ℚ) ≠ 0)]
  congr 1
  ring

/-- A positive magnitude lies below the top of its binade. -/
theorem lt_zpow_ulpExp (a : ℚ) (_ha : 0 < a) : a < 2 ^ (ulpExp a + 53) := by
  have h1 : a < ((2 : ℕ) : ℚ) ^ (Int.log 2 a + 1) := Int.lt_zpow_succ_log_self (by norm_num) a
  rw [Nat.cast_ofNat] at h1
  have h2 : Int.log 2 a + 1 ≤ ulpExp a + 53 := by
    rw [ulpExp_eq]
    have := le_max_left (Int.log 2 a) (-1022)
    omega
  exact lt_of_lt_of_le h1 (zpow_le_zpow_right₀ (by norm_num) h2)

/-- The integer multiple of the spacing that a positive magnitude is rounded to is at
most `2^53`. -/
theorem roundHalfEven_quot_le (a : ℚ) (ha : 0 < a) :
    roundHalfEven (a / 2 ^ ulpExp a) ≤ 2 ^ 53 := by
  apply roundHalfEven_le_of_le_intCast
  rw [div_le_iff₀ (by positivity), two_pow53_mul_zpow]
  exact le_of_lt (lt_zpow_ulpExp a ha)

theorem roundMag_le_top (a : ℚ) (ha : 0 < a) : roundMag a ≤ 2 ^ (ulpExp a + 53) := by
  unfold roundMag
  rw [← two_pow53_mul_zpow]
  apply mul_le_mul_of_nonneg_right _ (by positivity)
  exact_mod_cast roundHalfEven_quot_le a ha

/-- A magnitude that is not subnormal is rounded to at least the bottom of its binade. -/
theorem roundMag_ge_bot (a : ℚ) (ha : 0 < a) (hn : -1022 ≤ Int.log 2 a) :
    2 ^ (ulpExp a + 52) ≤ roundMag a := by
  have hu : ulpExp a + 52 = Int.log 2 a := by
    rw [ulpExp_eq, max_eq_left hn]; ring
  have hle : (2 : ℚ) ^ (Int.log 2 a) ≤ a := by
    have := Int.zpow_log_le_self (b := 2) (r := a) (by norm_num) ha
    exact_mod_cast this
  have hq : ((2 ^ 52 : ℤ) : ℚ) ≤ a / 2 ^ ulpExp a := by
    rw [le_div_iff₀ (by positivity), two_pow52_mul_zpow, hu]
    exact hle
  unfold roundMag
  rw [← two_pow52_mul_zpow]
  apply mul_le_mul_of_nonneg_right _ (by positivity)
  exact_mod_cast intCast_le_roundHalfEven _ _ hq

theorem ulpExp_mono (a b : ℚ) (ha : 0 < a) (h : a ≤ b) : ulpExp a ≤ ulpExp b := by
  rw [ulpExp_eq, ulpExp_eq]
  have := Int.log_mono_right (b := 2) ha h
  have := max_le_max this (le_refl (-1022 : ℤ))
  omega

/-- Rounding of magnitudes is monotone. -/
theorem roundMag_mono (a b : ℚ) (ha : 0 < a) (h : a ≤ b) : roundMag a ≤ roundMag b := by
  have hb : 0 < b := lt_of_lt_of_le ha h
  rcases lt_or_eq_of_le (ulpExp_mono a b ha h) with hlt | heq
  · -- different binades
    have hlogb : -1022 ≤ Int.log 2 b := by
      by_contra hc
      have hub : ulpExp b = -1074 := by
        rw [ulpExp_eq, max_eq_right (by omega)]; norm_num
      have hua : -1074 ≤ ulpExp a := by
        rw [ulpExp_eq]
        have := le_max_right (Int.log 2 a) (-1022)
        omega
      omega
    calc roundMag a ≤ 2 ^ (ulpExp a + 53) := roundMag_le_top a ha
      _ ≤ 2 ^ (ulpExp b + 52) := zpow_le_zpow_right₀ (by norm_num) (by omega)
      _ ≤ roundMag b := roundMag_ge_bot b hb hlogb
  · unfold roundMag
    rw [heq]
    apply mul_le_mul_of_nonneg_right _ (by positivity)
    have : a / 2 ^ ulpExp b ≤ b / 2 ^ ulpExp b :=
      div_le_div_of_nonneg_right h (by positivity)
    exact_mod_cast roundHalfEven_mono _ _ this

theorem roundF64_of_pos (x : ℚ) (hx : 0 < x) :
    roundF64 x = if 2 ^ (1024 : ℤ) ≤ roundMag x then FVal.pinf else FVal.fin (roundMag x) := by
  unfold roundF64
  rw [if_neg (ne_of_gt hx), abs_of_pos hx, if_pos hx, if_pos hx]

theorem roundF64_of_neg (x : ℚ) (hx : x < 0) :
    roundF64 x =
      if 2 ^ (1024 : ℤ) ≤ roundMag (-x) then FVal.ninf else FVal.fin (-roundMag (-x)) := by
  unfold roundF64
  rw [if_neg (ne_of_lt hx), abs_of_neg hx, if_neg (not_lt.mpr (le_of_lt hx)),
    if_neg (not_lt.mpr (le_of_lt hx))]

/-- Rounding to `float64` is monotone. -/
theorem roundF64_mono (x y : ℚ) (h : x ≤ y) :
    FVal.le (roundF64 x) (roundF64 y) = true := by
  rcases lt_trichotomy 0 x with hx | hx | hx
  · -- both positive
    have hy : 0 < y := lt_of_lt_of_le hx h
    have hm := roundMag_mono x y hx h
    rw [roundF64_of_pos x hx, roundF64_of_pos y hy]
    by_cases hoy : (2 : ℚ) ^ (1024 : ℤ) ≤ roundMag y
    · rw [if_pos hoy]
      split <;> rfl
    · rw [if_neg hoy, if_neg (fun hox => hoy (le_trans hox hm))]
      simpa [FVal.le] using hm
  · -- `x` is zero
    rw [← hx, roundF64_zero]
    exact roundF64_nonneg y (by rw [← hx] at h; exact h)
  · rcases lt_or_le y 0 with hy | hy
    · -- both negative
      have hm := roundMag_mono (-y) (-x) (by linarith) (by linarith)
      rw [roundF64_of_neg x hx, roundF64_of_neg y hy]
      by_cases hox : (2 : ℚ) ^ (1024 : ℤ) ≤ roundMag (-x)
      · rw [if_pos hox]
        split <;> rfl
      · rw [if_neg hox, if_neg (fun hoy => hox (le_trans hoy hm))]
        simpa [FVal.le] using hm
    · -- `x` is negative and `y` is not
      have h1 := roundF64_nonpos x (le_of_lt hx)
      have h2 := roundF64_nonneg y hy
      cases ex : roundF64 x with
      | fin a =>
        cases ey : roundF64 y with
        | fin b =>
          rw [ex] at h1
          rw [ey] at h2
          simp only [FVal.le, decide_eq_true_eq] at h1 h2 ⊢
          linarith
        | pinf => rfl
        | ninf => rw [ey] at h2; simp [FVal.le] at h2
        | nan => rw [ey] at h2; simp [FVal.le] at h2
      | pinf => rw [ex] at h1; simp [FVal.le] at h1
      | ninf =>
        cases ey : roundF64 y with
        | fin b => rfl
        | pinf => rfl
        | ninf => rfl
        | nan => rw [ey] at h2; simp [FVal.le] at h2
      | nan => rw [ex] at h1; simp [FVal.le] at h1

theorem ulpExp_ge (a : ℚ) : -1074 ≤ ulpExp a := by
  rw [ulpExp_eq]
  have := le_max_right (Int.log 2 a) (-1022)
  omega

/-- A rounded magnitude below `2^1024` is a `float64`, and so is its negative. -/
theorem roundF64_roundMag (a : ℚ) (ha : 0 < a) (hlt : roundMag a < 2 ^ (1024 : ℤ)) :
    roundF64 (roundMag a) = FVal.fin (roundMag a) ∧
      roundF64 (-roundMag a) = FVal.fin (-roundMag a) := by
  have hm0 : 0 ≤ roundHalfEven (a / 2 ^ ulpExp a) := roundHalfEven_nonneg _ (by positivity)
  have hm1 := roundHalfEven_quot_le a ha
  rcases lt_or_eq_of_le hm1 with hlt53 | heq53
  · have habs : |roundHalfEven (a / 2 ^ ulpExp a)| < 2 ^ 53 := by
      rw [abs_of_nonneg hm0]; exact hlt53
    have hq : |((roundHalfEven (a / 2 ^ ulpExp a) : ℤ) : ℚ)| * 2 ^ ulpExp a
        < 2 ^ (1024 : ℤ) := by
      rw [abs_of_nonneg (by exact_mod_cast hm0)]
      exact hlt
    constructor
    · exact roundF64_exact _ _ habs (ulpExp_ge a) hq
    · have h := roundF64_exact (-roundHalfEven (a / 2 ^ ulpExp a)) (ulpExp a)
        (by rw [abs_neg]; exact habs) (ulpExp_ge a)
        (by rw [Int.cast_neg, abs_neg]; exact hq)
      rw [Int.cast_neg, neg_mul] at h
      exact h
  · have hval : roundMag a = 2 ^ (ulpExp a + 53) := by
      unfold roundMag
      rw [heq53, two_pow53_mul_zpow]
    rw [hval] at hlt ⊢
    have hexp : ulpExp a + 53 ≤ 1023 := by
      have := (zpow_lt_zpow_iff_right₀ (by norm_num : (1 : ℚ) < 2)).mp hlt
      omega
    have hlow : -1074 ≤ ulpExp a + 53 := by
      have := ulpExp_ge a
      omega
    exact ⟨roundF64_two_zpow _ hlow hexp, roundF64_neg_two_zpow _ hlow hexp⟩

/-- Rounding to `float64` leaves the `float64` numbers alone. -/
theorem roundF64_idem (x y : ℚ) (h : roundF64 x = FVal.fin y) : roundF64 y = FVal.fin y := by
  rcases lt_trichotomy 0 x with hx | hx | hx
  · rw [roundF64_of_pos x hx] at h
    by_cases ho : (2 : ℚ) ^ (1024 : ℤ) ≤ roundMag x
    · rw [if_pos ho] at h
      cases h
    · rw [if_neg ho, FVal.fin.injEq] at h
      rw [← h]
      exact (roundF64_roundMag x hx (not_le.mp ho)).1
  · rw [← hx, roundF64_zero, FVal.fin.injEq] at h
    rw [← h, roundF64_zero]
  · rw [roundF64_of_neg x hx] at h
    by_cases ho : (2 : ℚ) ^ (1024 : ℤ) ≤ roundMag (-x)
    · rw [if_pos ho] at h
      cases h
    · rw [if_neg ho, FVal.fin.injEq] at h
      rw [← h]
      exact (roundF64_roundMag (-x) (by linarith) (not_le.mp ho)).2

/-- The conversion `float64(n)` of an integer below `2^53` is exact. -/
theorem roundF64_natCast (n : ℕ) (h : n < 2 ^ 53) : roundF64 (n : ℚ) = FVal.fin (n : ℚ) := by
  have hq : |(((n : ℤ)) : ℚ)| * 2 ^ (0 : ℤ) < 2 ^ (1024 : ℤ) := by
    rw [zpow_zero, mul_one, Int.cast_natCast, abs_of_nonneg (Nat.cast_nonneg n)]
    calc (n : ℚ) < ((2 ^ 53 : ℕ) : ℚ) := by exact_mod_cast h
      _ = 2 ^ (53 : ℤ) := by norm_num
      _ < 2 ^ (1024 : ℤ) := zpow_lt_zpow_right₀ (by norm_num) (by norm_num)
  have h1 := roundF64_exact (n : ℤ) 0 (by rw [abs_of_nonneg (Int.natCast_nonneg n)]; omega)
    (by norm_num) hq
  rwa [zpow_zero, mul_one, Int.cast_natCast] at h1

end Tpsa


/-! ## The exchange of two slots in float64 arithmetic -/

namespace Tpsa
section ExchangeFl
variable {α : Type} [LinearOrderedField α]

/-- The result of `exchangeSolution` in float64 arithmetic on two slots that hold
temperatures and tours with defined costs. -/
theorem exchangeSolutionFl_eq_ite (rnd : α → FVal α) (expFl : α → FVal α) (t : TPSA α)
    (cur next : Nat) (p : α) (tn tc : FVal α) (tourNext tourCur : List Nat) (vn vc : FVal α)
    (hn : t.Temperatures[next]? = some tn) (hc : t.Temperatures[cur]? = some tc)
    (hN : t.Tours[next]? = some tourNext) (hC : t.Tours[cur]? = some tourCur)
    (hvn : getTotalCostFl rnd t tourNext = some vn)
    (hvc : getTotalCostFl rnd t tourCur = some vc) :
    exchangeSolutionFl rnd expFl t cur next p =
      some (if (FVal.lt (FVal.mulR rnd (FVal.subR rnd tn tc) (FVal.subR rnd vn vc))
              (FVal.fin 0) ||
            FVal.le (FVal.fin p)
              (FVal.expR expFl
                (FVal.divR rnd
                  (FVal.mulR rnd (FVal.neg (FVal.subR rnd tn tc)) (FVal.subR rnd vn vc))
                  (FVal.mulR rnd tn tc)))) = true
        then { t with Tours := (t.Tours.set next tourCur).set cur tourNext }
        else t) := by
  simp only [exchangeSolutionFl, Option.bind_eq_bind, hn, hc, hN, hC, hvn, hvc,
    Option.some_bind]
  split <;> rfl

theorem addR_fin (rnd : α → FVal α) (x y : α) :
    FVal.addR rnd (FVal.fin x) (FVal.fin y) = rnd (x + y) := rfl

theorem subR_fin (rnd : α → FVal α) (x y : α) :
    FVal.subR rnd (FVal.fin x) (FVal.fin y) = rnd (x + -y) := rfl

theorem mulR_fin (rnd : α → FVal α) (x y : α) :
    FVal.mulR rnd (FVal.fin x) (FVal.fin y) = rnd (x * y) := rfl

theorem subR_self (rnd : α → FVal α) (hrnd : rnd 0 = FVal.fin 0) (x : α) :
    FVal.subR rnd (FVal.fin x) (FVal.fin x) = FVal.fin 0 := by
  simp only [FVal.subR, FVal.neg, FVal.addR, add_neg_cancel, hrnd]

theorem mulR_zero_left (rnd : α → FVal α) (hrnd : rnd 0 = FVal.fin 0) (x : α) :
    FVal.mulR rnd (FVal.fin 0) (FVal.fin x) = FVal.fin 0 := by
  simp only [FVal.mulR, zero_mul, hrnd]

/-- Zero divided by a `float64` that is neither zero nor `NaN` is zero. -/
theorem divR_zero_left (rnd : α → FVal α) (hrnd : rnd 0 = FVal.fin 0) (b : FVal α)
    (h0 : b ≠ FVal.fin 0) (hnan : b ≠ FVal.nan) :
    FVal.divR rnd (FVal.fin 0) b = FVal.fin 0 := by
  cases b with
  | fin y =>
    have hy : y ≠ 0 := fun e => h0 (by rw [e])
    simp only [FVal.divR, if_neg hy, zero_div, hrnd]
  | pinf => rfl
  | ninf => rfl
  | nan => exact absurd rfl hnan

theorem divR_zero_zero (rnd : α → FVal α) :
    FVal.divR rnd (FVal.fin 0) (FVal.fin 0) = FVal.nan := by
  simp [FVal.divR, FVal.signedInf]

end ExchangeFl
end Tpsa


/-! ## The float64 definitions at the rounding that leaves every number alone -/

namespace Tpsa
section ExactFl
variable {α : Type} [LinearOrderedField α]

theorem divR_exact (a b : FVal α) : FVal.divR FVal.fin a b = FVal.div a b := by
  cases a <;> cases b <;> rfl

theorem mulR_exact (a b : FVal α) : FVal.mulR FVal.fin a b = FVal.mul a b := by
  cases a <;> cases b <;> rfl

theorem addR_exact (a b : FVal α) : FVal.addR FVal.fin a b = FVal.add a b := by
  cases a <;> cases b <;> rfl

theorem subR_exact (a b : FVal α) : FVal.subR FVal.fin a b = FVal.sub a b := by
  unfold FVal.subR FVal.sub
  exact addR_exact _ _

theorem expR_exact (expF : α → α) (a : FVal α) :
    FVal.expR (fun x => FVal.fin (expF x)) a = FVal.exp expF a := by
  cases a <;> rfl

/-- With the rounding that leaves every number alone, the step of `sa` in float64
arithmetic is the step of `sa` in exact arithmetic. -/
theorem saStepFl_exact (expF : α → α) (t : TPSA α) (k i j : Nat) (p : α) :
    saStepFl FVal.fin (fun x => FVal.fin (expF x)) t k i j p = saStep expF t k i j p := by
  simp only [saStepFl, saStep, exchangeFl, exchange, addR_exact, subR_exact, divR_exact,
    expR_exact, FVal.sub, FVal.add, FVal.neg, FVal.lt, sub_eq_add_neg]

theorem getTotalCostFl_exact_loop (t : TPSA α) (tour : List Nat) :
    ∀ (r lo : Nat) (acc : α),
      forLoop (fun i ret =>
          (getCost t tour i (i + 1)).map (fun c => FVal.addR FVal.fin ret (FVal.fin c)))
          r lo (FVal.fin acc)
        = (forLoop (fun i ret => (getCost t tour i (i + 1)).map (fun c => ret + c))
            r lo acc).map FVal.fin := by
  intro r
  induction r with
  | zero => intro lo acc; rfl
  | succ r ih =>
    intro lo acc
    simp only [forLoop]
    cases getCost t tour lo (lo + 1) with
    | none => rfl
    | some c =>
      simp only [Option.map_some', Option.some_bind]
      exact ih (lo + 1) (acc + c)

/-- With the rounding that leaves every number alone, `getTotalCost` in float64 arithmetic
is `getTotalCost` in exact arithmetic. -/
theorem getTotalCostFl_exact (t : TPSA α) (tour : List Nat) :
    getTotalCostFl FVal.fin t tour = (getTotalCost t tour).map FVal.fin :=
  getTotalCostFl_exact_loop t tour tour.length 0 0

/-- With the rounding that leaves every number alone, `exchangeSolution` in float64
arithmetic is `exchangeSolution` in exact arithmetic. -/
theorem exchangeSolutionFl_exact (expF : α → α) (t : TPSA α) (cur next : Nat) (p : α) :
    exchangeSolutionFl FVal.fin (fun x => FVal.fin (expF x)) t cur next p
      = exchangeSolution expF t cur next p := by
  have e : ∀ vn vc : α, FVal.sub (FVal.fin vn) (FVal.fin vc) = FVal.fin (vn - vc) := by
    intro vn vc
    simp only [FVal.sub, FVal.neg, FVal.add, sub_eq_add_neg]
  simp only [exchangeSolutionFl, exchangeSolution, getTotalCostFl_exact, Option.bind_eq_bind,
    subR_exact, mulR_exact, divR_exact, expR_exact]
  cases t.Temperatures[next]? <;> simp only [Option.some_bind, Option.none_bind]
  cases t.Temperatures[cur]? <;> simp only [Option.some_bind, Option.none_bind]
  cases t.Tours[next]? <;> simp only [Option.some_bind, Option.none_bind]
  cases getTotalCost t _ <;>
    simp only [Option.some_bind, Option.none_bind, Option.map_some', Option.map_none']
  cases t.Tours[cur]? <;> simp only [Option.some_bind, Option.none_bind]
  cases getTotalCost t _ <;>
    simp only [Option.some_bind, Option.none_bind, Option.map_some', Option.map_none', e]

/-- With the rounding that leaves every number alone, `makeInitialData` in float64
arithmetic is `makeInitialData` in exact arithmetic. -/
theorem makeInitialDataFl_exact (t : TPSA α) (pick : Nat → Nat) :
    makeInitialDataFl FVal.fin t pick = makeInitialData t pick := by
  simp only [makeInitialDataFl, makeInitialData, addR_exact, mulR_exact, divR_exact,
    subR_exact, FVal.sub, FVal.neg, FVal.add, sub_eq_add_neg]

end ExactFl
end Tpsa


/-! ## The example of two slots with tiny temperatures -/

namespace Tpsa

theorem roundF64_smallCost : roundF64 smallCost = FVal.fin smallCost :=
  roundF64_two_zpow (-500) (by norm_num) (by norm_num)

theorem addR_zero_left (x : ℚ) (h : roundF64 x = FVal.fin x) :
    FVal.addR roundF64 (FVal.fin 0) (FVal.fin x) = FVal.fin x := by
  simp only [FVal.addR, zero_add, h]

theorem addR_zero_right (x : ℚ) (h : roundF64 x = FVal.fin x) :
    FVal.addR roundF64 (FVal.fin x) (FVal.fin 0) = FVal.fin x := by
  simp only [FVal.addR, add_zero, h]

/-- The costs of the two tours of `pairState` in float64 arithmetic. -/
theorem pairState_costs (tc tn : ℚ) :
    getTotalCostFl roundF64 (pairState tc tn) [0, 1, 2, 3] = some (FVal.fin smallCost) ∧
      getTotalCostFl roundF64 (pairState tc tn) [0, 2, 1, 3] = some (FVal.fin 0) := by
  have h0 := addR_zero_left 0 roundF64_zero
  have h1 := addR_zero_left smallCost roundF64_smallCost
  have h2 := addR_zero_right smallCost roundF64_smallCost
  constructor
  · simp [getTotalCostFl, forLoop, getCost, pairState, h0, h1, h2]
  · simp [getTotalCostFl, forLoop, getCost, pairState, h0, h1, h2]

theorem subR_smallCost_zero :
    FVal.subR roundF64 (FVal.fin smallCost) (FVal.fin 0) = FVal.fin smallCost := by
  simp only [FVal.subR, FVal.neg, FVal.addR, neg_zero, add_zero, roundF64_smallCost]

/-- The square of `tinyTemp` is below half the least positive `float64`. -/
theorem tinyTemp_sq_underflow : roundF64 (tinyTemp * tinyTemp) = FVal.fin 0 := by
  apply roundF64_underflow
  unfold tinyTemp
  rw [← zpow_add₀ (by norm_num : (2 : ℚ) ≠ 0), abs_of_pos (by positivity)]
  exact zpow_lt_zpow_right₀ (by norm_num) (by norm_num)

theorem hotTemp_eq : hotTemp = 2 * tinyTemp := by
  unfold hotTemp tinyTemp
  rw [show (-599 : ℤ) = 1 + -600 by norm_num, zpow_add₀ (by norm_num : (2 : ℚ) ≠ 0), zpow_one]

theorem tinyTemp_pos : 0 < tinyTemp := by
  unfold tinyTemp
  positivity

theorem tinyTemp_lt_hotTemp : tinyTemp < hotTemp := by
  rw [hotTemp_eq]
  linarith [tinyTemp_pos]

theorem smallCost_pos : 0 < smallCost := by
  unfold smallCost
  positivity

/-- The difference of the two temperatures is the `float64` `-2^(-600)`. -/
theorem subR_tiny_hot :
    FVal.subR roundF64 (FVal.fin tinyTemp) (FVal.fin hotTemp) = FVal.fin (-tinyTemp) := by
  have e : tinyTemp + -hotTemp = -tinyTemp := by rw [hotTemp_eq]; ring
  simp only [FVal.subR, FVal.neg, FVal.addR, e]
  exact roundF64_neg_two_zpow (-600) (by norm_num) (by norm_num)

/-- The products of the example underflow: each is below half the least positive
`float64` in magnitude. -/
theorem tiny_products_underflow :
    roundF64 (-tinyTemp * smallCost) = FVal.fin 0 ∧
      roundF64 (tinyTemp * smallCost) = FVal.fin 0 ∧
      roundF64 (tinyTemp * hotTemp) = FVal.fin 0 := by
  have h1 : |tinyTemp * smallCost| < 2 ^ (-1075 : ℤ) := by
    unfold tinyTemp smallCost
    rw [← zpow_add₀ (by norm_num : (2 : ℚ) ≠ 0), abs_of_pos (by positivity)]
    exact zpow_lt_zpow_right₀ (by norm_num) (by norm_num)
  have h2 : |tinyTemp * hotTemp| < 2 ^ (-1075 : ℤ) := by
    unfold tinyTemp hotTemp
    rw [← zpow_add₀ (by norm_num : (2 : ℚ) ≠ 0), abs_of_pos (by positivity)]
    exact zpow_lt_zpow_right₀ (by norm_num) (by norm_num)
  refine ⟨roundF64_underflow _ ?_, roundF64_underflow _ h1, roundF64_underflow _ h2⟩
  rw [neg_mul, abs_neg]
  exact h1

end Tpsa


/-! ## Signs of rounded operations -/

namespace Tpsa
section SignFl
variable {α : Type} [LinearOrderedField α]

theorem le_zero_cases (a : FVal α) (h : FVal.le a (FVal.fin 0) = true) :
    a = FVal.ninf ∨ ∃ x, a = FVal.fin x ∧ x ≤ 0 := by
  cases a with
  | fin x => exact Or.inr ⟨x, rfl, by simpa [FVal.le] using h⟩
  | pinf => simp [FVal.le] at h
  | ninf => exact Or.inl rfl
  | nan => simp [FVal.le] at h

theorem zero_le_cases (a : FVal α) (h : FVal.le (FVal.fin 0) a = true) :
    a = FVal.pinf ∨ ∃ x, a = FVal.fin x ∧ 0 ≤ x := by
  cases a with
  | fin x => exact Or.inr ⟨x, rfl, by simpa [FVal.le] using h⟩
  | pinf => exact Or.inl rfl
  | ninf => simp [FVal.le] at h
  | nan => simp [FVal.le] at h

theorem neg_nonneg_of_nonpos (a : FVal α) (h : FVal.le a (FVal.fin 0) = true) :
    FVal.le (FVal.fin 0) (FVal.neg a) = true := by
  rcases le_zero_cases a h with rfl | ⟨x, rfl, hx⟩
  · rfl
  · simpa [FVal.neg, FVal.le] using hx

theorem mulR_nonpos_nonneg (rnd : α → FVal α)
    (hnp : ∀ x, x ≤ 0 → FVal.le (rnd x) (FVal.fin 0) = true) (a b : FVal α)
    (ha : FVal.le a (FVal.fin 0) = true) (hb : FVal.le (FVal.fin 0) b = true) :
    FVal.mulR rnd a b = FVal.nan ∨ FVal.le (FVal.mulR rnd a b) (FVal.fin 0) = true := by
  rcases le_zero_cases a ha with rfl | ⟨x, rfl, hx⟩ <;>
    rcases zero_le_cases b hb with rfl | ⟨y, rfl, hy⟩
  · exact Or.inr rfl
  · show FVal.signedInf (-y) = _ ∨ FVal.le (FVal.signedInf (-y)) _ = true
    unfold FVal.signedInf
    by_cases h0 : -y = 0
    · rw [if_pos h0]; exact Or.inl rfl
    · rw [if_neg h0, if_neg (by linarith)]; exact Or.inr rfl
  · show FVal.signedInf x = _ ∨ FVal.le (FVal.signedInf x) _ = true
    unfold FVal.signedInf
    by_cases h0 : x = 0
    · rw [if_pos h0]; exact Or.inl rfl
    · rw [if_neg h0, if_neg (by linarith)]; exact Or.inr rfl
  · exact Or.inr (hnp _ (mul_nonpos_of_nonpos_of_nonneg hx hy))

theorem mulR_nonneg_nonpos (rnd : α → FVal α)
    (hnp : ∀ x, x ≤ 0 → FVal.le (rnd x) (FVal.fin 0) = true) (a b : FVal α)
    (ha : FVal.le (FVal.fin 0) a = true) (hb : FVal.le b (FVal.fin 0) = true) :
    FVal.mulR rnd a b = FVal.nan ∨ FVal.le (FVal.mulR rnd a b) (FVal.fin 0) = true := by
  rcases zero_le_cases a ha with rfl | ⟨x, rfl, hx⟩ <;>
    rcases le_zero_cases b hb with rfl | ⟨y, rfl, hy⟩
  · exact Or.inr rfl
  · show FVal.signedInf y = _ ∨ FVal.le (FVal.signedInf y) _ = true
    unfold FVal.signedInf
    by_cases h0 : y = 0
    · rw [if_pos h0]; exact Or.inl rfl
    · rw [if_neg h0, if_neg (by linarith)]; exact Or.inr rfl
  · show FVal.signedInf (-x) = _ ∨ FVal.le (FVal.signedInf (-x)) _ = true
    unfold FVal.signedInf
    by_cases h0 : -x = 0
    · rw [if_pos h0]; exact Or.inl rfl
    · rw [if_neg h0, if_neg (by linarith)]; exact Or.inr rfl
  · exact Or.inr (hnp _ (mul_nonpos_of_nonneg_of_nonpos hx hy))

theorem mulR_nonpos_nonpos (rnd : α → FVal α)
    (hnn : ∀ x, 0 ≤ x → FVal.le (FVal.fin 0) (rnd x) = true) (a b : FVal α)
    (ha : FVal.le a (FVal.fin 0) = true) (hb : FVal.le b (FVal.fin 0) = true) :
    FVal.mulR rnd a b = FVal.nan ∨ FVal.le (FVal.fin 0) (FVal.mulR rnd a b) = true := by
  rcases le_zero_cases a ha with rfl | ⟨x, rfl, hx⟩ <;>
    rcases le_zero_cases b hb with rfl | ⟨y, rfl, hy⟩
  · exact Or.inr rfl
  · show FVal.signedInf (-y) = _ ∨ FVal.le _ (FVal.signedInf (-y)) = true
    unfold FVal.signedInf
    by_cases h0 : -y = 0
    · rw [if_pos h0]; exact Or.inl rfl
    · rw [if_neg h0, if_pos (lt_of_le_of_ne (by linarith) (Ne.symm h0))]; exact Or.inr rfl
  · show FVal.signedInf (-x) = _ ∨ FVal.le _ (FVal.signedInf (-x)) = true
    unfold FVal.signedInf
    by_cases h0 : -x = 0
    · rw [if_pos h0]; exact Or.inl rfl
    · rw [if_neg h0, if_pos (lt_of_le_of_ne (by linarith) (Ne.symm h0))]; exact Or.inr rfl
  · exact Or.inr (hnn _ (mul_nonneg_of_nonpos_of_nonpos hx hy))

/-- A `float64` that is not positive, divided by one that is not negative, is `NaN` or not
positive. -/
theorem divR_nonpos_nonneg (rnd : α → FVal α)
    (hnp : ∀ x, x ≤ 0 → FVal.le (rnd x) (FVal.fin 0) = true) (a b : FVal α)
    (ha : FVal.le a (FVal.fin 0) = true) (hb : FVal.le (FVal.fin 0) b = true) :
    FVal.divR rnd a b = FVal.nan ∨ FVal.le (FVal.divR rnd a b) (FVal.fin 0) = true := by
  rcases le_zero_cases a ha with rfl | ⟨x, rfl, hx⟩ <;>
    rcases zero_le_cases b hb with rfl | ⟨y, rfl, hy⟩
  · exact Or.inl rfl
  · show (if y < 0 then FVal.pinf else FVal.ninf) = _ ∨
      FVal.le (if y < 0 then FVal.pinf else FVal.ninf) _ = true
    rw [if_neg (not_lt.mpr hy)]; exact Or.inr rfl
  · right
    show FVal.le (FVal.fin 0) (FVal.fin 0) = true
    simp [FVal.le]
  · show (if y = 0 then FVal.signedInf x else rnd (x / y)) = _ ∨
      FVal.le (if y = 0 then FVal.signedInf x else rnd (x / y)) _ = true
    by_cases h0 : y = 0
    · rw [if_pos h0]
      unfold FVal.signedInf
      by_cases hx0 : x = 0
      · rw [if_pos hx0]; exact Or.inl rfl
      · rw [if_neg hx0, if_neg (by linarith)]; exact Or.inr rfl
    · rw [if_neg h0]
      exact Or.inr (hnp _ (div_nonpos_of_nonpos_of_nonneg hx hy))

/-- The exponential of a `float64` that is not positive is at most `1`. -/
theorem expR_le_one (expFl : α → FVal α)
    (hexp : ∀ x, x ≤ 0 → FVal.le (expFl x) (FVal.fin 1) = true) (a : FVal α)
    (ha : FVal.le a (FVal.fin 0) = true) :
    FVal.le (FVal.expR expFl a) (FVal.fin 1) = true := by
  rcases le_zero_cases a ha with rfl | ⟨x, rfl, hx⟩
  · show FVal.le (FVal.fin 0) (FVal.fin 1) = true
    simp [FVal.le]
  · exact hexp x hx

end SignFl
end Tpsa


namespace Tpsa
section C10
variable {α : Type} [LinearOrderedField α]

/-- C10, the claim as stated fails. In `pairState` with both slots at the temperature `0`,
and with both slots at the temperature `2^(-600)`, the two temperatures are equal and the
draw `1/2` is in `[0, 1)`, yet `exchangeSolution` in float64 arithmetic leaves the tours
where they are: the product of the temperatures is zero (for `2^(-600)` it underflows),
the exponent is `0 / 0`, and `q` is `NaN`. -/
theorem exchangeSolution_equal_temperatures_counterexample :
    (pairState 0 0).Temperatures[1]? = (pairState 0 0).Temperatures[0]? ∧
      (pairState tinyTemp tinyTemp).Temperatures[1]? =
        (pairState tinyTemp tinyTemp).Temperatures[0]? ∧
      tinyTemp ≠ 0 ∧ (0 : ℚ) ≤ 1 / 2 ∧ (1 / 2 : ℚ) < 1 ∧ demoExpFl 0 = FVal.fin 1 ∧
      exchangeSolutionFl roundF64 demoExpFl (pairState 0 0) 0 1 (1 / 2)
        = some (pairState 0 0) ∧
      exchangeSolutionFl roundF64 demoExpFl (pairState tinyTemp tinyTemp) 0 1 (1 / 2)
        = some (pairState tinyTemp tinyTemp) ∧
      (pairState 0 0).Tours[0]? ≠ (pairState 0 0).Tours[1]? ∧
      (pairState tinyTemp tinyTemp).Tours[0]? ≠ (pairState tinyTemp tinyTemp).Tours[1]? := by
  have key : ∀ T : ℚ, roundF64 (T * T) = FVal.fin 0 →
      exchangeSolutionFl roundF64 demoExpFl (pairState T T) 0 1 (1 / 2)
        = some (pairState T T) := by
    intro T hT
    have h := exchangeSolutionFl_eq_ite roundF64 demoExpFl (pairState T T) 0 1 (1 / 2)
      (FVal.fin T) (FVal.fin T) [0, 1, 2, 3] [0, 2, 1, 3] (FVal.fin smallCost) (FVal.fin 0)
      rfl rfl rfl rfl (pairState_costs T T).1 (pairState_costs T T).2
    rw [h, if_neg]
    rw [subR_self roundF64 roundF64_zero, subR_smallCost_zero,
      mulR_zero_left roundF64 roundF64_zero]
    have hneg : FVal.neg (FVal.fin (0 : ℚ)) = FVal.fin 0 := by simp [FVal.neg]
    have hprod : FVal.mulR roundF64 (FVal.fin T) (FVal.fin T) = FVal.fin 0 :=
      (mulR_fin roundF64 T T).trans hT
    rw [hneg, mulR_zero_left roundF64 roundF64_zero, hprod, divR_zero_zero]
    simp [FVal.lt, FVal.expR, FVal.le]
  refine ⟨rfl, rfl, ?_, by norm_num, by norm_num, by simp [demoExpFl, demoExp],
    key 0 (by rw [zero_mul, roundF64_zero]), key tinyTemp tinyTemp_sq_underflow,
    by decide, by decide⟩
  unfold tinyTemp
  positivity

/-- C10, amended. Two slots at the same finite temperature `temp`, tours whose costs
have a finite difference, a draw `p` in `[0, 1)`, in float64 arithmetic (any rounding
that leaves `0` alone, `exp(0) = 1`): the sign check `dT * dV < 0` is false; when the
computed product `Temperatures[next] * Temperatures[cur]` is not zero, `q = 1` and
`exchangeSolution` exchanges the two tours; when that product is zero, which it is for
`temp = 0` and for a `temp` so small that the product underflows, `q` is `NaN` and the
tours stay where they are. -/
theorem exchangeSolution_equal_temperatures (rnd : α → FVal α) (expFl : α → FVal α)
    (hrnd : rnd 0 = FVal.fin 0) (hexp : expFl 0 = FVal.fin 1)
    (t : TPSA α) (cur next : Nat) (p temp dv : α) (tourNext tourCur : List Nat)
    (vn vc : FVal α) (_hp0 : 0 ≤ p) (hp1 : p < 1)
    (hn : t.Temperatures[next]? = some (FVal.fin temp))
    (hc : t.Temperatures[cur]? = some (FVal.fin temp))
    (hN : t.Tours[next]? = some tourNext) (hC : t.Tours[cur]? = some tourCur)
    (hvn : getTotalCostFl rnd t tourNext = some vn)
    (hvc : getTotalCostFl rnd t tourCur = some vc)
    (hdv : FVal.subR rnd vn vc = FVal.fin dv) :
    FVal.lt
        (FVal.mulR rnd (FVal.subR rnd (FVal.fin temp) (FVal.fin temp)) (FVal.subR rnd vn vc))
        (FVal.fin 0) = false ∧
    (FVal.mulR rnd (FVal.fin temp) (FVal.fin temp) ≠ FVal.fin 0 →
      FVal.mulR rnd (FVal.fin temp) (FVal.fin temp) ≠ FVal.nan →
      FVal.expR expFl
          (FVal.divR rnd
            (FVal.mulR rnd (FVal.neg (FVal.subR rnd (FVal.fin temp) (FVal.fin temp)))
              (FVal.subR rnd vn vc))
            (FVal.mulR rnd (FVal.fin temp) (FVal.fin temp))) = FVal.fin 1 ∧
        exchangeSolutionFl rnd expFl t cur next p =
          some { t with Tours := (t.Tours.set next tourCur).set cur tourNext }) ∧
    (FVal.mulR rnd (FVal.fin temp) (FVal.fin temp) = FVal.fin 0 →
      FVal.expR expFl
          (FVal.divR rnd
            (FVal.mulR rnd (FVal.neg (FVal.subR rnd (FVal.fin temp) (FVal.fin temp)))
              (FVal.subR rnd vn vc))
            (FVal.mulR rnd (FVal.fin temp) (FVal.fin temp))) = FVal.nan ∧
        exchangeSolutionFl rnd expFl t cur next p = some t) := by
  have h := exchangeSolutionFl_eq_ite rnd expFl t cur next p (FVal.fin temp) (FVal.fin temp)
    tourNext tourCur vn vc hn hc hN hC hvn hvc
  have hnum : FVal.mulR rnd (FVal.neg (FVal.subR rnd (FVal.fin temp) (FVal.fin temp)))
      (FVal.subR rnd vn vc) = FVal.fin 0 := by
    rw [subR_self rnd hrnd, hdv]
    show FVal.mulR rnd (FVal.fin (-0)) (FVal.fin dv) = FVal.fin 0
    rw [neg_zero, mulR_zero_left rnd hrnd]
  have hsign : FVal.lt
      (FVal.mulR rnd (FVal.subR rnd (FVal.fin temp) (FVal.fin temp)) (FVal.subR rnd vn vc))
      (FVal.fin 0) = false := by
    rw [subR_self rnd hrnd, hdv, mulR_zero_left rnd hrnd]
    simp [FVal.lt]
  rw [hsign, hnum, Bool.false_or] at h
  rw [hnum]
  refine ⟨hsign, ?_, ?_⟩
  · intro h0 hnan
    rw [divR_zero_left rnd hrnd _ h0 hnan] at h ⊢
    have hq : FVal.expR expFl (FVal.fin 0) = FVal.fin 1 := hexp
    rw [hq] at h ⊢
    refine ⟨rfl, ?_⟩
    rw [h, if_pos]
    simp [FVal.le, le_of_lt hp1]
  · intro h0
    rw [h0, divR_zero_zero] at h ⊢
    refine ⟨rfl, ?_⟩
    rw [h, if_neg]
    simp [FVal.expR, FVal.le]

/-- C10, amended, in `pairState` with both slots at the temperature `1`, rounding to
`float64`: the tours are exchanged. -/
theorem exchangeSolution_equal_temperatures_witness :
    exchangeSolutionFl roundF64 demoExpFl (pairState 1 1) 0 1 (1 / 2) =
      some { pairState 1 1 with Tours := [[0, 1, 2, 3], [0, 2, 1, 3]] } := by
  have hprod : FVal.mulR roundF64 (FVal.fin (1 : ℚ)) (FVal.fin 1) = FVal.fin 1 := by
    rw [mulR_fin, mul_one, roundF64_one]
  have h := ((exchangeSolution_equal_temperatures roundF64 demoExpFl roundF64_zero
    (by simp [demoExpFl, demoExp]) (pairState 1 1) 0 1 (1 / 2) 1 smallCost
    [0, 1, 2, 3] [0, 2, 1, 3] (FVal.fin smallCost) (FVal.fin 0) (by norm_num) (by norm_num)
    rfl rfl rfl rfl (pairState_costs 1 1).1 (pairState_costs 1 1).2
    subR_smallCost_zero).2.1 (by rw [hprod]; simp) (by rw [hprod]; simp)).2
  rw [h]
  rfl

end C10
end Tpsa


namespace Tpsa
section C15
variable {α : Type} [LinearOrderedField α]

/-- C15, the claim as stated fails. In `pairState` rounded to `float64`, slot 1 is at
`2^(-600)` and slot 0 at `2^(-599)`, both positive, slot 1 is strictly colder and its tour
costs `2^(-500)`, strictly more than the `0` of the tour of slot 0; yet with the draw
`1/2` `exchangeSolution` leaves the tours where they are: `dT * dV` underflows to zero,
which is not negative, the product of the temperatures underflows to zero as well, and
`q` is the exponential of `0 / 0`, a `NaN`. -/
theorem exchangeSolution_toward_colder_counterexample :
    (pairState hotTemp tinyTemp).Temperatures[1]? = some (FVal.fin tinyTemp) ∧
      (pairState hotTemp tinyTemp).Temperatures[0]? = some (FVal.fin hotTemp) ∧
      0 < tinyTemp ∧ tinyTemp < hotTemp ∧
      getTotalCostFl roundF64 (pairState hotTemp tinyTemp) [0, 1, 2, 3]
        = some (FVal.fin smallCost) ∧
      getTotalCostFl roundF64 (pairState hotTemp tinyTemp) [0, 2, 1, 3]
        = some (FVal.fin 0) ∧
      0 < smallCost ∧
      exchangeSolutionFl roundF64 demoExpFl (pairState hotTemp tinyTemp) 0 1 (1 / 2)
        = some (pairState hotTemp tinyTemp) ∧
      (pairState hotTemp tinyTemp).Tours[1]? = some [0, 1, 2, 3] ∧
      (pairState hotTemp tinyTemp).Tours[0]? = some [0, 2, 1, 3] := by
  refine ⟨rfl, rfl, tinyTemp_pos, tinyTemp_lt_hotTemp, (pairState_costs _ _).1,
    (pairState_costs _ _).2, smallCost_pos, ?_, rfl, rfl⟩
  have h := exchangeSolutionFl_eq_ite roundF64 demoExpFl (pairState hotTemp tinyTemp) 0 1
    (1 / 2) (FVal.fin tinyTemp) (FVal.fin hotTemp) [0, 1, 2, 3] [0, 2, 1, 3]
    (FVal.fin smallCost) (FVal.fin 0) rfl rfl rfl rfl (pairState_costs _ _).1
    (pairState_costs _ _).2
  rw [h, if_neg]
  rw [subR_tiny_hot, subR_smallCost_zero]
  have hneg : FVal.neg (FVal.fin (-tinyTemp)) = FVal.fin tinyTemp := by simp [FVal.neg]
  have h1 : FVal.mulR roundF64 (FVal.fin (-tinyTemp)) (FVal.fin smallCost) = FVal.fin 0 :=
    (mulR_fin roundF64 _ _).trans tiny_products_underflow.1
  have h2 : FVal.mulR roundF64 (FVal.fin tinyTemp) (FVal.fin smallCost) = FVal.fin 0 :=
    (mulR_fin roundF64 _ _).trans tiny_products_underflow.2.1
  have h3 : FVal.mulR roundF64 (FVal.fin tinyTemp) (FVal.fin hotTemp) = FVal.fin 0 :=
    (mulR_fin roundF64 _ _).trans tiny_products_underflow.2.2
  rw [hneg, h1, h2, h3, divR_zero_zero]
  simp [FVal.lt, FVal.expR, FVal.le]

/-- C15, amended. Two slots with positive temperatures, `next` strictly colder than
`cur`, tours with finite costs, in float64 arithmetic (any rounding that keeps the sign
of its argument, an exponential that is at most `1` on arguments that are not positive).
If the tour of `next` costs strictly more than the tour of `cur` and the computed product
`dT * dV` is neither zero nor `NaN` (it has not underflowed), `exchangeSolution` exchanges
the tours for every draw `p`, and afterwards the colder slot holds the cheaper tour. If
the tour of `next` costs no more than the tour of `cur`, the tours are exchanged exactly
when `p <= q`, and this happens only with `q <= 1`, where
`q = exp(-dT * dV / (T[next] * T[cur]))` is `NaN` or at most `1`. -/
theorem exchangeSolution_toward_colder (rnd : α → FVal α) (expFl : α → FVal α)
    (hnn : ∀ x, 0 ≤ x → FVal.le (FVal.fin 0) (rnd x) = true)
    (hnp : ∀ x, x ≤ 0 → FVal.le (rnd x) (FVal.fin 0) = true)
    (hexp : ∀ x, x ≤ 0 → FVal.le (expFl x) (FVal.fin 1) = true)
    (t : TPSA α) (cur next : Nat) (p tn tc : α) (tourNext tourCur : List Nat) (vn vc : α)
    (hn : t.Temperatures[next]? = some (FVal.fin tn))
    (hc : t.Temperatures[cur]? = some (FVal.fin tc))
    (hpn : 0 < tn) (hpc : 0 < tc) (hcold : tn < tc)
    (hN : t.Tours[next]? = some tourNext) (hC : t.Tours[cur]? = some tourCur)
    (hvn : getTotalCostFl rnd t tourNext = some (FVal.fin vn))
    (hvc : getTotalCostFl rnd t tourCur = some (FVal.fin vc)) :
    (vc < vn →
      FVal.mulR rnd (FVal.subR rnd (FVal.fin tn) (FVal.fin tc))
        (FVal.subR rnd (FVal.fin vn) (FVal.fin vc)) ≠ FVal.fin 0 →
      FVal.mulR rnd (FVal.subR rnd (FVal.fin tn) (FVal.fin tc))
        (FVal.subR rnd (FVal.fin vn) (FVal.fin vc)) ≠ FVal.nan →
      ∃ t', exchangeSolutionFl rnd expFl t cur next p = some t' ∧
        t' = { t with Tours := (t.Tours.set next tourCur).set cur tourNext } ∧
        t'.Tours[next]? = some tourCur ∧ t'.Tours[cur]? = some tourNext ∧
        getTotalCostFl rnd t' tourCur = some (FVal.fin vc)) ∧
    (vn ≤ vc →
      (FVal.expR expFl
          (FVal.divR rnd
            (FVal.mulR rnd (FVal.neg (FVal.subR rnd (FVal.fin tn) (FVal.fin tc)))
              (FVal.subR rnd (FVal.fin vn) (FVal.fin vc)))
            (FVal.mulR rnd (FVal.fin tn) (FVal.fin tc))) = FVal.nan ∨
        FVal.le
          (FVal.expR expFl
            (FVal.divR rnd
              (FVal.mulR rnd (FVal.neg (FVal.subR rnd (FVal.fin tn) (FVal.fin tc)))
                (FVal.subR rnd (FVal.fin vn) (FVal.fin vc)))
              (FVal.mulR rnd (FVal.fin tn) (FVal.fin tc)))) (FVal.fin 1) = true) ∧
      exchangeSolutionFl rnd expFl t cur next p =
        some (if FVal.le (FVal.fin p)
            (FVal.expR expFl
              (FVal.divR rnd
                (FVal.mulR rnd (FVal.neg (FVal.subR rnd (FVal.fin tn) (FVal.fin tc)))
                  (FVal.subR rnd (FVal.fin vn) (FVal.fin vc)))
                (FVal.mulR rnd (FVal.fin tn) (FVal.fin tc)))) = true
          then { t with Tours := (t.Tours.set next tourCur).set cur tourNext }
          else t)) := by
  have h := exchangeSolutionFl_eq_ite rnd expFl t cur next p (FVal.fin tn) (FVal.fin tc)
    tourNext tourCur (FVal.fin vn) (FVal.fin vc) hn hc hN hC hvn hvc
  have hdT : FVal.le (FVal.subR rnd (FVal.fin tn) (FVal.fin tc)) (FVal.fin 0) = true :=
    hnp _ (by linarith)
  constructor
  · intro hv h0 hnan
    have hdV : FVal.le (FVal.fin 0) (FVal.subR rnd (FVal.fin vn) (FVal.fin vc)) = true :=
      hnn _ (by linarith)
    have hlt : FVal.lt (FVal.mulR rnd (FVal.subR rnd (FVal.fin tn) (FVal.fin tc))
        (FVal.subR rnd (FVal.fin vn) (FVal.fin vc))) (FVal.fin 0) = true := by
      rcases mulR_nonpos_nonneg rnd hnp _ _ hdT hdV with e | e
      · exact absurd e hnan
      · rcases le_zero_cases _ e with e' | ⟨x, e', hx⟩
        · rw [e']; rfl
        · rw [e'] at h0 ⊢
          have hx0 : x ≠ 0 := fun e0 => h0 (by rw [e0])
          simpa [FVal.lt] using lt_of_le_of_ne hx hx0
    rw [hlt, Bool.true_or, if_pos rfl] at h
    have hcurlt : cur < t.Tours.length := (List.getElem?_eq_some_iff.mp hC).1
    have hnextlt : next < t.Tours.length := (List.getElem?_eq_some_iff.mp hN).1
    have hcn : cur ≠ next := by
      intro e
      rw [e, hn] at hc
      have : tn = tc := by
        have := Option.some.inj hc
        cases this
        rfl
      linarith
    refine ⟨_, h, rfl, ?_, ?_, ?_⟩
    · show ((t.Tours.set next tourCur).set cur tourNext)[next]? = some tourCur
      rw [List.getElem?_set_ne hcn, List.getElem?_set_self hnextlt]
    · show ((t.Tours.set next tourCur).set cur tourNext)[cur]? = some tourNext
      rw [List.getElem?_set_self (by rw [List.length_set]; exact hcurlt)]
    · exact hvc
  · intro hv
    have hdV : FVal.le (FVal.subR rnd (FVal.fin vn) (FVal.fin vc)) (FVal.fin 0) = true :=
      hnp _ (by linarith)
    have hsign : FVal.lt (FVal.mulR rnd (FVal.subR rnd (FVal.fin tn) (FVal.fin tc))
        (FVal.subR rnd (FVal.fin vn) (FVal.fin vc))) (FVal.fin 0) = false := by
      rcases mulR_nonpos_nonpos rnd hnn _ _ hdT hdV with e | e
      · rw [e]; rfl
      · rcases zero_le_cases _ e with e' | ⟨x, e', hx⟩
        · rw [e']; rfl
        · rw [e']
          simpa [FVal.lt] using hx
    have hden : FVal.le (FVal.fin 0) (FVal.mulR rnd (FVal.fin tn) (FVal.fin tc)) = true :=
      hnn _ (le_of_lt (mul_pos hpn hpc))
    have hq : FVal.expR expFl
          (FVal.divR rnd
            (FVal.mulR rnd (FVal.neg (FVal.subR rnd (FVal.fin tn) (FVal.fin tc)))
              (FVal.subR rnd (FVal.fin vn) (FVal.fin vc)))
            (FVal.mulR rnd (FVal.fin tn) (FVal.fin tc))) = FVal.nan ∨
        FVal.le
          (FVal.expR expFl
            (FVal.divR rnd
              (FVal.mulR rnd (FVal.neg (FVal.subR rnd (FVal.fin tn) (FVal.fin tc)))
                (FVal.subR rnd (FVal.fin vn) (FVal.fin vc)))
              (FVal.mulR rnd (FVal.fin tn) (FVal.fin tc)))) (FVal.fin 1) = true := by
      rcases mulR_nonneg_nonpos rnd hnp _ _ (neg_nonneg_of_nonpos _ hdT) hdV with e | e
      · left
        rw [e]
        cases FVal.mulR rnd (FVal.fin tn) (FVal.fin tc) <;> rfl
      · rcases divR_nonpos_nonneg rnd hnp _ _ e hden with e2 | e2
        · left; rw [e2]; rfl
        · right; exact expR_le_one expFl hexp _ e2
    refine ⟨hq, ?_⟩
    rw [h, hsign, Bool.false_or]

/-- C15, amended, in `pairState` with slot 0 at `2` and slot 1 at `1`, rounded to
`float64`: the colder slot 1 holds the costlier tour, and after the exchange it holds the
tour of cost `0`. -/
theorem exchangeSolution_toward_colder_witness :
    ∃ t', exchangeSolutionFl roundF64 demoExpFl (pairState 2 1) 0 1 (9 / 10) = some t' ∧
      t'.Tours[1]? = some [0, 2, 1, 3] ∧ t'.Tours[0]? = some [0, 1, 2, 3] := by
  have hdT : FVal.subR roundF64 (FVal.fin (1 : ℚ)) (FVal.fin 2) = FVal.fin (-1) := by
    have e : (1 : ℚ) + -2 = -(2 ^ (0 : ℤ)) := by norm_num
    simp only [FVal.subR, FVal.neg, FVal.addR, e]
    have := roundF64_neg_two_zpow 0 (by norm_num) (by norm_num)
    simpa using this
  have hprod : FVal.mulR roundF64 (FVal.fin (-1 : ℚ)) (FVal.fin smallCost)
      = FVal.fin (-smallCost) := by
    rw [mulR_fin, neg_one_mul]
    exact roundF64_neg_two_zpow (-500) (by norm_num) (by norm_num)
  have hne : -smallCost ≠ 0 := by
    have := smallCost_pos
    linarith [this]
  obtain ⟨t', h1, _, h3, h4, _⟩ := (exchangeSolution_toward_colder roundF64 demoExpFl
    roundF64_nonneg roundF64_nonpos
    (fun x hx => by simpa [demoExpFl, FVal.le] using demoExp_le_one x hx)
    (pairState 2 1) 0 1 (9 / 10) 1 2 [0, 1, 2, 3] [0, 2, 1, 3] smallCost 0 rfl rfl
    (by norm_num) (by norm_num) (by norm_num) rfl rfl
    (pairState_costs 2 1).1 (pairState_costs 2 1).2).1 smallCost_pos
    (by rw [hdT, subR_smallCost_zero, hprod]; simpa using hne)
    (by rw [hdT, subR_smallCost_zero, hprod]; simp)
  exact ⟨t', h1, h3, h4⟩

end C15
end Tpsa


namespace Tpsa
section C18
variable {α : Type} [LinearOrderedField α]

theorem forLoop_succ {σ : Type} (body : Nat → σ → Option σ) (r i : Nat) (s : σ) :
    forLoop body (r + 1) i s = (body i s).bind (forLoop body r (i + 1)) := rfl

/-- The last iteration of a loop can be split off. -/
theorem forLoop_succ_last {σ : Type} (body : Nat → σ → Option σ) :
    ∀ (r i : Nat) (s : σ),
      forLoop body (r + 1) i s = (forLoop body r i s).bind (body (i + r)) := by
  intro r
  induction r with
  | zero =>
    intro i s
    show (body i s).bind some = body (i + 0) s
    rw [Nat.add_zero, Option.bind_some]
  | succ r ih =>
    intro i s
    rw [forLoop_succ, forLoop_succ body r i s]
    cases h : body i s with
    | none => rfl
    | some s1 =>
      simp only [Option.some_bind]
      rw [ih (i + 1) s1]
      have e : i + 1 + r = i + (r + 1) := by omega
      rw [e]

/-- With at least three cities a pass of `sa` runs the steps at `(0, 2), ..., (0, n-2)`,
then the step at `(0, n-1)`, then the rows `i = 1, ..., n-3`. -/
theorem saPassFl_first_row (rnd : α → FVal α) (expFl : α → FVal α) (k n : Nat)
    (draws : Nat → α) (hn : 3 ≤ n) (s : TPSA α × Nat) :
    saPassFl rnd expFl k n draws s =
      ((forLoop (fun j u =>
            (saStepFl rnd expFl u.1 k 0 j (draws u.2)).map (fun w => (w, u.2 + 1)))
            (n - 3) 2 s).bind
          (fun u => (saStepFl rnd expFl u.1 k 0 (n - 1) (draws u.2)).map
            (fun w => (w, u.2 + 1)))).bind
        (forLoop (fun i =>
          forLoop (fun j u =>
            (saStepFl rnd expFl u.1 k i j (draws u.2)).map (fun w => (w, u.2 + 1)))
            (n - (i + 2)) (i + 2)) (n - 3) 1) := by
  obtain ⟨m, rfl⟩ : ∃ m, n = m + 3 := ⟨n - 3, by omega⟩
  have e1 : m + 3 - 2 = m + 1 := by omega
  have e2 : m + 3 - 3 = m := by omega
  have e3 : m + 3 - 1 = 2 + m := by omega
  have e4 : m + 3 - (0 + 2) = m + 1 := by omega
  unfold saPassFl
  rw [e1, e2, e3, forLoop_succ]
  simp only [e4, Nat.zero_add]
  rw [forLoop_succ_last]

/-- The step of `sa` in float64 arithmetic on a slot that holds a tour and a temperature,
with the four costs that it reads. -/
theorem saStepFl_eq_ite (rnd : α → FVal α) (expFl : α → FVal α) (t : TPSA α)
    (k i j : Nat) (p : α) (tour : List Nat) (c1 c2 n1 n2 : α) (temp : FVal α)
    (htour : t.Tours[k]? = some tour) (e1 : getCost t tour i (i + 1) = some c1)
    (e2 : getCost t tour j (j + 1) = some c2) (e3 : getCost t tour i j = some n1)
    (e4 : getCost t tour (i + 1) (j + 1) = some n2)
    (htemp : t.Temperatures[k]? = some temp) :
    saStepFl rnd expFl t k i j p =
      if (FVal.lt (FVal.addR rnd (FVal.fin n1) (FVal.fin n2))
            (FVal.addR rnd (FVal.fin c1) (FVal.fin c2)) ||
          FVal.le (FVal.fin p)
            (exchangeFl rnd expFl
              (FVal.subR rnd (FVal.addR rnd (FVal.fin n1) (FVal.fin n2))
                (FVal.addR rnd (FVal.fin c1) (FVal.fin c2)))
              temp)) = true
      then forLoop (fun m s => flip s k (i + 1 + m) (j - m)) ((j - i) / 2) 0 t
      else some t := by
  simp only [saStepFl, Option.bind_eq_bind, htour, Option.some_bind, e1, e2, e3, e4, htemp]

/-- When `current` and `next` are the same `float64` and it is not finite, their
difference is `NaN` and the test of the step fails. -/
theorem step_test_of_not_finite (rnd : α → FVal α) (expFl : α → FVal α) (cur temp : FVal α)
    (p : α) (hcur : ∀ s, cur ≠ FVal.fin s) :
    (FVal.lt cur cur ||
      FVal.le (FVal.fin p) (exchangeFl rnd expFl (FVal.subR rnd cur cur) temp)) = false := by
  cases cur with
  | fin s => exact absurd rfl (hcur s)
  | pinf => cases temp <;> simp [FVal.lt, FVal.subR, FVal.addR, FVal.neg, FVal.add,
      exchangeFl, FVal.divR, FVal.div, FVal.expR, FVal.le]
  | ninf => cases temp <;> simp [FVal.lt, FVal.subR, FVal.addR, FVal.neg, FVal.add,
      exchangeFl, FVal.divR, FVal.div, FVal.expR, FVal.le]
  | nan => cases temp <;> simp [FVal.lt, FVal.subR, FVal.addR, FVal.neg, FVal.add,
      exchangeFl, FVal.divR, FVal.div, FVal.expR, FVal.le]

theorem hugeCost_double : hugeCost + hugeCost = 2 ^ (1024 : ℤ) := by
  unfold hugeCost
  rw [show (1024 : ℤ) = 1 + 1023 by norm_num, zpow_add₀ (by norm_num : (2 : ℚ) ≠ 0),
    zpow_one, two_mul]

theorem hugeCost_double_pos : 0 < hugeCost + hugeCost := by
  rw [hugeCost_double]
  positivity

/-- The sum of two distances of `2^1023` is beyond the largest `float64`. -/
theorem roundF64_huge_sum : roundF64 (hugeCost + hugeCost) = FVal.pinf := by
  have h2 : (2 : ℚ) ^ (1024 : ℤ) ≤ |hugeCost + hugeCost| := by
    rw [hugeCost_double, abs_of_pos (by positivity)]
  exact (roundF64_overflow (hugeCost + hugeCost) h2).trans (if_pos hugeCost_double_pos)

/-- C18, the claim as stated fails. In `triFl hugeCost` the matrix is symmetric with the
entries `2^1023`, the temperature `2` is not zero and the draw `1/2` is in `[0, 1)`; at
the pair `(0, 2)`, rounded to `float64`, `current` and `next` are both `+Inf`, their
difference is `NaN`, and the step returns the state as it was, the tour `0,1,2` not
reversed at the positions `1..2`. -/
theorem saStep_first_last_pair_counterexample :
    (triFl hugeCost).Matrix
        = [[0, hugeCost, hugeCost], [hugeCost, 0, hugeCost], [hugeCost, hugeCost, 0]] ∧
      (triFl hugeCost).Temperatures[0]? = some (FVal.fin 2) ∧
      (triFl hugeCost).Tours[0]? = some [0, 1, 2] ∧
      (0 : ℚ) ≤ 1 / 2 ∧ (1 / 2 : ℚ) < 1 ∧ demoExpFl 0 = FVal.fin 1 ∧
      FVal.addR roundF64 (FVal.fin hugeCost) (FVal.fin hugeCost) = FVal.pinf ∧
      FVal.subR roundF64 (FVal.pinf : FVal ℚ) FVal.pinf = FVal.nan ∧
      saStepFl roundF64 demoExpFl (triFl hugeCost) 0 0 2 (1 / 2) = some (triFl hugeCost) := by
  have hsum : FVal.addR roundF64 (FVal.fin hugeCost) (FVal.fin hugeCost) = FVal.pinf :=
    (addR_fin roundF64 hugeCost hugeCost).trans roundF64_huge_sum
  refine ⟨rfl, rfl, rfl, by norm_num, by norm_num, by simp [demoExpFl, demoExp], hsum, rfl,
    ?_⟩
  have g1 : getCost (triFl hugeCost) [0, 1, 2] 0 (0 + 1) = some hugeCost := by
    simp [getCost, triFl]
  have g2 : getCost (triFl hugeCost) [0, 1, 2] 2 (2 + 1) = some hugeCost := by
    simp [getCost, triFl]
  have g3 : getCost (triFl hugeCost) [0, 1, 2] 0 2 = some hugeCost := by
    simp [getCost, triFl]
  have g4 : getCost (triFl hugeCost) [0, 1, 2] (0 + 1) (2 + 1) = some hugeCost := by
    simp [getCost, triFl]
  rw [saStepFl_eq_ite roundF64 demoExpFl (triFl hugeCost) 0 0 2 (1 / 2) [0, 1, 2]
    hugeCost hugeCost hugeCost hugeCost (FVal.fin 2) rfl g1 g2 g3 g4 rfl, hsum,
    step_test_of_not_finite roundF64 demoExpFl FVal.pinf (FVal.fin 2) (1 / 2)
      (fun s h => by cases h)]
  rfl

/-- C18, amended. For a symmetric `Size x Size` matrix of finite entries, a tour of
`Size >= 3` entries below `Size`, a temperature that is neither zero nor `NaN`, and a draw
`p` in `[0, 1)`, in float64 arithmetic (any rounding that leaves `0` alone, `exp(0) = 1`):
at the pair `(0, n-1)` the costs that `sa` reads are `cost(tour[0], tour[1])`,
`cost(tour[n-1], tour[0])`, `cost(tour[0], tour[n-1])` and `cost(tour[1], tour[0])`, and
`next` is the same `float64` as `current`. When this sum is finite, `next - current` is
zero, `exp(-(next - current) / temperature)` is `1`, and the step reverses the positions
`1..n-1` whatever the draw; when it is not finite (the sum has overflowed) the step
returns the state as it was. Every pass of `sa` runs the step at that pair. -/
theorem saStep_first_last_pair (rnd : α → FVal α) (expFl : α → FVal α)
    (hrnd : rnd 0 = FVal.fin 0) (hexp : expFl 0 = FVal.fin 1) (t : TPSA α) (k : Nat)
    (p : α) (temp : FVal α) (tour : List Nat) (hM : SquareMatrix t)
    (hsym : ∀ a b, a < t.Size → b < t.Size → cost t a b = cost t b a)
    (htour : t.Tours[k]? = some tour) (hlen : tour.length = t.Size)
    (hlt : ∀ x ∈ tour, x < t.Size) (htemp : t.Temperatures[k]? = some temp)
    (hT : temp ≠ FVal.fin 0) (hTnan : temp ≠ FVal.nan) (hn : 3 ≤ t.Size) (_hp0 : 0 ≤ p)
    (hp1 : p < 1) :
    (∃ c1 c2 n1 n2 : α,
      getCost t tour 0 (0 + 1) = some c1 ∧
      getCost t tour (t.Size - 1) (t.Size - 1 + 1) = some c2 ∧
      getCost t tour 0 (t.Size - 1) = some n1 ∧
      getCost t tour (0 + 1) (t.Size - 1 + 1) = some n2 ∧
      c1 = cost t (tour.getD 0 0) (tour.getD 1 0) ∧
      c2 = cost t (tour.getD (t.Size - 1) 0) (tour.getD 0 0) ∧
      n1 = cost t (tour.getD 0 0) (tour.getD (t.Size - 1) 0) ∧
      n2 = cost t (tour.getD 1 0) (tour.getD 0 0) ∧
      FVal.addR rnd (FVal.fin n1) (FVal.fin n2) = FVal.addR rnd (FVal.fin c1) (FVal.fin c2) ∧
      (∀ s, FVal.addR rnd (FVal.fin c1) (FVal.fin c2) = FVal.fin s →
        FVal.subR rnd (FVal.addR rnd (FVal.fin n1) (FVal.fin n2))
            (FVal.addR rnd (FVal.fin c1) (FVal.fin c2)) = FVal.fin 0 ∧
          exchangeFl rnd expFl (FVal.fin 0) temp = FVal.fin 1 ∧
          ∃ tour', saStepFl rnd expFl t k 0 (t.Size - 1) p = some (withTour t k tour') ∧
            tour'.length = t.Size ∧ tour'[0]? = tour[0]? ∧
            ∀ m, m < t.Size - 1 → tour'[1 + m]? = tour[t.Size - 1 - m]?) ∧
      ((∀ s, FVal.addR rnd (FVal.fin c1) (FVal.fin c2) ≠ FVal.fin s) →
        saStepFl rnd expFl t k 0 (t.Size - 1) p = some t)) ∧
    (∀ (draws : Nat → α) (s : TPSA α × Nat),
      saPassFl rnd expFl k t.Size draws s =
        ((forLoop (fun j u =>
              (saStepFl rnd expFl u.1 k 0 j (draws u.2)).map (fun w => (w, u.2 + 1)))
              (t.Size - 3) 2 s).bind
            (fun u => (saStepFl rnd expFl u.1 k 0 (t.Size - 1) (draws u.2)).map
              (fun w => (w, u.2 + 1)))).bind
          (forLoop (fun i =>
            forLoop (fun j u =>
              (saStepFl rnd expFl u.1 k i j (draws u.2)).map (fun w => (w, u.2 + 1)))
              (t.Size - (i + 2)) (i + 2)) (t.Size - 3) 1)) := by
  have hk : k < t.Tours.length := (List.getElem?_eq_some_iff.mp htour).1
  have hpos : 0 < t.Size := by omega
  have hlast : t.Size - 1 + 1 = t.Size := by omega
  have e1 := getCost_eq t tour 0 (0 + 1) hM hlen hlt hpos
  have e2 := getCost_eq t tour (t.Size - 1) (t.Size - 1 + 1) hM hlen hlt hpos
  have e3 := getCost_eq t tour 0 (t.Size - 1) hM hlen hlt hpos
  have e4 := getCost_eq t tour (0 + 1) (t.Size - 1 + 1) hM hlen hlt hpos
  rw [Nat.zero_mod, Nat.zero_add, Nat.mod_eq_of_lt (by omega : 1 < t.Size)] at e1
  rw [hlast, Nat.mod_self, Nat.mod_eq_of_lt (by omega : t.Size - 1 < t.Size)] at e2
  rw [Nat.zero_mod, Nat.mod_eq_of_lt (by omega : t.Size - 1 < t.Size)] at e3
  rw [hlast, Nat.mod_self, Nat.zero_add, Nat.mod_eq_of_lt (by omega : 1 < t.Size)] at e4
  have hsum : cost t (tour.getD 0 0) (tour.getD (t.Size - 1) 0)
        + cost t (tour.getD 1 0) (tour.getD 0 0)
      = cost t (tour.getD 0 0) (tour.getD 1 0)
        + cost t (tour.getD (t.Size - 1) 0) (tour.getD 0 0) := by
    rw [cost_symm t hM hsym (tour.getD 0 0) (tour.getD (t.Size - 1) 0),
      cost_symm t hM hsym (tour.getD 1 0) (tour.getD 0 0)]
    ring
  have hnext : FVal.addR rnd (FVal.fin (cost t (tour.getD 0 0) (tour.getD (t.Size - 1) 0)))
        (FVal.fin (cost t (tour.getD 1 0) (tour.getD 0 0)))
      = FVal.addR rnd (FVal.fin (cost t (tour.getD 0 0) (tour.getD 1 0)))
        (FVal.fin (cost t (tour.getD (t.Size - 1) 0) (tour.getD 0 0))) := by
    rw [addR_fin, addR_fin, hsum]
  have hq : exchangeFl rnd expFl (FVal.fin 0) temp = FVal.fin 1 := by
    unfold exchangeFl
    have hneg : FVal.neg (FVal.fin (0 : α)) = FVal.fin 0 := by simp [FVal.neg]
    rw [hneg, divR_zero_left rnd hrnd temp hT hTnan]
    exact hexp
  have e1' : getCost t tour 0 (0 + 1)
      = some (cost t (tour.getD 0 0) (tour.getD 1 0)) := by
    rw [Nat.zero_add]; exact e1
  have e2' : getCost t tour (t.Size - 1) (t.Size - 1 + 1)
      = some (cost t (tour.getD (t.Size - 1) 0) (tour.getD 0 0)) := by
    rw [hlast]; exact e2
  have e4' : getCost t tour (0 + 1) (t.Size - 1 + 1)
      = some (cost t (tour.getD 1 0) (tour.getD 0 0)) := by
    rw [hlast, Nat.zero_add]; exact e4
  have hstep := saStepFl_eq_ite rnd expFl t k 0 (t.Size - 1) p tour _ _ _ _ temp htour
    e1' e2' e3 e4' htemp
  rw [hnext] at hstep
  refine ⟨⟨_, _, _, _, e1', e2', e3, e4', rfl, rfl, rfl, rfl, hnext, ?_, ?_⟩,
    fun draws s => saPassFl_first_row rnd expFl k t.Size draws hn s⟩
  · intro s hs
    have hsub : FVal.subR rnd (FVal.fin s) (FVal.fin s) = FVal.fin 0 := subR_self rnd hrnd s
    rw [hnext, hs, hsub]
    refine ⟨rfl, hq, ?_⟩
    obtain ⟨tour', h1, h2, h3⟩ := flipLoop_eq t k 0 (t.Size - 1) tour hk (by omega)
    rw [withTour_self t k tour htour] at h1
    refine ⟨tour', ?_, by omega, ?_, ?_⟩
    · rw [hstep, hs, hsub, hq, if_pos]
      · exact h1
      · simp [FVal.lt, FVal.le, le_of_lt hp1]
    · rw [h3, if_neg (by omega)]
    · intro m hm
      rw [h3, if_pos (by omega)]
      congr 1; omega
  · intro hs
    rw [hstep, step_test_of_not_finite rnd expFl _ temp p hs]
    rfl

/-- C18, amended, in `triFl 1`, rounded to `float64`: `current` is `1 + 1 = 2`, finite,
and the step at the pair `(0, 2)` with the draw `9/10` returns the tour with its positions
`1..2` reversed. -/
theorem saStep_first_last_pair_witness :
    ∃ tour', saStepFl roundF64 demoExpFl (triFl 1) 0 0 2 (9 / 10)
        = some (withTour (triFl 1) 0 tour') ∧
      tour'[1]? = some 2 ∧ tour'[2]? = some 1 := by
  obtain ⟨c1, c2, n1, n2, _, _, _, _, g1, g2, _, _, _, hfin, _⟩ :=
    (saStep_first_last_pair roundF64 demoExpFl roundF64_zero
      (by simp [demoExpFl, demoExp]) (triFl 1) 0 (9 / 10) (FVal.fin 2) [0, 1, 2]
      (by unfold SquareMatrix; decide)
      (by
        intro a b ha hb
        have ha' : a < 3 := ha
        have hb' : b < 3 := hb
        interval_cases a <;> interval_cases b <;> rfl)
      rfl rfl (by decide) rfl (by simp) (by simp) (by decide) (by norm_num)
      (by norm_num)).1
  have hc1 : c1 = 1 := by rw [g1]; simp [cost, triFl]
  have hc2 : c2 = 1 := by rw [g2]; simp [cost, triFl]
  subst hc1 hc2
  have hcur : FVal.addR roundF64 (FVal.fin (1 : ℚ)) (FVal.fin 1) = FVal.fin 2 := by
    have e : (1 : ℚ) + 1 = 2 ^ (1 : ℤ) := by norm_num
    rw [addR_fin, e, roundF64_two_zpow 1 (by norm_num) (by norm_num)]
    norm_num
  obtain ⟨_, _, tour', h1, _, _, h4⟩ := hfin 2 hcur
  exact ⟨tour', h1, h4 0 (by decide), h4 1 (by decide)⟩

end C18
end Tpsa


/-! ## The ladder in float64 arithmetic -/

namespace Tpsa
section FrameFl
variable {α : Type} [LinearOrderedField α]

/-- Whenever the step of `sa` in float64 arithmetic returns, the ladder and the
configuration are as before. -/
theorem saStepFl_temperatures (rnd : α → FVal α) (expFl : α → FVal α) (t t' : TPSA α)
    (k i j : Nat) (p : α) (h : saStepFl rnd expFl t k i j p = some t') :
    t'.Temperatures = t.Temperatures ∧ t'.toTPSAConfig = t.toTPSAConfig := by
  simp only [saStepFl, Option.bind_eq_bind, Option.bind_eq_some] at h
  obtain ⟨tour, _, c1, _, c2, _, n1, _, n2, _, temp, _, h⟩ := h
  split at h
  · have := forLoop_inv
      (fun _ (u : TPSA α) =>
        u.Temperatures = t.Temperatures ∧ u.toTPSAConfig = t.toTPSAConfig)
      (fun m s => flip s k (i + 1 + m) (j - m)) ((j - i) / 2) 0 t t' ⟨rfl, rfl⟩
      (by
        intro m u u' _ _ hu hb
        obtain ⟨x, a, b, _, _, _, rfl⟩ := flip_eq_some u u' k _ _ hb
        exact hu) h
    exact this
  · cases h
    exact ⟨rfl, rfl⟩

theorem saFl_temperatures (rnd : α → FVal α) (expFl : α → FVal α) (t t' : TPSA α)
    (k : Nat) (draws : Nat → α) (h : saFl rnd expFl t k draws = some t') :
    t'.Temperatures = t.Temperatures ∧ t'.toTPSAConfig = t.toTPSAConfig := by
  simp only [saFl, Option.map_eq_some'] at h
  obtain ⟨s', hs', rfl⟩ := h
  refine forLoop_inv
    (fun _ (u : TPSA α × Nat) =>
      u.1.Temperatures = t.Temperatures ∧ u.1.toTPSAConfig = t.toTPSAConfig)
    _ t.Period.toNat 0 (t, 0) s' ⟨rfl, rfl⟩ ?_ hs'
  intro _ u u' _ _ hu hb
  refine forLoop_inv
    (fun _ (v : TPSA α × Nat) =>
      v.1.Temperatures = t.Temperatures ∧ v.1.toTPSAConfig = t.toTPSAConfig)
    _ (t.Size - 2) 0 u u' hu ?_ hb
  intro i v v' _ _ hv hbv
  refine forLoop_inv
    (fun _ (w : TPSA α × Nat) =>
      w.1.Temperatures = t.Temperatures ∧ w.1.toTPSAConfig = t.toTPSAConfig)
    _ (t.Size - (i + 2)) (i + 2) v v' hv ?_ hbv
  intro j w w' _ _ hw hbw
  simp only [Option.map_eq_some'] at hbw
  obtain ⟨x, hx, rfl⟩ := hbw
  have := saStepFl_temperatures rnd expFl w.1 x k i j _ hx
  exact ⟨this.1.trans hw.1, this.2.trans hw.2⟩

theorem exchangeSolutionFl_temperatures (rnd : α → FVal α) (expFl : α → FVal α)
    (t t' : TPSA α) (cur next : Nat) (p : α)
    (h : exchangeSolutionFl rnd expFl t cur next p = some t') :
    t'.Temperatures = t.Temperatures ∧ t'.toTPSAConfig = t.toTPSAConfig := by
  simp only [exchangeSolutionFl, Option.bind_eq_bind, Option.bind_eq_some] at h
  obtain ⟨tn, _, tc, _, tourNext, _, vn, _, tourCur, _, vc, _, h⟩ := h
  split at h <;> cases h <;> exact ⟨rfl, rfl⟩

theorem exchangeSolutionsFl_temperatures (rnd : α → FVal α) (expFl : α → FVal α)
    (draws : Nat → α) (count : Int) (s s' : TPSA α × Nat)
    (h : exchangeSolutionsFl rnd expFl draws count s = some s') :
    s'.1.Temperatures = s.1.Temperatures ∧ s'.1.toTPSAConfig = s.1.toTPSAConfig := by
  have key : ∀ i0 : Nat, stepLoop (fun i u =>
      (exchangeSolutionFl rnd expFl u.1 i (i + 1) (draws u.2)).map (fun t => (t, u.2 + 1)))
      (wrapInt (s.1.Thread - 1)) i0 s = some s' →
      s'.1.Temperatures = s.1.Temperatures ∧ s'.1.toTPSAConfig = s.1.toTPSAConfig := by
    intro i0 hl
    refine stepLoop_inv
      (fun u => u.1.Temperatures = s.1.Temperatures ∧ u.1.toTPSAConfig = s.1.toTPSAConfig)
      _ _ _ i0 s s' (Nat.le_refl _) ⟨rfl, rfl⟩ ?_ hl
    intro j u u' _ hu hb
    simp only [Option.map_eq_some'] at hb
    obtain ⟨w, hw, rfl⟩ := hb
    have hf := exchangeSolutionFl_temperatures rnd expFl u.1 w j (j + 1) _ hw
    exact ⟨hf.1.trans hu.1, hf.2.trans hu.2⟩
  unfold exchangeSolutionsFl exchangeSchedule at h
  split at h
  · exact key 0 h
  · exact key 1 h

/-- Whenever the loop of `Solve` in float64 arithmetic returns, the ladder and the
configuration are as before. -/
theorem solveLoopFl_temperatures (rnd : α → FVal α) (expFl : α → FVal α)
    (workerDraws : Nat → Nat → Nat → α) (draws : Nat → α) (s s' : TPSA α × Nat)
    (h : solveLoopFl rnd expFl workerDraws draws s = some s') :
    s'.1.Temperatures = s.1.Temperatures ∧ s'.1.toTPSAConfig = s.1.toTPSAConfig := by
  refine forLoop_inv
    (fun _ (u : TPSA α × Nat) =>
      u.1.Temperatures = s.1.Temperatures ∧ u.1.toTPSAConfig = s.1.toTPSAConfig)
    _ s.1.MaxIteration.toNat 0 s s' ⟨rfl, rfl⟩ ?_ h
  intro it u u' _ _ hu hb
  simp only [Option.bind_eq_bind, Option.bind_eq_some] at hb
  obtain ⟨u1, e1, e2⟩ := hb
  have h1 : u1.Temperatures = u.1.Temperatures ∧ u1.toTPSAConfig = u.1.toTPSAConfig := by
    refine forLoop_inv
      (fun _ (v : TPSA α) =>
        v.Temperatures = u.1.Temperatures ∧ v.toTPSAConfig = u.1.toTPSAConfig)
      _ u.1.Thread.toNat 0 u.1 u1 ⟨rfl, rfl⟩ ?_ e1
    intro i v v' _ _ hv hbv
    have := saFl_temperatures rnd expFl v v' i _ hbv
    exact ⟨this.1.trans hv.1, this.2.trans hv.2⟩
  have h2 := exchangeSolutionsFl_temperatures rnd expFl draws (it : Int) (u1, u.2) u' e2
  exact ⟨h2.1.trans (h1.1.trans hu.1), h2.2.trans (h1.2.trans hu.2)⟩

end FrameFl
end Tpsa


namespace Tpsa
section LadderFl
variable {α : Type} [LinearOrderedField α]

/-- The ladder loop of `makeInitialData` with any value `val i MinTemp` stored in round
`i`: it returns, changes `Temperatures` only, and puts the value of round `i` in the slot
`n - 1 - i`. -/
theorem ladderLoop_val (val : Nat → α → FVal α) (u0 : TPSA α) (n : Nat)
    (hn : (n : Int) = u0.Thread) (hlen : u0.Temperatures.length = n) :
    ∃ temps, forLoop (fun i u =>
          (setAt u.Temperatures (u.Thread - 1 - i) (val i u.MinTemp)).map
            (fun temps => { u with Temperatures := temps })) n 0 u0
        = some { u0 with Temperatures := temps } ∧
      temps.length = n ∧
      ∀ i, i < n → temps[n - 1 - i]? = some (val i u0.MinTemp) := by
  obtain ⟨u, hu, temps, rfl, h1, h2⟩ := forLoop_total
    (fun i u => ∃ temps, u = { u0 with Temperatures := temps } ∧ temps.length = n ∧
      ∀ r, r < i → temps[n - 1 - r]? = some (val r u0.MinTemp))
    (fun i u =>
      (setAt u.Temperatures (u.Thread - 1 - i) (val i u.MinTemp)).map
        (fun temps => { u with Temperatures := temps })) n 0 u0
    ⟨u0.Temperatures, rfl, hlen, by intro r hr; omega⟩
    (by
      intro i u _ hi hu
      obtain ⟨temps, rfl, h1, h2⟩ := hu
      have hc : (0 : Int) ≤ u0.Thread - 1 - (i : Int) ∧
          u0.Thread - 1 - (i : Int) < (temps.length : Int) := by
        constructor <;> omega
      have hidx : (u0.Thread - 1 - (i : Int)).toNat = n - 1 - i := by omega
      have key : ∀ v : FVal α,
          (setAt temps (u0.Thread - 1 - (i : Int)) v).map
            (fun x => ({ u0 with Temperatures := x } : TPSA α))
          = some { u0 with Temperatures := temps.set (n - 1 - i) v } := by
        intro v
        simp only [setAt, hc, and_self, if_true, Option.map_some', hidx]
      refine ⟨_, key _, _, rfl, by simp [h1], ?_⟩
      intro r hr
      rw [List.getElem?_set]
      by_cases h : n - 1 - i = n - 1 - r
      · have e : r = i := by omega
        subst e
        rw [if_pos rfl, if_pos (by omega)]
      · rw [if_neg h]; exact h2 r (by omega))
  exact ⟨temps, hu, h1, fun i hi => h2 i (by omega)⟩

/-- With a non-negative `Thread`, `makeInitialData` in float64 arithmetic returns: the
configuration is as before, the ladder has `Thread` entries, and the slot `Thread - 1 - i`
holds the value of round `i`. -/
theorem makeInitialDataFl_spec (rnd : α → FVal α) (t : TPSA α) (pick : Nat → Nat)
    (h : 0 ≤ t.Thread) :
    ∃ t0, makeInitialDataFl rnd t pick = some t0 ∧ t0.toTPSAConfig = t.toTPSAConfig ∧
      t0.Temperatures.length = t.Thread.toNat ∧
      ∀ i, i < t.Thread.toNat → t0.Temperatures[t.Thread.toNat - 1 - i]? =
        some (FVal.addR rnd
          (FVal.mulR rnd
            (FVal.divR rnd (FVal.subR rnd (FVal.fin t.MaxTemp) (FVal.fin t.MinTemp))
              (rnd (((t.Thread - 1 : Int)) : α)))
            (rnd (i : α)))
          (FVal.fin t.MinTemp)) := by
  obtain ⟨temps, e1, h1, h2⟩ := ladderLoop_val
    (fun i m => FVal.addR rnd
      (FVal.mulR rnd
        (FVal.divR rnd (FVal.subR rnd (FVal.fin t.MaxTemp) (FVal.fin t.MinTemp))
          (rnd (((t.Thread - 1 : Int)) : α)))
        (rnd (i : α)))
      (FVal.fin m))
    ({ t with Temperatures := List.replicate t.Thread.toNat (FVal.fin 0),
              Tours := List.replicate t.Thread.toNat [] } : TPSA α)
    t.Thread.toNat (by simp; omega) (by simp)
  obtain ⟨tour, e2, hp⟩ := shuffle_spec pick (List.range t.Size)
  have hlen : tour.length = t.Size := by rw [hp.length_eq, List.length_range]
  have e3 := fillLoop_spec t.Thread.toNat tour
    (fun u : TPSA α => copy (List.replicate u.Size 0) tour) (fun u : TPSA α => u.Tours)
    (fun u l => { u with Tours := l }) (fun _ _ => rfl) (fun _ _ _ => rfl)
    ({ t with Temperatures := temps, Tours := List.replicate t.Thread.toNat [] } : TPSA α)
    (List.replicate t.Thread.toNat [])
    (fun _ => copy_of_length_eq t.Size tour hlen) (by simp)
  refine ⟨{ t with Temperatures := temps, Tours := List.replicate t.Thread.toNat tour },
    ?_, rfl, h1, h2⟩
  simp only [makeInitialDataFl, if_neg (not_lt.mpr h), Option.bind_eq_bind]
  rw [e1]
  simp only [Option.some_bind, appendLoop_spec, e2]
  exact e3

end LadderFl
end Tpsa


namespace Tpsa
section OrderFl
variable {α : Type} [LinearOrderedField α]

theorem le_fin_cases (a : α) (v : FVal α) (h : FVal.le (FVal.fin a) v = true) :
    v = FVal.pinf ∨ ∃ x, v = FVal.fin x ∧ a ≤ x := by
  cases v with
  | fin x => exact Or.inr ⟨x, rfl, by simpa [FVal.le] using h⟩
  | pinf => exact Or.inl rfl
  | ninf => simp [FVal.le] at h
  | nan => simp [FVal.le] at h

theorem fin_le_cases (a : α) (v : FVal α) (h : FVal.le v (FVal.fin a) = true) :
    v = FVal.ninf ∨ ∃ x, v = FVal.fin x ∧ x ≤ a := by
  cases v with
  | fin x => exact Or.inr ⟨x, rfl, by simpa [FVal.le] using h⟩
  | pinf => simp [FVal.le] at h
  | ninf => exact Or.inl rfl
  | nan => simp [FVal.le] at h

theorem le_pinf_of_ne_nan (v : FVal α) (h : v ≠ FVal.nan) : FVal.le v FVal.pinf = true := by
  cases v with
  | fin x => rfl
  | pinf => rfl
  | ninf => rfl
  | nan => exact absurd rfl h

theorem ne_nan_of_le_self (v : FVal α) (h : FVal.le v v = true) : v ≠ FVal.nan := by
  intro e
  rw [e] at h
  simp [FVal.le] at h

/-- The values of the ladder of `makeInitialData` in float64 arithmetic, for a rounding
that is monotone, leaves `0`, `1`, `MinTemp` and its own results alone and maps the
integers up to `n` to finite values: when `MaxTemp - MinTemp` has not overflowed, the value
of round `0` is `MinTemp` and the value grows with the round. -/
theorem ladder_values (rnd : α → FVal α)
    (hmono : ∀ x y, x ≤ y → FVal.le (rnd x) (rnd y) = true)
    (hzero : rnd 0 = FVal.fin 0) (hone : rnd 1 = FVal.fin 1)
    (hidem : ∀ x y, rnd x = FVal.fin y → rnd y = FVal.fin y)
    (mx mn dv : α) (n : Int) (hn : 1 ≤ n) (hle : mn ≤ mx)
    (hd : FVal.subR rnd (FVal.fin mx) (FVal.fin mn) = FVal.fin dv)
    (hmin : rnd mn = FVal.fin mn)
    (hint : ∀ i : Nat, (i : Int) ≤ n → ∃ f, rnd (i : α) = FVal.fin f) :
    FVal.addR rnd
        (FVal.mulR rnd
          (FVal.divR rnd (FVal.subR rnd (FVal.fin mx) (FVal.fin mn)) (rnd (n : α)))
          (rnd ((0 : Nat) : α)))
        (FVal.fin mn) = FVal.fin mn ∧
    ∀ i j : Nat, i ≤ j → (j : Int) ≤ n →
      FVal.le
        (FVal.addR rnd
          (FVal.mulR rnd
            (FVal.divR rnd (FVal.subR rnd (FVal.fin mx) (FVal.fin mn)) (rnd (n : α)))
            (rnd (i : α)))
          (FVal.fin mn))
        (FVal.addR rnd
          (FVal.mulR rnd
            (FVal.divR rnd (FVal.subR rnd (FVal.fin mx) (FVal.fin mn)) (rnd (n : α)))
            (rnd (j : α)))
          (FVal.fin mn)) = true := by
  have hd' : rnd (mx + -mn) = FVal.fin dv := hd
  have hdv : rnd dv = FVal.fin dv := hidem _ _ hd'
  have hdv0 : 0 ≤ dv := by
    have := hmono 0 (mx + -mn) (by linarith)
    rw [hzero, hd'] at this
    simpa [FVal.le] using this
  -- the interval is a finite number that is not negative
  obtain ⟨iv, hiv, hiv0⟩ : ∃ iv,
      FVal.divR rnd (FVal.subR rnd (FVal.fin mx) (FVal.fin mn)) (rnd (n : α)) = FVal.fin iv ∧
        0 ≤ iv := by
    rw [hd]
    have h1 : FVal.le (FVal.fin 1) (rnd (n : α)) = true := by
      have := hmono 1 (n : α) (by exact_mod_cast hn)
      rwa [hone] at this
    rcases le_fin_cases 1 _ h1 with e | ⟨nv, e, hnv⟩
    · rw [e]
      exact ⟨0, rfl, le_refl _⟩
    · rw [e]
      have hnv0 : nv ≠ 0 := by
        intro e0
        rw [e0] at hnv
        linarith
      have hq0 : 0 ≤ dv / nv := div_nonneg hdv0 (by linarith)
      have hq1 : dv / nv ≤ dv := div_le_self hdv0 hnv
      have hlow := hmono 0 (dv / nv) hq0
      have hup := hmono (dv / nv) dv hq1
      rw [hzero] at hlow
      rw [hdv] at hup
      rcases fin_le_cases dv _ hup with e2 | ⟨x, e2, _⟩
      · rw [e2] at hlow
        simp [FVal.le] at hlow
      · refine ⟨x, ?_, ?_⟩
        · show (if nv = 0 then FVal.signedInf dv else rnd (dv / nv)) = FVal.fin x
          rw [if_neg hnv0, e2]
        · rw [e2] at hlow
          simpa [FVal.le] using hlow
  rw [hiv]
  -- the value of a round
  have hround : ∀ i : Nat, (i : Int) ≤ n → ∃ f, rnd (i : α) = FVal.fin f ∧ 0 ≤ f := by
    intro i hi
    obtain ⟨f, hf⟩ := hint i hi
    refine ⟨f, hf, ?_⟩
    have := hmono 0 (i : α) (Nat.cast_nonneg i)
    rw [hzero, hf] at this
    simpa [FVal.le] using this
  constructor
  · rw [Nat.cast_zero, hzero, mulR_fin, mul_zero, hzero, addR_fin, zero_add, hmin]
  · intro i j hij hj
    obtain ⟨fi, hfi, hfi0⟩ := hround i (by omega)
    obtain ⟨fj, hfj, hfj0⟩ := hround j hj
    have hfij : fi ≤ fj := by
      have := hmono (i : α) (j : α) (by exact_mod_cast hij)
      rw [hfi, hfj] at this
      simpa [FVal.le] using this
    rw [hfi, hfj, mulR_fin, mulR_fin]
    have hprod := hmono (iv * fi) (iv * fj) (mul_le_mul_of_nonneg_left hfij hiv0)
    have hpi := hmono 0 (iv * fi) (mul_nonneg hiv0 hfi0)
    rw [hzero] at hpi
    rcases le_fin_cases 0 _ hpi with ei | ⟨x, ei, _⟩
    · -- the product of round `i` has overflowed, so has the product of round `j`
      rw [ei] at hprod ⊢
      have ej : rnd (iv * fj) = FVal.pinf := by
        cases hc : rnd (iv * fj) with
        | fin y => rw [hc] at hprod; simp [FVal.le] at hprod
        | pinf => rfl
        | ninf => rw [hc] at hprod; simp [FVal.le] at hprod
        | nan => rw [hc] at hprod; simp [FVal.le] at hprod
      rw [ej]
      rfl
    · rw [ei] at hprod ⊢
      rcases le_fin_cases x _ hprod with ej | ⟨y, ej, hxy⟩
      · rw [ej]
        show FVal.le (rnd (x + mn)) FVal.pinf = true
        exact le_pinf_of_ne_nan _ (ne_nan_of_le_self _ (hmono _ _ (le_refl _)))
      · rw [ej]
        show FVal.le (rnd (x + mn)) (rnd (y + mn)) = true
        exact hmono _ _ (by linarith)

end OrderFl
end Tpsa


namespace Tpsa
section C16
variable {α : Type} [LinearOrderedField α]

/-- C16, the claim as stated fails. With `Thread = 2`, `MinTemp = -2^1023` and
`MaxTemp = 2^1023`, so that `MaxTemp >= MinTemp`, the difference `MaxTemp - MinTemp`
overflows to `+Inf` in `float64`; `interval` is `+Inf`, the value of round `0` is
`Inf * 0 + MinTemp`, a `NaN`, and the ladder is `[+Inf, NaN]`: the comparison
`Temperatures[0] >= Temperatures[1]` fails and the last slot does not hold `MinTemp`. -/
theorem ladder_nonincreasing_counterexample :
    (2 : Int) ≤ wideState.Thread ∧ wideState.MinTemp ≤ wideState.MaxTemp ∧
      ∃ t0, makeInitialDataFl roundF64 wideState (fun m => m) = some t0 ∧
        t0.Temperatures[0]? = some FVal.pinf ∧ t0.Temperatures[1]? = some FVal.nan ∧
        FVal.le (FVal.nan : FVal ℚ) FVal.pinf = false ∧
        (FVal.nan : FVal ℚ) ≠ FVal.fin wideState.MinTemp := by
  have hpos : 0 < hugeCost := by unfold hugeCost; positivity
  refine ⟨by decide, ?_, ?_⟩
  · show -hugeCost ≤ hugeCost
    linarith
  obtain ⟨t0, e, _, _, hslot⟩ := makeInitialDataFl_spec roundF64 wideState (fun m => m)
    (by decide)
  have hsub : FVal.subR roundF64 (FVal.fin wideState.MaxTemp) (FVal.fin wideState.MinTemp)
      = FVal.pinf := by
    show FVal.subR roundF64 (FVal.fin hugeCost) (FVal.fin (-hugeCost)) = FVal.pinf
    rw [subR_fin, neg_neg, roundF64_huge_sum]
  have hn : roundF64 (((wideState.Thread - 1 : Int)) : ℚ) = FVal.fin 1 := by
    have e1 : (((wideState.Thread - 1 : Int)) : ℚ) = 1 := by
      show (((2 - 1 : Int)) : ℚ) = 1
      norm_num
    rw [e1, roundF64_one]
  have hiv : FVal.divR roundF64 (FVal.pinf : FVal ℚ) (FVal.fin 1) = FVal.pinf := by
    simp [FVal.divR, FVal.div]
  have h0 := hslot 0 (by decide)
  have h1 := hslot 1 (by decide)
  rw [hsub, hn, hiv] at h0 h1
  have c0 : roundF64 ((0 : Nat) : ℚ) = FVal.fin 0 := by rw [Nat.cast_zero, roundF64_zero]
  have c1 : roundF64 ((1 : Nat) : ℚ) = FVal.fin 1 := by rw [Nat.cast_one, roundF64_one]
  rw [c0] at h0
  rw [c1] at h1
  have m0 : FVal.mulR roundF64 (FVal.pinf : FVal ℚ) (FVal.fin 0) = FVal.nan := by
    simp [FVal.mulR, FVal.mul, FVal.signedInf]
  have m1 : FVal.mulR roundF64 (FVal.pinf : FVal ℚ) (FVal.fin 1) = FVal.pinf := by
    simp [FVal.mulR, FVal.mul, FVal.signedInf]
  rw [m0] at h0
  rw [m1] at h1
  refine ⟨t0, e, ?_, ?_, rfl, by simp⟩
  · exact h1
  · exact h0

/-- C16, amended. In float64 arithmetic with a rounding that is monotone and leaves `0`,
`1`, `MinTemp` and its own results alone (`roundF64` is one), for `Thread >= 2`
and `MaxTemp >= MinTemp` whose difference `MaxTemp - MinTemp` has not overflowed: the
ladder built by `makeInitialData` is non-increasing in the slot index, every entry is at
least `MinTemp`, and the last slot, the one whose tour `printSolution` reads, holds
`MinTemp`; whenever the loop of `Solve` returns, after any number of iterations, the
ladder and `Thread` are what `makeInitialData` made them. -/
theorem ladder_nonincreasing (rnd : α → FVal α)
    (hmono : ∀ x y, x ≤ y → FVal.le (rnd x) (rnd y) = true)
    (hzero : rnd 0 = FVal.fin 0) (hone : rnd 1 = FVal.fin 1)
    (hidem : ∀ x y, rnd x = FVal.fin y → rnd y = FVal.fin y)
    (t : TPSA α) (pick : Nat → Nat) (dv : α) (hT : 2 ≤ t.Thread)
    (hle : t.MinTemp ≤ t.MaxTemp)
    (hd : FVal.subR rnd (FVal.fin t.MaxTemp) (FVal.fin t.MinTemp) = FVal.fin dv)
    (hmin : rnd t.MinTemp = FVal.fin t.MinTemp)
    (hint : ∀ i : Nat, (i : Int) < t.Thread → ∃ f, rnd (i : α) = FVal.fin f) :
    ∃ t0, makeInitialDataFl rnd t pick = some t0 ∧
      (∀ k : Nat, (k : Int) + 1 < t.Thread →
        ∃ a b, t0.Temperatures[k]? = some a ∧ t0.Temperatures[k + 1]? = some b ∧
          FVal.le b a = true) ∧
      (∀ k : Nat, (k : Int) < t.Thread →
        ∃ a, t0.Temperatures[k]? = some a ∧ FVal.le (FVal.fin t.MinTemp) a = true) ∧
      t0.Temperatures[(t.Thread - 1).toNat]? = some (FVal.fin t.MinTemp) ∧
      (∀ (expFl : α → FVal α) (workerDraws : Nat → Nat → Nat → α) (draws : Nat → α)
        (d : Nat) (s' : TPSA α × Nat),
        solveLoopFl rnd expFl workerDraws draws (t0, d) = some s' →
        s'.1.Temperatures = t0.Temperatures ∧ s'.1.Thread = t.Thread ∧
        printSolutionFl rnd s'.1 =
          (s'.1.Tours[(t.Thread - 1).toNat]?).bind
            (fun tour => getTotalCostFl rnd s'.1 tour)) := by
  obtain ⟨t0, e, hcfg, _, hslot⟩ := makeInitialDataFl_spec rnd t pick (by omega)
  obtain ⟨hv0, hvmono⟩ := ladder_values rnd hmono hzero hone hidem t.MaxTemp t.MinTemp dv
    (t.Thread - 1) (by omega) hle hd hmin (fun i hi => hint i (by omega))
  have hk : ∀ k : Nat, (k : Int) < t.Thread →
      t0.Temperatures[k]? = some (FVal.addR rnd
        (FVal.mulR rnd
          (FVal.divR rnd (FVal.subR rnd (FVal.fin t.MaxTemp) (FVal.fin t.MinTemp))
            (rnd (((t.Thread - 1 : Int)) : α)))
          (rnd ((t.Thread.toNat - 1 - k : Nat) : α)))
        (FVal.fin t.MinTemp)) := by
    intro k hk
    have h := hslot (t.Thread.toNat - 1 - k) (by omega)
    have e1 : t.Thread.toNat - 1 - (t.Thread.toNat - 1 - k) = k := by omega
    rw [e1] at h
    exact h
  refine ⟨t0, e, ?_, ?_, ?_, ?_⟩
  · intro k hk1
    refine ⟨_, _, hk k (by omega), hk (k + 1) (by push_cast; omega), ?_⟩
    exact hvmono _ _ (by omega) (by omega)
  · intro k hk1
    refine ⟨_, hk k hk1, ?_⟩
    have := hvmono 0 (t.Thread.toNat - 1 - k) (by omega) (by omega)
    rwa [hv0] at this
  · have h := hk (t.Thread - 1).toNat (by omega)
    have e0 : t.Thread.toNat - 1 - (t.Thread - 1).toNat = 0 := by omega
    rw [e0] at h
    rw [h, hv0]
  · intro expFl workerDraws draws d s' hs'
    obtain ⟨h1, h2⟩ := solveLoopFl_temperatures rnd expFl workerDraws draws (t0, d) s' hs'
    have hth : s'.1.Thread = t.Thread := by
      show s'.1.toTPSAConfig.Thread = t.toTPSAConfig.Thread
      rw [h2]
      show t0.toTPSAConfig.Thread = t.toTPSAConfig.Thread
      rw [hcfg]
    refine ⟨h1, hth, ?_⟩
    simp only [printSolutionFl, hth, if_pos (by omega : (0 : Int) ≤ t.Thread - 1),
      Option.bind_eq_bind]

/-- C16, amended, for two slots between `1` and `2`, rounded to `float64`: slot 0 holds a
temperature that is at least that of slot 1, which is `1`. -/
theorem ladder_nonincreasing_witness :
    ∃ t0 a b, makeInitialDataFl roundF64 demoState (fun m => m) = some t0 ∧
      t0.Temperatures[0]? = some a ∧ t0.Temperatures[1]? = some b ∧
      FVal.le b a = true ∧ t0.Temperatures[1]? = some (FVal.fin 1) := by
  have hd : FVal.subR roundF64 (FVal.fin demoState.MaxTemp) (FVal.fin demoState.MinTemp)
      = FVal.fin 1 := by
    show FVal.subR roundF64 (FVal.fin (2 : ℚ)) (FVal.fin 1) = FVal.fin 1
    have e : (2 : ℚ) + -1 = 1 := by norm_num
    rw [subR_fin, e, roundF64_one]
  obtain ⟨t0, h1, h2, _, h4, _⟩ := ladder_nonincreasing roundF64 roundF64_mono roundF64_zero
    roundF64_one roundF64_idem demoState (fun m => m) 1 (by decide)
    (by show (1 : ℚ) ≤ 2; norm_num) hd roundF64_one
    (fun i hi => ⟨_, roundF64_natCast i (by
      have : (i : Int) < 2 := hi
      omega)⟩)
  obtain ⟨a, b, ha, hb, hab⟩ := h2 0 (by decide)
  exact ⟨t0, a, b, h1, ha, hb, hab, h4⟩

end C16
end Tpsa

